import Mathlib

set_option linter.unusedVariables false

/-!
Shallow embedding of the versioned local object store `DataSet` from
`xenonpy/utils/datatools.py`.

Python strings are modelled as `List Char`; the filesystem as an explicit
`World` value (a list of files plus a list of directories); the two
serialization backends (`pandas` pickle and `joblib`) as codec-tagged blobs.
Fallible operations (index errors, missing files, failed regex lookups)
return `Option`.
-/

abbrev Str := List Char

/-- Fuel-driven decimal printer (the fuel only forces structural
recursion; `natToChars` always supplies enough). -/
def natToCharsF : Nat → Nat → Str
  | 0, _ => []
  | fuel + 1, n =>
    if n < 10 then [Nat.digitChar n]
    else natToCharsF fuel (n / 10) ++ [Nat.digitChar (n % 10)]

/-- Decimal digit characters of a natural number, most significant first:
the model of Python `str(num)` for the generation counter. -/
def natToChars (n : Nat) : Str :=
  natToCharsF (n + 1) n

/-- Value of a string of decimal digits: the model of Python `int(...)`
applied to the digits captured by the regex `@\d+\.`. -/
def digitsVal (l : Str) : Nat :=
  l.foldl (fun a c => a * 10 + (c.toNat - 48)) 0

/-- Fuel-driven scanner for the regex `@\d+\.` (the fuel only forces
structural recursion; `findallGen` always supplies enough). -/
def findallGenF : Nat → Str → List Nat
  | 0, _ => []
  | fuel + 1, l =>
    match l with
    | [] => []
    | c :: rest =>
      if c = '@' then
        if rest.takeWhile Char.isDigit ≠ [] ∧
            (rest.dropWhile Char.isDigit).head? = some '.' then
          digitsVal (rest.takeWhile Char.isDigit) ::
            findallGenF fuel (rest.dropWhile Char.isDigit).tail
        else
          findallGenF fuel rest
      else findallGenF fuel rest

/-- All matches of the regex `@\d+\.` in a string, scanned left to right and
non-overlapping exactly as `re.findall` does, each match reported as the
value of its digits (the `[1:-1]` slice of the matched text). -/
def findallGen (l : Str) : List Nat :=
  findallGenF l.length l

/-- Python `s.split('.')`. -/
def splitDots : Str → List Str
  | [] => [[]]
  | c :: t =>
    if c = '.' then [] :: splitDots t
    else
      match splitDots t with
      | [] => [[c]]
      | h :: r => (c :: h) :: r

/-- Python `'.'.join(segments)`. -/
def joinDots (l : List Str) : Str :=
  List.intercalate ['.'] l

/-- The logical-key portion of a file name: `'.'.join(f.name.split('.')[:-3])`. -/
def fnKey (fname : Str) : Str :=
  joinDots ((splitDots fname).take ((splitDots fname).length - 3))

/-- The three-segment tail of a legacy file name:
`'.'.join(f.name.split('.')[-3:])`. -/
def legacyNewName (fname : Str) : Str :=
  joinDots ((splitDots fname).drop ((splitDots fname).length - 3))

/-- Python `pathlib.Path(...).suffix`: the text from the final dot onward,
empty when the name has no dot past its first character. -/
def suffixOf (fname : Str) : Str :=
  let rev := fname.reverse.takeWhile (fun c => c ≠ '.')
  if fname.length ≤ rev.length + 1 then []
  else '.' :: rev.reverse

/-- Boolean list-prefix test. -/
def isPrefixOfB : Str → Str → Bool
  | [], _ => true
  | _ :: _, [] => false
  | a :: as, b :: bs => a = b && isPrefixOfB as bs

/-- Boolean substring test. -/
def isInfixOfB (pat : Str) : Str → Bool
  | [] => isPrefixOfB pat []
  | c :: t => isPrefixOfB pat (c :: t) || isInfixOfB pat t

/-- The glob `*.pkl.*` used by `_make_file_index` to enumerate data files:
the name contains `.pkl.` as a substring. -/
def matchesPkl (fname : Str) : Bool :=
  isInfixOfB (".pkl.".toList) fname

/-- The two pickle readers/writers distinguished by the code:
`pandas.to_pickle`/`read_pickle` versus the `joblib` backend. -/
inductive Codec where
  | pandas
  | joblib
  deriving DecidableEq

/-- A Python runtime value as far as the store cares: a `pandas.DataFrame`
(tabular), any other object, or a dict from keys to values (the shape
`dump` serializes). Payloads are abstracted to numeric identities. -/
inductive Value where
  | df (payload : Nat)
  | obj (payload : Nat)
  | dict (entries : List (Str × Value))

/-- A serialized blob on disk: the codec that wrote it plus the value. -/
structure Blob where
  codec : Codec
  val : Value

/-- One file on disk. -/
structure DiskFile where
  dir : Str
  fname : Str
  mtime : Nat
  blob : Blob

/-- The filesystem: files and directories. -/
structure World where
  files : List DiskFile
  dirs : List Str

def sameFile (d f : Str) (x : DiskFile) : Bool :=
  decide (x.dir = d) && decide (x.fname = f)

/-- Read the file at `dir/fname`, if present. -/
def wGet (w : World) (d f : Str) : Option DiskFile :=
  w.files.find? (sameFile d f)

/-- Write a file, replacing any file already at that path. -/
def wWrite (w : World) (x : DiskFile) : World :=
  { w with files := w.files.filter (fun y => !(sameFile x.dir x.fname y)) ++ [x] }

/-- Python `os.remove`: fails when the path does not exist. -/
def wRemove (w : World) (d f : Str) : Option World :=
  if (wGet w d f).isSome then
    some { w with files := w.files.filter (fun y => !(sameFile d f y)) }
  else none

/-- `Path.mkdir(parents=True, exist_ok=True)` (modulo parent granularity). -/
def wMkdir (w : World) (d : Str) : World :=
  if d ∈ w.dirs then w else { w with dirs := d :: w.dirs }

/-- Whether path `x` lies at or below directory `d`. -/
def underDir (d : Str) (x : Str) : Bool :=
  decide (x = d) || isPrefixOfB (d ++ ['/']) x

/-- Python `shutil.rmtree`: removes the directory and everything under it;
fails when the directory does not exist. -/
def wRmtree (w : World) (d : Str) : Option World :=
  if d ∈ w.dirs then
    some { files := w.files.filter (fun y => !(underDir d y.dir)),
           dirs := w.dirs.filter (fun y => !(underDir d y)) }
  else none

/-- Python `Path.rename`: moves the record at `dir/src` to `dir/dst`,
silently replacing any file already at `dir/dst` (POSIX semantics);
modification time travels with the file. -/
def wRename (w : World) (d src dst : Str) : World :=
  match wGet w d src with
  | none => w
  | some x =>
    { w with files :=
        (w.files.filter (fun y => !(sameFile d src y) && !(sameFile d dst y))) ++
          [{ x with fname := dst }] }

/-- The directory listing used by `Path.iterdir`. -/
def dirFiles (w : World) (d : Str) : List DiskFile :=
  w.files.filter (fun y => decide (y.dir = d))

/-- Python `os.path.getmtime` (callers only apply it to existing paths). -/
def getmtimeW (w : World) (d f : Str) : Nat :=
  match wGet w d f with
  | some x => x.mtime
  | none => 0

/-- The in-memory state of a `DataSet` instance: its name, its directory
path, its serialization backend, and `self._files`, a mapping (in dict
insertion order) from logical key to the file names under the directory. -/
structure DataSet where
  name : Str
  path : Str
  backend : Codec
  files : List (Str × List Str)

/-- `self._files[k]` as a read: missing keys read as the empty list, as a
`defaultdict(list)` yields. -/
def dGet (fs : List (Str × List Str)) (k : Str) : List Str :=
  match fs.find? (fun kv => decide (kv.1 = k)) with
  | some kv => kv.2
  | none => []

/-- Whether key `k` is present in the index mapping. -/
def dHas (fs : List (Str × List Str)) (k : Str) : Bool :=
  (fs.find? (fun kv => decide (kv.1 = k))).isSome

/-- `self._files[k].append(f)`: appends to the key's list, inserting the key
at the end of the dict order when absent. -/
def dAppend (fs : List (Str × List Str)) (k : Str) (f : Str) :
    List (Str × List Str) :=
  match fs with
  | [] => [(k, [f])]
  | kv :: t => if kv.1 = k then (kv.1, kv.2 ++ [f]) :: t else kv :: dAppend t k f

/-- Replace (or insert at the end) the list stored under key `k`. -/
def dSet (fs : List (Str × List Str)) (k : Str) (v : List Str) :
    List (Str × List Str) :=
  match fs with
  | [] => [(k, v)]
  | kv :: t => if kv.1 = k then (kv.1, v) :: t else kv :: dSet t k v

/-- `del self._files[k]`. -/
def dDelKey (fs : List (Str × List Str)) (k : Str) : List (Str × List Str) :=
  fs.filter (fun kv => !(decide (kv.1 = k)))

/-- Insert into a list sorted by `key`, stably (after equal keys). -/
def insertByKey (key : Str → Nat) (x : Str) : List Str → List Str
  | [] => [x]
  | y :: ys => if key x < key y then x :: y :: ys else y :: insertByKey key x ys

/-- Stable sort by `key`: the result of `list.sort(key=...)`, which is the
unique stable ascending reordering. -/
def sortByKey (key : Str → Nat) : List Str → List Str
  | [] => []
  | x :: xs => insertByKey key x (sortByKey key xs)

/-- The scan loop of `_make_file_index`: classify each listed file name by
its parsed logical key, performing the legacy `unnamed.@x` rename (with a
compatibility warning, counted) as a side effect on the filesystem. -/
def scanFiles (path : Str) :
    List Str → List (Str × List Str) → World → Nat →
    List (Str × List Str) × World × Nat
  | [], fs, w, warns => (fs, w, warns)
  | f :: rest, fs, w, warns =>
    if fnKey f = "unnamed".toList then
      scanFiles path rest (dAppend fs (fnKey f) (legacyNewName f))
        (wRename w path f (legacyNewName f)) (warns + 1)
    else
      scanFiles path rest
        (dAppend fs (if fnKey f = [] then "unnamed".toList else fnKey f) f)
        w warns

/-- `DataSet._make_file_index`: enumerate `*.pkl.*` files, classify them
(migrating legacy names), then sort each key's list by modification time
ascending. Returns the index, the updated filesystem, and how many
compatibility warnings were raised. -/
def make_file_index (path : Str) (w : World) :
    List (Str × List Str) × World × Nat :=
  let listing := ((dirFiles w path).map (fun x => x.fname)).filter matchesPkl
  let r := scanFiles path listing [] w 0
  (r.1.map (fun kv => (kv.1, sortByKey (fun f => getmtimeW r.2.1 path f) kv.2)),
   r.2.1, r.2.2)

/-- `DataSet.__init__` with `ignore_err=True`: bind to `<parent>/<name>`,
create the directory when absent, and build the file index. -/
def mk_dataset (name : Str) (parent : Str) (backend : Codec) (w : World) :
    DataSet × World × Nat :=
  let path := parent ++ '/' :: name
  let w1 := wMkdir w path
  let r := make_file_index path w1
  ({ name := name, path := path, backend := backend, files := r.1 }, r.2.1, r.2.2)

/-- `pandas.read_pickle`. -/
def pdReadPickle (b : Blob) : Option Value :=
  if b.codec = Codec.pandas then some b.val else none

/-- `self._backend.load`. -/
def backendLoad (backend : Codec) (b : Blob) : Option Value :=
  if b.codec = backend then some b.val else none

/-- `DataSet._load_data`: dispatch on the file suffix — `.pd_` files are
read with pandas, everything else with the backend. -/
def load_data (ds : DataSet) (w : World) (f : Str) : Option Value :=
  match wGet w ds.path f with
  | none => none
  | some x =>
    if suffixOf f = ".pd_".toList then pdReadPickle x.blob
    else backendLoad ds.backend x.blob

/-- `isinstance(data, pd.DataFrame)`. -/
def isDataFrame : Value → Bool
  | Value.df _ => true
  | _ => false

/-- `DataSet._save_data`: ensure the directory exists, choose the format
tag by the value's runtime type, write, and return the file name. -/
def save_data (ds : DataSet) (w : World) (v : Value) (filename : Str)
    (t : Nat) : Str × World :=
  let w1 := wMkdir w ds.path
  if isDataFrame v then
    let f := filename ++ ".pkl.pd_".toList
    (f, wWrite w1 { dir := ds.path, fname := f, mtime := t,
                    blob := { codec := Codec.pandas, val := v } })
  else
    let f := filename ++ ".pkl.z".toList
    (f, wWrite w1 { dir := ds.path, fname := f, mtime := t,
                    blob := { codec := ds.backend, val := v } })

/-- `DataSet.save._get_file_index`: `0` for an empty key, else the value of
the last `@\d+\.` match in the full path of the key's final (newest) handle;
`none` models the `IndexError` that `[-1]` raises when no match exists. -/
def get_file_index (ds : DataSet) (fn : Str) : Option Nat :=
  match (dGet ds.files fn).getLast? with
  | none => some 0
  | some f => (findallGen (ds.path ++ '/' :: f)).getLast?

/-- The positional loop of `DataSet.save`: the generation counter is read
from the index once (on the first item, while `num == 0`) and incremented
locally afterwards. Each write stamps a fresh, strictly later mtime. -/
def saveUnnamed : DataSet → World → Nat → Nat → List Value →
    Option (DataSet × World × Nat × Nat)
  | ds, w, t, num, [] => some (ds, w, t, num)
  | ds, w, t, num, v :: vs =>
    match (if num = 0 then get_file_index ds ("unnamed".toList) else some num) with
    | none => none
    | some n0 =>
      let n := n0 + 1
      let r := save_data ds w v ('@' :: natToChars n) t
      saveUnnamed { ds with files := dAppend ds.files ("unnamed".toList) r.1 }
        r.2 (t + 1) n vs

/-- The keyword loop of `DataSet.save`: each named key's generation is
computed independently from the current index state. -/
def saveNamed : DataSet → World → Nat → List (Str × Value) →
    Option (DataSet × World × Nat)
  | ds, w, t, [] => some (ds, w, t)
  | ds, w, t, (k, v) :: rest =>
    match get_file_index ds k with
    | none => none
    | some g =>
      let n := g + 1
      let r := save_data ds w v (k ++ '.' :: '@' :: natToChars n) t
      saveNamed { ds with files := dAppend ds.files k r.1 } r.2 (t + 1) rest

/-- `DataSet.save(*unnamed_data, **named_data)`. `t` is the clock stamping
modification times; it advances by one per file written. -/
def save (ds : DataSet) (w : World) (t : Nat)
    (unnamed : List Value) (named : List (Str × Value)) :
    Option (DataSet × World × Nat) :=
  match saveUnnamed ds w t 0 unnamed with
  | none => none
  | some (ds1, w1, t1, _) => saveNamed ds1 w1 t1 named

/-- `DataSet.last(name)`: deserialize the final handle of the key's list
(`'unnamed'` when the name is omitted); `none` models the `IndexError`
raised on an empty key. -/
def lastOp (ds : DataSet) (w : World) (name : Option Str) : Option Value :=
  let k := match name with
           | none => "unnamed".toList
           | some n => n
  match (dGet ds.files k).getLast? with
  | none => none
  | some f => load_data ds w f

/-- A Python `int` or `slice` (with default step) used as a subscript. -/
inductive PyIndex where
  | int (i : Int)
  | slice (a b : Option Int)

/-- Negative-index normalization for `list[i]`. -/
def pyNormIdx (n : Nat) (i : Int) : Int :=
  if i < 0 then i + n else i

/-- `list[i]` for an integer index; `none` is `IndexError`. -/
def pyGet {α : Type} (l : List α) (i : Int) : Option α :=
  let j := pyNormIdx l.length i
  if j < 0 then none else l.get? j.toNat

/-- Clamp a slice bound into `[0, n]` after negative-index adjustment. -/
def pyClamp (n : Nat) (i : Int) : Nat :=
  let j := if i < 0 then i + n else i
  if j < 0 then 0 else min j.toNat n

/-- Normalized `[start, stop)` bounds of `l[a:b]`. -/
def pyBounds (n : Nat) (a b : Option Int) : Nat × Nat :=
  (match a with
   | none => 0
   | some i => pyClamp n i,
   match b with
   | none => n
   | some i => pyClamp n i)

/-- `list[a:b]`: never raises. -/
def pySlice {α : Type} (l : List α) (a b : Option Int) : List α :=
  ((l.take (pyBounds l.length a b).2).drop (pyBounds l.length a b).1)

/-- `del list[index]` for an int or slice subscript. -/
def pyDelete {α : Type} (l : List α) : PyIndex → Option (List α)
  | PyIndex.int i =>
    let j := pyNormIdx l.length i
    if j < 0 then none
    else if j.toNat < l.length then some (l.eraseIdx j.toNat) else none
  | PyIndex.slice a b =>
    some ((l.take (pyBounds l.length a b).1) ++
      l.drop (max (pyBounds l.length a b).1 (pyBounds l.length a b).2))

/-- The subscript shapes `__getitem__` accepts: a bare int-or-slice
(addressing `'unnamed'`), a bare key string, or a `(key, int-or-slice)`
pair. -/
inductive Item where
  | idx (i : PyIndex)
  | key (k : Str)
  | keyIdx (k : Str) (i : PyIndex)

/-- Result of a load access: a single value for an int subscript, a list of
values for a slice. -/
inductive GRes where
  | one (v : Value)
  | many (vs : List Value)

/-- Deserialize every file of a slice result. -/
def loadAll (ds : DataSet) (w : World) : List Str → Option (List Value)
  | [] => some []
  | f :: rest =>
    match load_data ds w f, loadAll ds w rest with
    | some v, some vs => some (v :: vs)
    | _, _ => none

/-- The `_load_file` helper inside `__getitem__`. -/
def loadFile (ds : DataSet) (w : World) (hs : List Str) :
    PyIndex → Option GRes
  | PyIndex.int i =>
    match pyGet hs i with
    | none => none
    | some f => (load_data ds w f).map GRes.one
  | PyIndex.slice a b => (loadAll ds w (pySlice hs a b)).map GRes.many

/-- `DataSet.__getitem__`. A bare key is re-dispatched as
`(key, slice(None, None, None))` exactly as the source does. -/
def getitem (ds : DataSet) (w : World) : Item → Option GRes
  | Item.idx i => loadFile ds w (dGet ds.files ("unnamed".toList)) i
  | Item.key k => loadFile ds w (dGet ds.files k) (PyIndex.slice none none)
  | Item.keyIdx k i => loadFile ds w (dGet ds.files k) i

/-- `os.remove` over a list of file names, failing on the first miss. -/
def removeAll (w : World) (d : Str) : List Str → Option World
  | [] => some w
  | f :: rest =>
    match wRemove w d f with
    | none => none
    | some w1 => removeAll w1 d rest

/-- The key addressed by `rm`: the source tests `if not name`, so both an
omitted and an empty name address `'unnamed'`. -/
def rmKey (name : Option Str) : Str :=
  match name with
  | none => "unnamed".toList
  | some n => if n = [] then "unnamed".toList else n

/-- `DataSet.rm(index, name)`: delete the selected files from disk, then
delete the same positions from the in-memory list. -/
def rmOp (ds : DataSet) (w : World) (index : PyIndex) (name : Option Str) :
    Option (DataSet × World) :=
  match index with
  | PyIndex.int i =>
    match pyGet (dGet ds.files (rmKey name)) i with
    | none => none
    | some f =>
      match wRemove w ds.path f with
      | none => none
      | some w1 =>
        match pyDelete (dGet ds.files (rmKey name)) (PyIndex.int i) with
        | none => none
        | some hs1 =>
          some ({ ds with files := dSet ds.files (rmKey name) hs1 }, w1)
  | PyIndex.slice a b =>
    match removeAll w ds.path (pySlice (dGet ds.files (rmKey name)) a b) with
    | none => none
    | some w1 =>
      match pyDelete (dGet ds.files (rmKey name)) (PyIndex.slice a b) with
      | none => none
      | some hs1 =>
        some ({ ds with files := dSet ds.files (rmKey name) hs1 }, w1)

/-- `DataSet.clean(name)`: with a name, remove that key's files from disk
and delete the key from the index; with no name, remove the whole store
directory recursively and reset the index to empty. -/
def cleanOp (ds : DataSet) (w : World) (name : Option Str) :
    Option (DataSet × World) :=
  match name with
  | none =>
    match wRmtree w ds.path with
    | none => none
    | some w1 => some ({ ds with files := [] }, w1)
  | some k =>
    match removeAll w ds.path (dGet ds.files k) with
    | none => none
    | some w1 => some ({ ds with files := dDelKey ds.files k }, w1)

/-- A wall-clock instant as `datetime.now()` exposes it. -/
structure PyTime where
  year : Nat
  month : Nat
  day : Nat
  hour : Nat
  minute : Nat
  second : Nat
  micro : Nat

/-- Zero-pad the decimal digits of `n` to the given width. -/
def padZ (width : Nat) (n : Nat) : Str :=
  List.replicate (width - (natToChars n).length) '0' ++ natToChars n

/-- `datetime.now().strftime('-%Y-%m-%d_%H-%M-%S_%f')`: the timestamp
suffix, with `%f` at microsecond precision. -/
def fmtDatetime (tm : PyTime) : Str :=
  '-' :: (padZ 4 tm.year ++ '-' :: padZ 2 tm.month ++ '-' :: padZ 2 tm.day ++
    '_' :: padZ 2 tm.hour ++ '-' :: padZ 2 tm.minute ++ '-' :: padZ 2 tm.second ++
    '_' :: padZ 6 tm.micro)

/-- The dict comprehension in `dump`:
`{k: self._load_data(v[-1]) for k, v in self._files.items()}`. Fails (as
`v[-1]` does) when any key's list is empty. -/
def snapshotGo (ds : DataSet) (w : World) :
    List (Str × List Str) → Option (List (Str × Value))
  | [] => some []
  | (k, hs) :: rest =>
    match hs.getLast? with
    | none => none
    | some f =>
      match load_data ds w f, snapshotGo ds w rest with
      | some v, some m => some ((k, v) :: m)
      | _, _ => none

def snapshot (ds : DataSet) (w : World) : Option (List (Str × Value)) :=
  snapshotGo ds w ds.files

/-- `DataSet.dump(fpath, rename=..., with_datetime=...)`: snapshot every
key's newest entry, create the target directory when absent, serialize the
snapshot dict with the backend under
`<rename-or-name><-timestamp?>.pkl.z`, and return the written path. -/
def dumpOp (ds : DataSet) (w : World) (fpath : Str) (rename : Option Str)
    (withDatetime : Bool) (now : PyTime) (t : Nat) : Option (Str × World) :=
  match snapshot ds w with
  | none => none
  | some ret =>
    let nm := match rename with
              | some r => if r = [] then ds.name else r
              | none => ds.name
    let dtStr := if withDatetime then fmtDatetime now else []
    let w1 := wMkdir w fpath
    let f := nm ++ dtStr ++ ".pkl.z".toList
    some (fpath ++ '/' :: f,
      wWrite w1 { dir := fpath, fname := f, mtime := t,
                  blob := { codec := ds.backend, val := Value.dict ret } })

/-- The attribute names resolved by normal lookup on a `DataSet` instance
(its defined operations and properties), for which `__getattr__` never
fires. -/
def definedAttrs : List Str :=
  ["name".toList, "path".toList, "dump".toList, "last".toList,
   "rm".toList, "clean".toList, "save".toList]

/-- A `DataSet` instance together with the extra attributes `setattr` has
cached on it. -/
structure DSHost where
  ds : DataSet
  attrs : List (Str × DataSet)

/-- Attribute access on a store: defined operations resolve normally
(modelled as `none` here since no sub-store is involved); otherwise a
cached child is returned, or a new child `DataSet(name, path=str(self._path),
backend=self._backend)` is constructed, cached via `setattr`, and
returned. -/
def getattrOp (p : DSHost) (w : World) (n : Str) :
    Option (DataSet × DSHost × World) :=
  if n ∈ definedAttrs then none
  else
    match p.attrs.find? (fun kv => decide (kv.1 = n)) with
    | some kv => some (kv.2, p, w)
    | none =>
      let r := mk_dataset n p.ds.path p.ds.backend w
      some (r.1, { p with attrs := p.attrs ++ [(n, r.1)] }, r.2.1)

/-- The save and delete operations of the store. -/
inductive Op where
  | sv (unnamed : List Value) (named : List (Str × Value))
  | del (i : PyIndex) (name : Option Str)
  | cl (name : Option Str)

def runOp (ds : DataSet) (w : World) (t : Nat) :
    Op → Option (DataSet × World × Nat)
  | Op.sv u n => save ds w t u n
  | Op.del i name =>
    match rmOp ds w i name with
    | none => none
    | some r => some (r.1, r.2, t)
  | Op.cl name =>
    match cleanOp ds w name with
    | none => none
    | some r => some (r.1, r.2, t)

/-- Run a sequence of save/delete operations, stopping at the first raised
exception. -/
def runOps : DataSet → World → Nat → List Op → Option (DataSet × World × Nat)
  | ds, w, t, [] => some (ds, w, t)
  | ds, w, t, op :: rest =>
    match runOp ds w t op with
    | none => none
    | some (ds1, w1, t1) => runOps ds1 w1 t1 rest

/-- A logical key as passed through `**named_data` by keyword-argument
syntax: nonempty, free of the separator characters the naming scheme
reserves, and distinct from the reserved key. -/
def validKey (k : Str) : Prop :=
  k ≠ [] ∧ k ≠ "unnamed".toList ∧ '.' ∉ k ∧ '@' ∉ k ∧ '/' ∉ k

instance (k : Str) : Decidable (validKey k) := by
  unfold validKey
  infer_instance

/-- The key text actually embedded in a file name: empty for the reserved
unnamed key, the key itself otherwise. -/
def keyTag (k : Str) : Str :=
  if k = "unnamed".toList then [] else k

/-- The parsed generation of a handle, exactly as `_get_file_index` reads
it back from the full path. -/
def genOf (path f : Str) : Option Nat :=
  (findallGen (path ++ '/' :: f)).getLast?

/-- Parse the generation of every handle in a list. -/
def gensOf (path : Str) : List Str → Option (List Nat)
  | [] => some []
  | f :: rest =>
    match genOf path f, gensOf path rest with
    | some g, some gs => some (g :: gs)
    | _, _ => none

/-- All generations parse and are strictly increasing along the list. -/
def sortedSome (o : Option (List Nat)) : Prop :=
  match o with
  | none => False
  | some gl => List.Pairwise (fun a b => a < b) gl

instance (o : Option (List Nat)) : Decidable (sortedSome o) :=
  match o with
  | none => isFalse (fun h => h)
  | some gl => inferInstanceAs (Decidable (List.Pairwise _ gl))

/-- Every file name appearing in the index, across all keys. -/
def allHandles (ds : DataSet) : List Str :=
  ds.files.flatMap (fun kv => kv.2)

/-- The well-formedness invariant a store reaches from a fresh directory:
unique keys; every nonempty key is the reserved one or keyword-shaped;
every handle's parsed key text matches its key; generations strictly
increase along each key's list; and the store directory holds exactly
index-tracked files, without duplicates. -/
def StoreInv (ds : DataSet) (w : World) : Prop :=
  (ds.files.map Prod.fst).Nodup ∧
  (∀ kv ∈ ds.files, kv.1 = "unnamed".toList ∨ validKey kv.1 ∨ kv.2 = []) ∧
  (∀ kv ∈ ds.files, ∀ f ∈ kv.2, fnKey f = keyTag kv.1) ∧
  (∀ kv ∈ ds.files, sortedSome (gensOf ds.path kv.2)) ∧
  (∀ x ∈ dirFiles w ds.path, x.fname ∈ allHandles ds) ∧
  ((dirFiles w ds.path).map (fun x => x.fname)).Nodup

instance (ds : DataSet) (w : World) : Decidable (StoreInv ds w) := by
  unfold StoreInv
  infer_instance

/-- Validity of the inputs of one operation: named saves carry distinct
keyword-shaped keys. -/
def opValid : Op → Prop
  | Op.sv _ named =>
    (named.map Prod.fst).Nodup ∧ ∀ kv ∈ named, validKey kv.1
  | Op.del _ _ => True
  | Op.cl _ => True

instance (op : Op) : Decidable (opValid op) := by
  cases op <;> (unfold opValid; infer_instance)

/-- The maximum of a list of generation numbers (`0` when empty). -/
def maxGen (gl : List Nat) : Nat :=
  gl.foldr max 0

/-- The suffix `_save_data` appends: `.pkl.pd_` for DataFrames (written by
pandas), `.pkl.z` for everything else (written by the backend). -/
def sfx (v : Value) : Str :=
  if isDataFrame v then ".pkl.pd_".toList else ".pkl.z".toList

/-- The file names the positional loop of `save` generates when the
generation counter starts from base `M`: `@<M+1><suffix>`, `@<M+2><suffix>`,
and so on, one per value. -/
def unNames : Nat → List Value → List Str
  | _, [] => []
  | M, v :: vs => ('@' :: natToChars (M + 1) ++ sfx v) :: unNames (M + 1) vs

/-- The generation base a key currently stands at: the maximum of its
parsed generations (`0` when the key is empty or fails to parse). -/
def baseGen (path : Str) (hs : List Str) : Nat :=
  maxGen ((gensOf path hs).getD [])

/-- The file names the keyword loop of `save` generates, one per item:
`<key>.@<base+1><suffix>`, each key's base read from the entry state. -/
def nmNames (path : Str) (fs : List (Str × List Str))
    (items : List (Str × Value)) : List Str :=
  items.map (fun kv =>
    kv.1 ++ '.' :: '@' :: natToChars (baseGen path (dGet fs kv.1) + 1) ++
      sfx kv.2)

/-! ### Lemmas about decimal printing and the generation regex -/

theorem natToCharsF_irrel :
    ∀ (N n f1 f2 : Nat), n ≤ N → n < f1 → n < f2 →
    natToCharsF f1 n = natToCharsF f2 n := by
  intro N
  induction N with
  | zero =>
    intro n f1 f2 hN h1 h2
    have hn0 : n = 0 := by omega
    subst hn0
    rcases f1 with _ | f1
    · omega
    rcases f2 with _ | f2
    · omega
    rfl
  | succ N ih =>
    intro n f1 f2 hN h1 h2
    rcases f1 with _ | f1
    · omega
    rcases f2 with _ | f2
    · omega
    show natToCharsF (f1 + 1) n = natToCharsF (f2 + 1) n
    rw [natToCharsF, natToCharsF]
    by_cases h : n < 10
    · rw [if_pos h, if_pos h]
    · rw [if_neg h, if_neg h,
        ih (n / 10) f1 f2 (by omega) (by omega) (by omega)]

theorem natToChars_eq (n : Nat) :
    natToChars n = if n < 10 then [Nat.digitChar n]
      else natToChars (n / 10) ++ [Nat.digitChar (n % 10)] := by
  show natToCharsF (n + 1) n = _
  rw [natToCharsF]
  by_cases h : n < 10
  · rw [if_pos h, if_pos h]
  · rw [if_neg h, if_neg h]
    show natToCharsF n (n / 10) ++ _ = natToCharsF (n / 10 + 1) (n / 10) ++ _
    rw [natToCharsF_irrel n (n / 10) n (n / 10 + 1) (by omega) (by omega)
      (by omega)]

theorem findallGenF_nil (f : Nat) : findallGenF f [] = [] := by
  rcases f with _ | f <;> rfl

theorem findallGenF_irrel :
    ∀ (N : Nat) (l : Str) (f1 f2 : Nat), l.length ≤ N → l.length ≤ f1 →
    l.length ≤ f2 → findallGenF f1 l = findallGenF f2 l := by
  intro N
  induction N with
  | zero =>
    intro l f1 f2 hN h1 h2
    have hl : l = [] := by
      cases l with
      | nil => rfl
      | cons a t => simp at hN
    subst hl
    rw [findallGenF_nil, findallGenF_nil]
  | succ N ih =>
    intro l f1 f2 hN h1 h2
    cases l with
    | nil => rw [findallGenF_nil, findallGenF_nil]
    | cons c rest =>
      rcases f1 with _ | f1
      · simp at h1
      rcases f2 with _ | f2
      · simp at h2
      simp only [List.length_cons] at hN h1 h2
      have hlen : rest.length ≤ N := by omega
      have hl1 : rest.length ≤ f1 := by omega
      have hl2 : rest.length ≤ f2 := by omega
      have htl : (rest.dropWhile Char.isDigit).tail.length ≤ rest.length := by
        have ha : (rest.dropWhile Char.isDigit).length ≤ rest.length :=
          (List.dropWhile_sublist Char.isDigit).length_le
        have hb : (rest.dropWhile Char.isDigit).tail.length ≤
            (rest.dropWhile Char.isDigit).length := by
          cases rest.dropWhile Char.isDigit <;> simp
        omega
      simp only [findallGenF]
      by_cases hc : c = '@'
      · simp only [if_pos hc]
        by_cases hcond : rest.takeWhile Char.isDigit ≠ [] ∧
            (rest.dropWhile Char.isDigit).head? = some '.'
        · simp only [if_pos hcond]
          rw [ih (rest.dropWhile Char.isDigit).tail f1 f2 (by omega) (by omega)
            (by omega)]
        · simp only [if_neg hcond]
          exact ih rest f1 f2 hlen hl1 hl2
      · simp only [if_neg hc]
        exact ih rest f1 f2 hlen hl1 hl2

theorem findallGen_cons (c : Char) (rest : Str) :
    findallGen (c :: rest) =
      if c = '@' then
        if rest.takeWhile Char.isDigit ≠ [] ∧
            (rest.dropWhile Char.isDigit).head? = some '.' then
          digitsVal (rest.takeWhile Char.isDigit) ::
            findallGen ((rest.dropWhile Char.isDigit).tail)
        else findallGen rest
      else findallGen rest := by
  have htl : (rest.dropWhile Char.isDigit).tail.length ≤ rest.length := by
    have ha : (rest.dropWhile Char.isDigit).length ≤ rest.length :=
      (List.dropWhile_sublist Char.isDigit).length_le
    have hb : (rest.dropWhile Char.isDigit).tail.length ≤
        (rest.dropWhile Char.isDigit).length := by
      cases rest.dropWhile Char.isDigit <;> simp
    omega
  show findallGenF (c :: rest).length (c :: rest) = _
  simp only [List.length_cons, findallGenF]
  by_cases hc : c = '@'
  · simp only [if_pos hc]
    by_cases hcond : rest.takeWhile Char.isDigit ≠ [] ∧
        (rest.dropWhile Char.isDigit).head? = some '.'
    · simp only [if_pos hcond]
      rw [findallGenF_irrel rest.length (rest.dropWhile Char.isDigit).tail
        rest.length (rest.dropWhile Char.isDigit).tail.length (by omega)
        (by omega) (by omega)]
      rfl
    · simp only [if_neg hcond]
      rfl
  · simp only [if_neg hc]
    rfl

theorem natToChars_ne_nil (n : Nat) : natToChars n ≠ [] := by
  rw [natToChars_eq]
  split <;> simp

theorem digitChar_isDigit (n : Nat) (h : n < 10) :
    (Nat.digitChar n).isDigit = true := by
  interval_cases n <;> decide

theorem digitChar_val (n : Nat) (h : n < 10) :
    (Nat.digitChar n).toNat - 48 = n := by
  interval_cases n <;> decide

theorem natToChars_all_digits (n : Nat) :
    ∀ c ∈ natToChars n, c.isDigit = true := by
  induction n using Nat.strong_induction_on with
  | _ n ih =>
    rw [natToChars_eq]
    split
    next h =>
      intro c hc
      simp only [List.mem_singleton] at hc
      subst hc
      exact digitChar_isDigit n h
    next h =>
      intro c hc
      rcases List.mem_append.1 hc with h1 | h2
      · exact ih (n / 10) (Nat.div_lt_self (by omega) (by omega)) c h1
      · simp only [List.mem_singleton] at h2
        subst h2
        exact digitChar_isDigit _ (Nat.mod_lt _ (by omega))

theorem digitsVal_append_one (l : Str) (c : Char) :
    digitsVal (l ++ [c]) = 10 * digitsVal l + (c.toNat - 48) := by
  simp [digitsVal, List.foldl_append]
  ring

theorem digitsVal_natToChars (n : Nat) : digitsVal (natToChars n) = n := by
  induction n using Nat.strong_induction_on with
  | _ n ih =>
    rw [natToChars_eq]
    split
    next h =>
      show digitsVal ([] ++ [Nat.digitChar n]) = n
      rw [digitsVal_append_one]
      simp [digitsVal, digitChar_val n h]
    next h =>
      rw [digitsVal_append_one, ih (n / 10) (Nat.div_lt_self (by omega) (by omega)),
        digitChar_val _ (Nat.mod_lt _ (by omega))]
      omega

theorem not_digit_chars (c : Char) (h : c.isDigit = true) :
    c ≠ '.' ∧ c ≠ '@' ∧ c ≠ '/' := by
  constructor
  · rintro rfl; simp [Char.isDigit] at h
  constructor
  · rintro rfl; simp [Char.isDigit] at h
  · rintro rfl; simp [Char.isDigit] at h

theorem findallGen_no_at (l : Str) (h : '@' ∉ l) : findallGen l = [] := by
  induction l with
  | nil => rfl
  | cons c t ih =>
    rw [findallGen_cons]
    have hc : ¬ c = '@' := by
      intro hq
      exact h (by simp [hq])
    simp only [if_neg hc]
    exact ih (fun hm => h (List.mem_cons_of_mem _ hm))

theorem takeWhile_append_stop (p : Char → Bool) (l : Str) (c : Char) (r : Str)
    (hc : p c = false) : (l ++ c :: r).takeWhile p = l.takeWhile p := by
  induction l with
  | nil => simp [List.takeWhile_cons, hc]
  | cons a t ih => by_cases h : p a <;> simp [List.takeWhile_cons, h, ih]

theorem dropWhile_append_stop (p : Char → Bool) (l : Str) (c : Char) (r : Str)
    (hc : p c = false) : (l ++ c :: r).dropWhile p = l.dropWhile p ++ c :: r := by
  induction l with
  | nil => simp [List.dropWhile_cons, hc]
  | cons a t ih => by_cases h : p a <;> simp [List.dropWhile_cons, h, ih]

theorem takeWhile_all (p : Char → Bool) (l : Str) (h : ∀ x ∈ l, p x = true) :
    l.takeWhile p = l := by
  induction l with
  | nil => rfl
  | cons a t ih =>
    rw [List.takeWhile_cons, if_pos (h a (by simp))]
    rw [ih (fun x hx => h x (List.mem_cons_of_mem _ hx))]

theorem dropWhile_all (p : Char → Bool) (l : Str) (h : ∀ x ∈ l, p x = true) :
    l.dropWhile p = [] := by
  induction l with
  | nil => rfl
  | cons a t ih =>
    rw [List.dropWhile_cons, if_pos (h a (by simp))]
    exact ih (fun x hx => h x (List.mem_cons_of_mem _ hx))

theorem getLast?_cons_ne {α : Type} (a : α) (l : List α) (h : l ≠ []) :
    (a :: l).getLast? = l.getLast? := by
  cases l with
  | nil => exact absurd rfl h
  | cons b t => simp [List.getLast?_cons_cons]


theorem findallGen_last_nil (g : Nat) (post : Str) (hpost : '@' ∉ post) :
    (findallGen ('@' :: (natToChars g ++ '.' :: post))).getLast? = some g := by
  rw [findallGen_cons]
  have hds : (natToChars g ++ '.' :: post).takeWhile Char.isDigit = natToChars g := by
    rw [takeWhile_append_stop _ _ _ _ (by decide)]
    exact takeWhile_all _ _ (natToChars_all_digits g)
  have hds2 : (natToChars g ++ '.' :: post).dropWhile Char.isDigit = '.' :: post := by
    rw [dropWhile_append_stop _ _ _ _ (by decide),
      dropWhile_all _ _ (natToChars_all_digits g), List.nil_append]
  simp only [if_pos rfl, hds, hds2, List.head?_cons, List.tail_cons]
  simp [natToChars_ne_nil g, findallGen_no_at post hpost, digitsVal_natToChars]

theorem findallGen_last_aux (N : Nat) : ∀ (pre : Str), pre.length ≤ N →
    ∀ (g : Nat) (post : Str), '@' ∉ post →
    (findallGen (pre ++ '@' :: (natToChars g ++ '.' :: post))).getLast? = some g := by
  induction N with
  | zero =>
    intro pre hlen g post hpost
    have hpre : pre = [] := by
      cases pre with
      | nil => rfl
      | cons a t => simp at hlen
    subst hpre
    rw [List.nil_append]
    exact findallGen_last_nil g post hpost
  | succ N ih =>
    intro pre hlen g post hpost
    match pre with
    | [] =>
      rw [List.nil_append]
      exact findallGen_last_nil g post hpost
    | c :: pre' =>
      have hl : pre'.length ≤ N := by
        simp only [List.length_cons] at hlen
        omega
      rw [List.cons_append, findallGen_cons]
      by_cases hc : c = '@'
      · rw [if_pos hc]
        have ht := takeWhile_append_stop Char.isDigit pre' '@'
          (natToChars g ++ '.' :: post) (by decide)
        have hd := dropWhile_append_stop Char.isDigit pre' '@'
          (natToChars g ++ '.' :: post) (by decide)
        simp only [ht, hd]
        by_cases h1 : pre'.takeWhile Char.isDigit = []
        · rw [if_neg (by simp [h1])]
          exact ih pre' hl g post hpost
        · rcases hdw : pre'.dropWhile Char.isDigit with _ | ⟨d, ds'⟩
          · simp only [hdw, List.nil_append, List.head?_cons]
            rw [if_neg (by simp)]
            exact ih pre' hl g post hpost
          · simp only [hdw, List.cons_append, List.head?_cons]
            by_cases hdot : d = '.'
            · subst hdot
              rw [if_pos (And.intro h1 rfl)]
              simp only [List.tail_cons]
              have hds : ds'.length ≤ N := by
                have hsub : (pre'.dropWhile Char.isDigit).length ≤ pre'.length :=
                  (List.dropWhile_sublist Char.isDigit).length_le
                rw [hdw] at hsub
                simp only [List.length_cons] at hsub
                omega
              have hrec := ih ds' hds g post hpost
              rw [getLast?_cons_ne _ _ ?hne, hrec]
              case hne =>
                intro hnil
                rw [hnil] at hrec
                simp at hrec
            · rw [if_neg (by simp [hdot])]
              exact ih pre' hl g post hpost
      · rw [if_neg hc]
        exact ih pre' hl g post hpost

/-- The last `@\d+\.` match in `pre ++ '@' ++ digits(g) ++ '.' ++ post` is
`g` whenever no `'@'` occurs after it: `_get_file_index` recovers the
generation a save embedded in a file name, regardless of the directory
part of the path. -/
theorem findallGen_last (pre : Str) (g : Nat) (post : Str) (hpost : '@' ∉ post) :
    (findallGen (pre ++ '@' :: (natToChars g ++ '.' :: post))).getLast? = some g :=
  findallGen_last_aux pre.length pre le_rfl g post hpost

/-- Parsing an unnamed handle `@<n>.pkl.<tag>` yields `n`. -/
theorem genOf_unnamed (path : Str) (n : Nat) (post : Str) (hpost : '@' ∉ post) :
    genOf path ('@' :: (natToChars n ++ '.' :: post)) = some n := by
  unfold genOf
  have : path ++ '/' :: ('@' :: (natToChars n ++ '.' :: post)) =
      (path ++ ['/']) ++ '@' :: (natToChars n ++ '.' :: post) := by
    simp
  rw [this]
  exact findallGen_last _ n post hpost

/-- Parsing a named handle `<k>.@<n>.pkl.<tag>` yields `n`. -/
theorem genOf_named (path k : Str) (n : Nat) (post : Str) (hpost : '@' ∉ post) :
    genOf path (k ++ '.' :: '@' :: (natToChars n ++ '.' :: post)) = some n := by
  unfold genOf
  have : path ++ '/' :: (k ++ '.' :: '@' :: (natToChars n ++ '.' :: post)) =
      (path ++ '/' :: k ++ ['.']) ++ '@' :: (natToChars n ++ '.' :: post) := by
    simp
  rw [this]
  exact findallGen_last _ n post hpost

theorem splitDots_ne_nil (l : Str) : splitDots l ≠ [] := by
  cases l with
  | nil => simp [splitDots]
  | cons c t =>
    rw [splitDots]
    by_cases h : c = '.'
    · simp [h]
    · rw [if_neg h]
      rcases splitDots t with _ | ⟨a, r⟩ <;> simp

theorem splitDots_append_nodot (x y : Str) (hx : ∀ c ∈ x, ¬ c = '.') :
    ∀ h r, splitDots y = h :: r → splitDots (x ++ y) = (x ++ h) :: r := by
  induction x with
  | nil =>
    intro h r hy
    simpa using hy
  | cons c x' ih =>
    intro h r hy
    have hc : ¬ c = '.' := hx c (by simp)
    rw [List.cons_append, splitDots, if_neg hc, ih (fun a ha => hx a (by simp [ha])) h r hy]
    rfl

theorem splitDots_append_pklz (x : Str) (hx : ∀ c ∈ x, ¬ c = '.') :
    splitDots (x ++ ".pkl.z".toList) = [x, "pkl".toList, "z".toList] := by
  have h0 : splitDots (".pkl.z".toList) = [] :: ["pkl".toList, "z".toList] := by decide
  have h := splitDots_append_nodot x (".pkl.z".toList) hx _ _ h0
  simpa using h

theorem splitDots_append_pklpd (x : Str) (hx : ∀ c ∈ x, ¬ c = '.') :
    splitDots (x ++ ".pkl.pd_".toList) = [x, "pkl".toList, "pd_".toList] := by
  have h0 : splitDots (".pkl.pd_".toList) = [] :: ["pkl".toList, "pd_".toList] := by decide
  have h := splitDots_append_nodot x (".pkl.pd_".toList) hx _ _ h0
  simpa using h

theorem no_dot_unnamed_arg (n : Nat) : ∀ c ∈ '@' :: natToChars n, ¬ c = '.' := by
  intro c hc
  rcases List.mem_cons.1 hc with h | h
  · subst h; decide
  · exact (not_digit_chars c (natToChars_all_digits n c h)).1

/-- The key text parsed back from an unnamed save's file name is empty. -/
theorem fnKey_unnamed_z (n : Nat) :
    fnKey (('@' :: natToChars n) ++ ".pkl.z".toList) = [] := by
  unfold fnKey
  rw [splitDots_append_pklz _ (no_dot_unnamed_arg n)]
  simp [joinDots, List.intercalate]

theorem fnKey_unnamed_pd (n : Nat) :
    fnKey (('@' :: natToChars n) ++ ".pkl.pd_".toList) = [] := by
  unfold fnKey
  rw [splitDots_append_pklpd _ (no_dot_unnamed_arg n)]
  simp [joinDots, List.intercalate]

theorem fnKey_named_z (k : Str) (hk : '.' ∉ k) (n : Nat) :
    fnKey ((k ++ '.' :: '@' :: natToChars n) ++ ".pkl.z".toList) = k := by
  have hre : (k ++ '.' :: '@' :: natToChars n) ++ ".pkl.z".toList =
      k ++ '.' :: (('@' :: natToChars n) ++ ".pkl.z".toList) := by
    simp
  have hy : splitDots ('.' :: (('@' :: natToChars n) ++ ".pkl.z".toList)) =
      [] :: [('@' :: natToChars n), "pkl".toList, "z".toList] := by
    rw [splitDots, if_pos rfl, splitDots_append_pklz _ (no_dot_unnamed_arg n)]
  have hs := splitDots_append_nodot k _ (fun c hc => fun he => hk (he ▸ hc)) _ _ hy
  unfold fnKey
  rw [hre, hs]
  simp [joinDots, List.intercalate]

theorem fnKey_named_pd (k : Str) (hk : '.' ∉ k) (n : Nat) :
    fnKey ((k ++ '.' :: '@' :: natToChars n) ++ ".pkl.pd_".toList) = k := by
  have hre : (k ++ '.' :: '@' :: natToChars n) ++ ".pkl.pd_".toList =
      k ++ '.' :: (('@' :: natToChars n) ++ ".pkl.pd_".toList) := by
    simp
  have hy : splitDots ('.' :: (('@' :: natToChars n) ++ ".pkl.pd_".toList)) =
      [] :: [('@' :: natToChars n), "pkl".toList, "pd_".toList] := by
    rw [splitDots, if_pos rfl, splitDots_append_pklpd _ (no_dot_unnamed_arg n)]
  have hs := splitDots_append_nodot k _ (fun c hc => fun he => hk (he ▸ hc)) _ _ hy
  unfold fnKey
  rw [hre, hs]
  simp [joinDots, List.intercalate]

theorem suffixOf_pklz (x : Str) : suffixOf (x ++ ".pkl.z".toList) = ".z".toList := by
  unfold suffixOf
  have h1 : (x ++ ".pkl.z".toList).reverse =
      'z' :: '.' :: 'l' :: 'k' :: 'p' :: '.' :: x.reverse := by
    simp [List.reverse_append]
  rw [h1]
  have h2 : ('z' :: '.' :: 'l' :: 'k' :: 'p' :: '.' :: x.reverse).takeWhile
      (fun c => decide (c ≠ '.')) = ['z'] := by
    simp [List.takeWhile_cons]
  simp only [h2]
  rw [if_neg (by simp)]
  rfl

theorem suffixOf_pklpd (x : Str) : suffixOf (x ++ ".pkl.pd_".toList) = ".pd_".toList := by
  unfold suffixOf
  have h1 : (x ++ ".pkl.pd_".toList).reverse =
      '_' :: 'd' :: 'p' :: '.' :: 'l' :: 'k' :: 'p' :: '.' :: x.reverse := by
    simp [List.reverse_append]
  rw [h1]
  have h2 : ('_' :: 'd' :: 'p' :: '.' :: 'l' :: 'k' :: 'p' :: '.' :: x.reverse).takeWhile
      (fun c => decide (c ≠ '.')) = ['_', 'd', 'p'] := by
    simp [List.takeWhile_cons]
  simp only [h2]
  rw [if_neg (by simp)]
  rfl

/-! ### Lemmas about the stable mtime sort -/

theorem mem_insertByKey (key : Str → Nat) (x y : Str) (l : List Str) :
    y ∈ insertByKey key x l ↔ y = x ∨ y ∈ l := by
  induction l with
  | nil => simp [insertByKey]
  | cons a t ih =>
    rw [insertByKey]
    by_cases h : key x < key a
    · rw [if_pos h]
      simp
    · rw [if_neg h]
      simp [ih]
      tauto

theorem insertByKey_pairwise (key : Str → Nat) (x : Str) (l : List Str)
    (h : l.Pairwise (fun a b => key a ≤ key b)) :
    (insertByKey key x l).Pairwise (fun a b => key a ≤ key b) := by
  induction l with
  | nil => simp [insertByKey]
  | cons a t ih =>
    rw [insertByKey]
    rcases List.pairwise_cons.1 h with ⟨ha, ht⟩
    by_cases hlt : key x < key a
    · rw [if_pos hlt]
      refine List.pairwise_cons.2 ⟨?_, h⟩
      intro y hy
      rcases List.mem_cons.1 hy with rfl | hyt
      · omega
      · have := ha y hyt
        omega
    · rw [if_neg hlt]
      refine List.pairwise_cons.2 ⟨?_, ih ht⟩
      intro y hy
      rcases (mem_insertByKey key x y t).1 hy with rfl | hyt
      · omega
      · exact ha y hyt

theorem sortByKey_pairwise (key : Str → Nat) (l : List Str) :
    (sortByKey key l).Pairwise (fun a b => key a ≤ key b) := by
  induction l with
  | nil => simp [sortByKey]
  | cons a t ih =>
    rw [sortByKey]
    exact insertByKey_pairwise key a _ ih

theorem insertByKey_perm (key : Str → Nat) (x : Str) (l : List Str) :
    (insertByKey key x l).Perm (x :: l) := by
  induction l with
  | nil => simp [insertByKey]
  | cons a t ih =>
    rw [insertByKey]
    by_cases h : key x < key a
    · rw [if_pos h]
    · rw [if_neg h]
      exact (ih.cons a).trans (List.Perm.swap x a t)

theorem sortByKey_perm (key : Str → Nat) (l : List Str) :
    (sortByKey key l).Perm l := by
  induction l with
  | nil => simp [sortByKey]
  | cons a t ih =>
    rw [sortByKey]
    exact (insertByKey_perm key a _).trans (ih.cons a)

theorem mem_sortByKey (key : Str → Nat) (l : List Str) (y : Str) :
    y ∈ sortByKey key l ↔ y ∈ l :=
  (sortByKey_perm key l).mem_iff

theorem pairwise_le_getLast? (key : Str → Nat) (l : List Str) (f : Str)
    (hp : l.Pairwise (fun a b => key a ≤ key b)) (hf : l.getLast? = some f) :
    ∀ x ∈ l, key x ≤ key f := by
  induction l with
  | nil => simp at hf
  | cons a t ih =>
    rcases List.pairwise_cons.1 hp with ⟨ha, ht⟩
    intro x hx
    cases t with
    | nil =>
      simp at hf hx
      subst hf
      subst hx
      exact le_rfl
    | cons b t' =>
      rw [getLast?_cons_ne a (b :: t') (by simp)] at hf
      rcases List.mem_cons.1 hx with rfl | hxt
      · exact ha f (List.mem_of_mem_getLast? hf)
      · exact ih ht hf x hxt

theorem pairwise_lt_getLast? (gl : List Nat) (g : Nat)
    (hp : gl.Pairwise (fun a b => a < b)) (hg : gl.getLast? = some g) :
    ∀ x ∈ gl, x ≤ g := by
  induction gl with
  | nil => simp at hg
  | cons a t ih =>
    rcases List.pairwise_cons.1 hp with ⟨ha, ht⟩
    intro x hx
    cases t with
    | nil =>
      simp at hg hx
      subst hg
      subst hx
      exact le_rfl
    | cons b t' =>
      rw [getLast?_cons_ne a (b :: t') (by simp)] at hg
      rcases List.mem_cons.1 hx with rfl | hxt
      · exact le_of_lt (ha g (List.mem_of_mem_getLast? hg))
      · exact ih ht hg x hxt

theorem pairwise_lt_nodup (gl : List Nat) (hp : gl.Pairwise (fun a b => a < b)) :
    gl.Nodup :=
  hp.imp (fun h => Nat.ne_of_lt h)

/-- For a strictly increasing generation list, the final element is the
maximum. -/
theorem maxGen_eq_getLast (gl : List Nat) (g : Nat)
    (hp : gl.Pairwise (fun a b => a < b)) (hg : gl.getLast? = some g) :
    maxGen gl = g := by
  induction gl with
  | nil => simp at hg
  | cons a t ih =>
    rcases List.pairwise_cons.1 hp with ⟨ha, ht⟩
    cases t with
    | nil =>
      simp at hg
      subst hg
      simp [maxGen]
    | cons b t' =>
      rw [getLast?_cons_ne a (b :: t') (by simp)] at hg
      have hmax := ih ht hg
      have hle : a ≤ g := le_of_lt (ha g (List.mem_of_mem_getLast? hg))
      show max a (maxGen (b :: t')) = g
      rw [hmax]
      omega

/-! ### Lemmas about the key-to-handles index -/

theorem dGet_cons (kv : Str × List Str) (t : List (Str × List Str)) (k : Str) :
    dGet (kv :: t) k = if kv.1 = k then kv.2 else dGet t k := by
  by_cases h : kv.1 = k
  · simp [dGet, List.find?_cons, h]
  · simp [dGet, List.find?_cons, h]

theorem dGet_nil (k : Str) : dGet [] k = [] := rfl

theorem dGet_dAppend_same (fs : List (Str × List Str)) (k : Str) (f : Str) :
    dGet (dAppend fs k f) k = dGet fs k ++ [f] := by
  induction fs with
  | nil => simp [dAppend, dGet_cons, dGet_nil]
  | cons kv t ih =>
    rw [dAppend]
    by_cases h : kv.1 = k
    · rw [if_pos h]
      rw [dGet_cons, if_pos h, dGet_cons, if_pos h]
    · rw [if_neg h]
      rw [dGet_cons, if_neg h, dGet_cons, if_neg h, ih]

theorem dGet_dAppend_other (fs : List (Str × List Str)) (k' k : Str) (f : Str)
    (h : k ≠ k') : dGet (dAppend fs k' f) k = dGet fs k := by
  induction fs with
  | nil =>
    rw [dAppend, dGet_cons, if_neg (fun he => h he.symm), dGet_nil]
  | cons kv t ih =>
    rw [dAppend]
    by_cases hk : kv.1 = k'
    · rw [if_pos hk]
      rw [dGet_cons, dGet_cons]
      have : ¬ kv.1 = k := fun he => h (he.symm.trans hk)
      rw [if_neg this, if_neg this]
    · rw [if_neg hk, dGet_cons, dGet_cons, ih]

theorem dGet_dSet_same (fs : List (Str × List Str)) (k : Str) (v : List Str) :
    dGet (dSet fs k v) k = v := by
  induction fs with
  | nil => simp [dSet, dGet_cons]
  | cons kv t ih =>
    rw [dSet]
    by_cases h : kv.1 = k
    · rw [if_pos h, dGet_cons, if_pos h]
    · rw [if_neg h, dGet_cons, if_neg h, ih]

theorem dGet_dSet_other (fs : List (Str × List Str)) (k' k : Str) (v : List Str)
    (h : k ≠ k') : dGet (dSet fs k' v) k = dGet fs k := by
  induction fs with
  | nil =>
    rw [dSet, dGet_cons, if_neg (fun he => h he.symm), dGet_nil]
  | cons kv t ih =>
    rw [dSet]
    by_cases hk : kv.1 = k'
    · rw [if_pos hk, dGet_cons, dGet_cons]
      have : ¬ kv.1 = k := fun he => h (he.symm.trans hk)
      rw [if_neg this, if_neg this]
    · rw [if_neg hk, dGet_cons, dGet_cons, ih]

theorem dGet_dDelKey_same (fs : List (Str × List Str)) (k : Str) :
    dGet (dDelKey fs k) k = [] := by
  induction fs with
  | nil => rfl
  | cons kv t ih =>
    rw [dDelKey]
    by_cases h : kv.1 = k
    · simpa [List.filter_cons, h] using ih
    · simpa [List.filter_cons, h, dGet_cons, dDelKey] using ih

theorem dGet_dDelKey_other (fs : List (Str × List Str)) (k' k : Str)
    (h : k ≠ k') : dGet (dDelKey fs k') k = dGet fs k := by
  induction fs with
  | nil => rfl
  | cons kv t ih =>
    rw [dDelKey]
    by_cases hk : kv.1 = k'
    · rw [List.filter_cons_of_neg (by simp [hk])]
      rw [dGet_cons, if_neg (fun he => h (he.symm.trans hk))]
      simpa [dDelKey] using ih
    · rw [List.filter_cons_of_pos (by simp [hk])]
      rw [dGet_cons, dGet_cons]
      by_cases hkk : kv.1 = k
      · rw [if_pos hkk, if_pos hkk]
      · rw [if_neg hkk, if_neg hkk]
        simpa [dDelKey] using ih

theorem dHas_dDelKey_same (fs : List (Str × List Str)) (k : Str) :
    dHas (dDelKey fs k) k = false := by
  induction fs with
  | nil => rfl
  | cons kv t ih =>
    rw [dDelKey]
    by_cases h : kv.1 = k
    · simpa [List.filter_cons, h, dDelKey] using ih
    · rw [List.filter_cons_of_pos (by simp [h])]
      simpa [dHas, List.find?_cons, h, dDelKey] using ih

theorem dGet_mem (fs : List (Str × List Str)) (k : Str) (h : dGet fs k ≠ []) :
    (k, dGet fs k) ∈ fs := by
  induction fs with
  | nil => exact absurd rfl h
  | cons kv t ih =>
    rw [dGet_cons] at h ⊢
    by_cases hk : kv.1 = k
    · rw [if_pos hk]
      have : (k, kv.2) = kv := by
        rw [← hk]
      rw [this]
      exact List.mem_cons_self kv t
    · rw [if_neg hk] at h
      rw [if_neg hk]
      exact List.mem_cons_of_mem _ (ih h)

/-! ### Save only ever appends to a key's sequence -/

theorem dGet_dAppend_grows (fs : List (Str × List Str)) (k' k : Str) (f : Str) :
    dGet fs k <+: dGet (dAppend fs k' f) k := by
  by_cases h : k = k'
  · subst h
    rw [dGet_dAppend_same]
    exact ⟨[f], rfl⟩
  · rw [dGet_dAppend_other fs k' k f h]

theorem saveUnnamed_grows :
    ∀ (vs : List Value) (ds : DataSet) (w : World) (t num : Nat) r,
    saveUnnamed ds w t num vs = some r →
    ∀ k, dGet ds.files k <+: dGet r.1.files k := by
  intro vs
  induction vs with
  | nil =>
    intro ds w t num r h k
    rw [saveUnnamed] at h
    cases h
    rfl
  | cons v vs ih =>
    intro ds w t num r h k
    rw [saveUnnamed] at h
    rcases hg : (if num = 0 then get_file_index ds ("unnamed".toList) else some num)
      with _ | n0
    · rw [hg] at h
      cases h
    · rw [hg] at h
      simp only at h
      exact (dGet_dAppend_grows ds.files _ k _).trans (ih _ _ _ _ r h k)

theorem saveNamed_grows :
    ∀ (items : List (Str × Value)) (ds : DataSet) (w : World) (t : Nat) r,
    saveNamed ds w t items = some r →
    ∀ k, dGet ds.files k <+: dGet r.1.files k := by
  intro items
  induction items with
  | nil =>
    intro ds w t r h k
    rw [saveNamed] at h
    cases h
    rfl
  | cons kv items ih =>
    intro ds w t r h k
    rw [saveNamed] at h
    rcases hg : get_file_index ds kv.1 with _ | g
    · rw [hg] at h
      cases h
    · rw [hg] at h
      simp only at h
      exact (dGet_dAppend_grows ds.files _ k _).trans (ih _ _ _ r h k)

theorem save_grows (ds : DataSet) (w : World) (t : Nat)
    (u : List Value) (n : List (Str × Value)) (r : DataSet × World × Nat)
    (h : save ds w t u n = some r) :
    ∀ k, dGet ds.files k <+: dGet r.1.files k := by
  rw [save] at h
  rcases hu : saveUnnamed ds w t 0 u with _ | r1
  · rw [hu] at h
    cases h
  · rw [hu] at h
    intro k
    exact (saveUnnamed_grows u ds w t 0 r1 hu k).trans
      (saveNamed_grows n r1.1 r1.2.1 r1.2.2.1 r h k)

/-! ### Construction: the index is sorted by modification time -/

theorem mk_dataset_proj (name parent : Str) (backend : Codec) (w : World) :
    (mk_dataset name parent backend w).1.files =
      (scanFiles (parent ++ '/' :: name)
        (((dirFiles (wMkdir w (parent ++ '/' :: name)) (parent ++ '/' :: name)).map
          (fun x => x.fname)).filter matchesPkl)
        [] (wMkdir w (parent ++ '/' :: name)) 0).1.map
        (fun kv => (kv.1, sortByKey
          (fun f => getmtimeW
            (scanFiles (parent ++ '/' :: name)
              (((dirFiles (wMkdir w (parent ++ '/' :: name)) (parent ++ '/' :: name)).map
                (fun x => x.fname)).filter matchesPkl)
              [] (wMkdir w (parent ++ '/' :: name)) 0).2.1
            (parent ++ '/' :: name) f) kv.2)) ∧
    (mk_dataset name parent backend w).1.path = parent ++ '/' :: name ∧
    (mk_dataset name parent backend w).2.1 =
      (scanFiles (parent ++ '/' :: name)
        (((dirFiles (wMkdir w (parent ++ '/' :: name)) (parent ++ '/' :: name)).map
          (fun x => x.fname)).filter matchesPkl)
        [] (wMkdir w (parent ++ '/' :: name)) 0).2.1 := by
  refine ⟨rfl, rfl, rfl⟩

/-- C2: for every logical key, the in-memory sequence built at construction
is ordered by on-disk modification time ascending; `last(name)` returns the
deserialized value of the chronologically newest handle (the final one,
whose mtime dominates every other handle of that key, whatever the parsed
generation numbers say); and saves maintain the order by appending. -/
theorem c2_ordering_by_mtime_spec (name parent : Str) (backend : Codec)
    (w : World) (ds : DataSet) (w' : World) (warns : Nat)
    (hmk : mk_dataset name parent backend w = (ds, w', warns)) :
    (∀ kv ∈ ds.files,
      kv.2.Pairwise (fun a b => getmtimeW w' ds.path a ≤ getmtimeW w' ds.path b)) ∧
    (∀ k f, (dGet ds.files k).getLast? = some f →
      lastOp ds w' (some k) = load_data ds w' f ∧
      ∀ x ∈ dGet ds.files k, getmtimeW w' ds.path x ≤ getmtimeW w' ds.path f) ∧
    (∀ ds0 w0 t u nd r, save ds0 w0 t u nd = some r →
      ∀ k, dGet ds0.files k <+: dGet r.1.files k) := by
  have hds : ds = (mk_dataset name parent backend w).1 := by rw [hmk]
  have hw' : w' = (mk_dataset name parent backend w).2.1 := by rw [hmk]
  obtain ⟨hfiles, hpath, hworld⟩ := mk_dataset_proj name parent backend w
  have hsorted : ∀ kv ∈ ds.files,
      kv.2.Pairwise (fun a b => getmtimeW w' ds.path a ≤ getmtimeW w' ds.path b) := by
    intro kv hkv
    rw [hds, hfiles] at hkv
    rcases List.mem_map.1 hkv with ⟨kv0, hkv0, hkveq⟩
    subst hkveq
    have := sortByKey_pairwise
      (fun f => getmtimeW
        (scanFiles (parent ++ '/' :: name)
          (((dirFiles (wMkdir w (parent ++ '/' :: name)) (parent ++ '/' :: name)).map
            (fun x => x.fname)).filter matchesPkl)
          [] (wMkdir w (parent ++ '/' :: name)) 0).2.1
        (parent ++ '/' :: name) f) kv0.2
    have hwp : w' = (scanFiles (parent ++ '/' :: name)
        (((dirFiles (wMkdir w (parent ++ '/' :: name)) (parent ++ '/' :: name)).map
          (fun x => x.fname)).filter matchesPkl)
        [] (wMkdir w (parent ++ '/' :: name)) 0).2.1 := hw'.trans hworld
    have hdp : ds.path = parent ++ '/' :: name := by
      rw [hds, hpath]
    rw [hwp, hdp]
    exact this
  refine ⟨hsorted, ?_, ?_⟩
  · intro k f hf
    have hne : dGet ds.files k ≠ [] := by
      intro hnil
      rw [hnil] at hf
      simp at hf
    have hmem := dGet_mem ds.files k hne
    have hpw := hsorted (k, dGet ds.files k) hmem
    constructor
    · show lastOp ds w' (some k) = load_data ds w' f
      unfold lastOp
      simp only
      rw [hf]
    · exact pairwise_le_getLast? _ _ f hpw hf
  · intro ds0 w0 t u nd r h k
    exact save_grows ds0 w0 t u nd r h k

/-- Witness for C2: a store opened over two unnamed files whose modification
order disagrees with their generation numbers (`@1` is newer on disk than
`@2`) indexes them mtime-ascending, and `last()` returns the content of the
artificially newer `@1` file. -/
theorem c2_ordering_by_mtime_witness :
    dGet (mk_dataset ("d".toList) ("p".toList) Codec.joblib
        ⟨[⟨"p/d".toList, "@1.pkl.z".toList, 10, ⟨Codec.joblib, Value.obj 1⟩⟩,
          ⟨"p/d".toList, "@2.pkl.z".toList, 5, ⟨Codec.joblib, Value.obj 2⟩⟩],
         []⟩).1.files ("unnamed".toList) =
      ["@2.pkl.z".toList, "@1.pkl.z".toList] ∧
    lastOp (mk_dataset ("d".toList) ("p".toList) Codec.joblib
        ⟨[⟨"p/d".toList, "@1.pkl.z".toList, 10, ⟨Codec.joblib, Value.obj 1⟩⟩,
          ⟨"p/d".toList, "@2.pkl.z".toList, 5, ⟨Codec.joblib, Value.obj 2⟩⟩],
         []⟩).1
      (mk_dataset ("d".toList) ("p".toList) Codec.joblib
        ⟨[⟨"p/d".toList, "@1.pkl.z".toList, 10, ⟨Codec.joblib, Value.obj 1⟩⟩,
          ⟨"p/d".toList, "@2.pkl.z".toList, 5, ⟨Codec.joblib, Value.obj 2⟩⟩],
         []⟩).2.1
      (some ("unnamed".toList)) = some (Value.obj 1) := by
  have h := c2_ordering_by_mtime_spec ("d".toList) ("p".toList) Codec.joblib
    ⟨[⟨"p/d".toList, "@1.pkl.z".toList, 10, ⟨Codec.joblib, Value.obj 1⟩⟩,
      ⟨"p/d".toList, "@2.pkl.z".toList, 5, ⟨Codec.joblib, Value.obj 2⟩⟩],
     []⟩ _ _ _ rfl
  refine ⟨by decide, ?_⟩
  have h2 := (h.2.1 ("unnamed".toList) ("@1.pkl.z".toList) (by decide)).1
  exact h2.trans (by rfl)

/-! ### Access to empty keys -/

theorem pyGet_nil {α : Type} (i : Int) : pyGet ([] : List α) i = none := by
  unfold pyGet pyNormIdx
  simp

theorem pySlice_nil {α : Type} (a b : Option Int) :
    pySlice ([] : List α) a b = [] := by
  unfold pySlice
  simp

/-- Counterexample to C4 as stated: on a freshly constructed empty store,
a bare-key access and a range access to a key with zero entries do not
fail — they silently return the empty list — while `last` and integer
access do fail. -/
theorem c4_empty_key_counterexample :
    dGet (mk_dataset ("d".toList) ("p".toList) Codec.joblib ⟨[], []⟩).1.files
      ("k".toList) = [] ∧
    getitem (mk_dataset ("d".toList) ("p".toList) Codec.joblib ⟨[], []⟩).1
      (mk_dataset ("d".toList) ("p".toList) Codec.joblib ⟨[], []⟩).2.1
      (Item.key ("k".toList)) = some (GRes.many []) ∧
    getitem (mk_dataset ("d".toList) ("p".toList) Codec.joblib ⟨[], []⟩).1
      (mk_dataset ("d".toList) ("p".toList) Codec.joblib ⟨[], []⟩).2.1
      (Item.keyIdx ("k".toList) (PyIndex.slice (some 0) (some 2))) =
      some (GRes.many []) := by
  refine ⟨by decide, by rfl, by rfl⟩

/-- C4 as amended: on a key with zero entries, `last` and integer-index
access fail with a propagated out-of-range condition, while range access
and bare-key access return the empty sequence (standard slice semantics)
rather than failing. -/
theorem c4_empty_key_spec (ds : DataSet) (w : World) (k : Str)
    (h : dGet ds.files k = []) :
    lastOp ds w (some k) = none ∧
    (k = "unnamed".toList → lastOp ds w none = none) ∧
    (∀ i : Int, getitem ds w (Item.keyIdx k (PyIndex.int i)) = none) ∧
    (k = "unnamed".toList → ∀ i : Int,
      getitem ds w (Item.idx (PyIndex.int i)) = none) ∧
    (∀ a b : Option Int,
      getitem ds w (Item.keyIdx k (PyIndex.slice a b)) = some (GRes.many [])) ∧
    (k = "unnamed".toList → ∀ a b : Option Int,
      getitem ds w (Item.idx (PyIndex.slice a b)) = some (GRes.many [])) ∧
    getitem ds w (Item.key k) = some (GRes.many []) := by
  have hlast : lastOp ds w (some k) = none := by
    unfold lastOp
    simp only [h]
    rfl
  have hint : ∀ i : Int, loadFile ds w (dGet ds.files k) (PyIndex.int i) = none := by
    intro i
    rw [loadFile, h, pyGet_nil]
  have hslice : ∀ a b : Option Int,
      loadFile ds w (dGet ds.files k) (PyIndex.slice a b) = some (GRes.many []) := by
    intro a b
    rw [loadFile, h, pySlice_nil]
    rfl
  refine ⟨hlast, ?_, ?_, ?_, ?_, ?_, ?_⟩
  · intro hk
    show (match (dGet ds.files ("unnamed".toList)).getLast? with
      | none => none
      | some f => load_data ds w f) = none
    rw [← hk, h]
    rfl
  · intro i
    show loadFile ds w (dGet ds.files k) (PyIndex.int i) = none
    exact hint i
  · intro hk i
    show loadFile ds w (dGet ds.files ("unnamed".toList)) (PyIndex.int i) = none
    rw [← hk]
    exact hint i
  · intro a b
    exact hslice a b
  · intro hk a b
    show loadFile ds w (dGet ds.files ("unnamed".toList)) (PyIndex.slice a b) =
      some (GRes.many [])
    rw [← hk]
    exact hslice a b
  · show loadFile ds w (dGet ds.files k) (PyIndex.slice none none) =
      some (GRes.many [])
    exact hslice none none

/-- Witness for the amended C4 at a concrete empty store. -/
theorem c4_empty_key_witness :
    dGet (mk_dataset ("d".toList) ("p".toList) Codec.joblib ⟨[], []⟩).1.files
      ("k".toList) = [] ∧
    lastOp (mk_dataset ("d".toList) ("p".toList) Codec.joblib ⟨[], []⟩).1
      (mk_dataset ("d".toList) ("p".toList) Codec.joblib ⟨[], []⟩).2.1
      (some ("k".toList)) = none ∧
    getitem (mk_dataset ("d".toList) ("p".toList) Codec.joblib ⟨[], []⟩).1
      (mk_dataset ("d".toList) ("p".toList) Codec.joblib ⟨[], []⟩).2.1
      (Item.keyIdx ("k".toList) (PyIndex.int 0)) = none := by
  have h := c4_empty_key_spec
    (mk_dataset ("d".toList) ("p".toList) Codec.joblib ⟨[], []⟩).1
    (mk_dataset ("d".toList) ("p".toList) Codec.joblib ⟨[], []⟩).2.1
    ("k".toList) (by decide)
  exact ⟨by decide, h.1, h.2.2.1 0⟩

/-! ### Writes land on disk and read back -/

theorem find?_append_none {α : Type} (p : α → Bool) (l1 l2 : List α)
    (h : l1.find? p = none) : (l1 ++ l2).find? p = l2.find? p := by
  induction l1 with
  | nil => simp
  | cons a t ih =>
    rcases hp : p a with _ | _
    · simp only [List.cons_append, List.find?_cons, hp] at h ⊢
      exact ih h
    · rw [List.find?_cons, hp] at h
      simp at h

theorem find?_filter_not (l : List DiskFile) (p : DiskFile → Bool) :
    (l.filter (fun y => !(p y))).find? p = none := by
  rw [List.find?_eq_none]
  intro x hx
  rcases List.mem_filter.1 hx with ⟨_, hnp⟩
  simp at hnp
  simp [hnp]

theorem wGet_wWrite_same (w : World) (x : DiskFile) :
    wGet (wWrite w x) x.dir x.fname = some x := by
  unfold wGet wWrite
  rw [find?_append_none _ _ _ (find?_filter_not _ _)]
  rw [List.find?_cons]
  have : sameFile x.dir x.fname x = true := by
    simp [sameFile]
  rw [this]

theorem getLast?_concat' {α : Type} (l : List α) (a : α) :
    (l ++ [a]).getLast? = some a := by
  induction l with
  | nil => rfl
  | cons b t ih =>
    rw [List.cons_append, getLast?_cons_ne _ _ (by simp), ih]

theorem save_data_fname (ds : DataSet) (w : World) (v : Value) (filename : Str)
    (t : Nat) :
    (save_data ds w v filename t).1 =
      filename ++ (if isDataFrame v then ".pkl.pd_".toList else ".pkl.z".toList) := by
  unfold save_data
  by_cases h : isDataFrame v <;> simp [h]

theorem save_data_world (ds : DataSet) (w : World) (v : Value) (filename : Str)
    (t : Nat) :
    (save_data ds w v filename t).2 =
      wWrite (wMkdir w ds.path)
        ⟨ds.path, (save_data ds w v filename t).1, t,
          ⟨if isDataFrame v then Codec.pandas else ds.backend, v⟩⟩ := by
  unfold save_data
  by_cases h : isDataFrame v <;> simp [h]

theorem load_save_data (ds ds2 : DataSet) (w : World) (v : Value)
    (filename : Str) (t : Nat)
    (hpath : ds2.path = ds.path) (hbackend : ds2.backend = ds.backend) :
    load_data ds2 (save_data ds w v filename t).2
      (save_data ds w v filename t).1 = some v := by
  unfold load_data
  rw [save_data_world, save_data_fname, hpath]
  by_cases hdf : isDataFrame v
  · simp only [hdf, if_true]
    have hw := wGet_wWrite_same (wMkdir w ds.path)
      ⟨ds.path, filename ++ ".pkl.pd_".toList, t, ⟨Codec.pandas, v⟩⟩
    simp only at hw
    rw [hw]
    rw [suffixOf_pklpd]
    simp [pdReadPickle]
  · simp only [hdf, if_false, Bool.false_eq_true]
    have hw := wGet_wWrite_same (wMkdir w ds.path)
      ⟨ds.path, filename ++ ".pkl.z".toList, t, ⟨ds.backend, v⟩⟩
    simp only at hw
    rw [hw]
    rw [suffixOf_pklz]
    simp [backendLoad, hbackend]

theorem save_single_unnamed (ds : DataSet) (w : World) (t : Nat) (v : Value)
    (g : Nat) (hg : get_file_index ds ("unnamed".toList) = some g) :
    save ds w t [v] [] = some
      ({ ds with files := (dAppend ds.files ("unnamed".toList)
          (save_data ds w v ('@' :: natToChars (g + 1)) t).1) },
       (save_data ds w v ('@' :: natToChars (g + 1)) t).2, t + 1) := by
  unfold save
  rw [saveUnnamed]
  simp only [if_pos rfl, hg]
  rfl

theorem save_single_named (ds : DataSet) (w : World) (t : Nat) (k : Str)
    (v : Value) (g : Nat) (hg : get_file_index ds k = some g) :
    save ds w t [] [(k, v)] = some
      ({ ds with files := (dAppend ds.files k
          (save_data ds w v (k ++ '.' :: '@' :: natToChars (g + 1)) t).1) },
       (save_data ds w v (k ++ '.' :: '@' :: natToChars (g + 1)) t).2, t + 1) := by
  unfold save
  rw [saveUnnamed]
  show saveNamed ds w t [(k, v)] = _
  rw [saveNamed.eq_def]
  simp only [hg]
  rfl

/-- C8: the write path chooses the tabular format tag (`.pkl.pd_`, written
via pandas) exactly when the value is a DataFrame and the generic tag
(`.pkl.z`, written via the backend) otherwise; the read path dispatches on
the suffix; and saving any value then reading it back through `last`
returns the original value, for both a fresh unnamed save and a fresh
named save. -/
theorem c8_format_roundtrip_spec :
    (∀ (ds : DataSet) (w : World) (v : Value) (filename : Str) (t : Nat),
      (suffixOf (save_data ds w v filename t).1 = ".pd_".toList ↔
        isDataFrame v = true) ∧
      (save_data ds w v filename t).2 = wWrite (wMkdir w ds.path)
        ⟨ds.path, (save_data ds w v filename t).1, t,
          ⟨if isDataFrame v then Codec.pandas else ds.backend, v⟩⟩) ∧
    (∀ (ds : DataSet) (w : World) (t : Nat) (v : Value) (g : Nat),
      get_file_index ds ("unnamed".toList) = some g →
      ∃ ds' w', save ds w t [v] [] = some (ds', w', t + 1) ∧
        lastOp ds' w' none = some v) ∧
    (∀ (ds : DataSet) (w : World) (t : Nat) (k : Str) (v : Value) (g : Nat),
      get_file_index ds k = some g →
      ∃ ds' w', save ds w t [] [(k, v)] = some (ds', w', t + 1) ∧
        lastOp ds' w' (some k) = some v) := by
  refine ⟨?_, ?_, ?_⟩
  · intro ds w v filename t
    constructor
    · rw [save_data_fname]
      by_cases h : isDataFrame v
      · simp only [h, if_true, suffixOf_pklpd]
      · simp only [h, if_false, Bool.false_eq_true, suffixOf_pklz]
        constructor
        · intro hz
          exact absurd hz (by decide)
        · intro htrue
          exact absurd htrue (by simpa using h)
    · exact save_data_world ds w v filename t
  · intro ds w t v g hg
    refine ⟨_, _, save_single_unnamed ds w t v g hg, ?_⟩
    show (match (dGet (dAppend ds.files ("unnamed".toList)
        (save_data ds w v ('@' :: natToChars (g + 1)) t).1) ("unnamed".toList)).getLast? with
      | none => none
      | some f => load_data { ds with files := (dAppend ds.files ("unnamed".toList)
          (save_data ds w v ('@' :: natToChars (g + 1)) t).1) }
          (save_data ds w v ('@' :: natToChars (g + 1)) t).2 f) = some v
    rw [dGet_dAppend_same, getLast?_concat']
    exact load_save_data ds _ w v _ t rfl rfl
  · intro ds w t k v g hg
    refine ⟨_, _, save_single_named ds w t k v g hg, ?_⟩
    show (match (dGet (dAppend ds.files k
        (save_data ds w v (k ++ '.' :: '@' :: natToChars (g + 1)) t).1) k).getLast? with
      | none => none
      | some f => load_data { ds with files := (dAppend ds.files k
          (save_data ds w v (k ++ '.' :: '@' :: natToChars (g + 1)) t).1) }
          (save_data ds w v (k ++ '.' :: '@' :: natToChars (g + 1)) t).2 f) = some v
    rw [dGet_dAppend_same, getLast?_concat']
    exact load_save_data ds _ w v _ t rfl rfl

/-- Witness for C8: round-tripping a DataFrame and a generic object through
a fresh store, with the expected format tags. -/
theorem c8_format_roundtrip_witness :
    (suffixOf (save_data (mk_dataset ("d".toList) ("p".toList) Codec.joblib
        ⟨[], []⟩).1 ⟨[], []⟩ (Value.df 7) ("@1".toList) 3).1 = ".pd_".toList ↔
      isDataFrame (Value.df 7) = true) ∧
    (∃ ds' w', save (mk_dataset ("d".toList) ("p".toList) Codec.joblib
        ⟨[], []⟩).1 ⟨[], []⟩ 3 [Value.df 7] [] = some (ds', w', 4) ∧
      lastOp ds' w' none = some (Value.df 7)) ∧
    (∃ ds' w', save (mk_dataset ("d".toList) ("p".toList) Codec.joblib
        ⟨[], []⟩).1 ⟨[], []⟩ 3 [] [("w".toList, Value.obj 9)] =
          some (ds', w', 4) ∧
      lastOp ds' w' (some ("w".toList)) = some (Value.obj 9)) := by
  refine ⟨(c8_format_roundtrip_spec.1 _ _ _ _ _).1, ?_, ?_⟩
  · exact c8_format_roundtrip_spec.2.1 _ _ 3 (Value.df 7) 0 (by decide)
  · exact c8_format_roundtrip_spec.2.2 _ _ 3 ("w".toList) (Value.obj 9) 0 (by decide)

/-! ### Sub-store attribute access -/

/-- C9: accessing an attribute name that is none of the defined operations
and not yet cached constructs a child store rooted at
`<parent dir>/<name>` with the same backend, caches it on the parent, and
a second access returns the identical cached child and leaves the state
unchanged. -/
theorem c9_subdataset_spec (p : DSHost) (w : World) (n : Str)
    (hdef : n ∉ definedAttrs)
    (hcache : p.attrs.find? (fun kv => decide (kv.1 = n)) = none) :
    ∃ c p' w', getattrOp p w n = some (c, p', w') ∧
      c.path = p.ds.path ++ '/' :: n ∧
      c.backend = p.ds.backend ∧
      c.name = n ∧
      p'.ds = p.ds ∧
      getattrOp p' w' n = some (c, p', w') := by
  refine ⟨(mk_dataset n p.ds.path p.ds.backend w).1,
    { p with attrs := p.attrs ++ [(n, (mk_dataset n p.ds.path p.ds.backend w).1)] },
    (mk_dataset n p.ds.path p.ds.backend w).2.1, ?_, rfl, rfl, rfl, rfl, ?_⟩
  · unfold getattrOp
    rw [if_neg hdef, hcache]
  · unfold getattrOp
    rw [if_neg hdef]
    simp only
    rw [find?_append_none _ _ _ hcache, List.find?_cons]
    simp

/-- Witness for C9 on a concrete fresh store and attribute name. -/
theorem c9_subdataset_witness :
    ∃ c p' w',
      getattrOp ⟨(mk_dataset ("d".toList) ("p".toList) Codec.joblib ⟨[], []⟩).1, []⟩
        (mk_dataset ("d".toList) ("p".toList) Codec.joblib ⟨[], []⟩).2.1
        ("sub".toList) = some (c, p', w') ∧
      c.path = (mk_dataset ("d".toList) ("p".toList) Codec.joblib ⟨[], []⟩).1.path ++
        '/' :: "sub".toList ∧
      c.backend = Codec.joblib ∧
      c.name = "sub".toList ∧
      p'.ds = (mk_dataset ("d".toList) ("p".toList) Codec.joblib ⟨[], []⟩).1 ∧
      getattrOp p' w' ("sub".toList) = some (c, p', w') := by
  have h := c9_subdataset_spec
    ⟨(mk_dataset ("d".toList) ("p".toList) Codec.joblib ⟨[], []⟩).1, []⟩
    (mk_dataset ("d".toList) ("p".toList) Codec.joblib ⟨[], []⟩).2.1
    ("sub".toList) (by decide) (by rfl)
  rcases h with ⟨c, p', w', h1, h2, h3, h4, h5, h6⟩
  exact ⟨c, p', w', h1, h2, h3, h4, h5, h6⟩

/-! ### rm keeps emptied keys in the index -/

theorem pySlice_all {α : Type} (l : List α) : pySlice l none none = l := by
  unfold pySlice pyBounds
  simp

theorem pyDelete_all {α : Type} (l : List α) :
    pyDelete l (PyIndex.slice none none) = some [] := by
  unfold pyDelete pyBounds
  simp

theorem dHas_dSet_same (fs : List (Str × List Str)) (k : Str) (v : List Str) :
    dHas (dSet fs k v) k = true := by
  induction fs with
  | nil => simp [dSet, dHas, List.find?_cons]
  | cons kv t ih =>
    rw [dSet]
    by_cases h : kv.1 = k
    · simp [dHas, List.find?_cons, h]
    · simpa [dHas, List.find?_cons, h] using ih

theorem dSet_mem (fs : List (Str × List Str)) (k : Str) (v : List Str) :
    (k, v) ∈ dSet fs k v := by
  induction fs with
  | nil => simp [dSet]
  | cons kv t ih =>
    rw [dSet]
    by_cases h : kv.1 = k
    · rw [if_pos h]
      have : (k, v) = (kv.1, v) := by rw [h]
      rw [this]
      exact List.mem_cons_self _ _
    · rw [if_neg h]
      exact List.mem_cons_of_mem _ ih

theorem snapshotGo_none (ds : DataSet) (w : World) :
    ∀ fs : List (Str × List Str), (∃ kv ∈ fs, kv.2 = ([] : List Str)) →
    snapshotGo ds w fs = none := by
  intro fs
  induction fs with
  | nil =>
    rintro ⟨kv, hkv, _⟩
    simp at hkv
  | cons kv t ih =>
    rintro ⟨kv0, hkv0, hempty⟩
    rcases List.mem_cons.1 hkv0 with rfl | hmem
    · show snapshotGo ds w ((kv0.1, kv0.2) :: t) = none
      rw [snapshotGo.eq_def]
      simp only [hempty]
      rfl
    · show snapshotGo ds w ((kv.1, kv.2) :: t) = none
      rw [snapshotGo.eq_def]
      simp only
      rcases kv.2.getLast? with _ | f
      · rfl
      · simp only
        rw [ih ⟨kv0, hmem, hempty⟩]
        rcases load_data ds w f with _ | v <;> rfl

/-- C10: `rm` over a key's full range deletes every entry but leaves the
key in the index mapped to the empty sequence, so a subsequent `dump`
raises (returns `none`) on that key's empty list — whereas `clean(name)`
removes the key from the index entirely. -/
theorem c10_rm_keeps_empty_key_spec (ds : DataSet) (w : World) (k : Str)
    (hk : k ≠ []) :
    (∀ ds' w', rmOp ds w (PyIndex.slice none none) (some k) = some (ds', w') →
      dHas ds'.files k = true ∧ dGet ds'.files k = [] ∧
      ∀ (fpath : Str) (rename : Option Str) (wdt : Bool) (now : PyTime)
        (t : Nat), dumpOp ds' w' fpath rename wdt now t = none) ∧
    (∀ ds2 w2, cleanOp ds w (some k) = some (ds2, w2) →
      dHas ds2.files k = false) := by
  constructor
  · intro ds' w' h
    unfold rmOp at h
    have hkey : rmKey (some k) = k := by
      simp [rmKey, hk]
    rw [hkey] at h
    have h2 : (match removeAll w ds.path (pySlice (dGet ds.files k) none none) with
        | none => none
        | some w1 =>
          match pyDelete (dGet ds.files k) (PyIndex.slice none none) with
          | none => none
          | some hs1 =>
            some (({ ds with files := dSet ds.files k hs1 } : DataSet), w1)) =
        some (ds', w') := h
    rcases hrem : removeAll w ds.path (pySlice (dGet ds.files k) none none)
      with _ | w1
    · rw [hrem] at h2
      cases h2
    · rw [hrem, pyDelete_all] at h2
      simp only [Option.some.injEq] at h2
      injection h2 with h1 h2b
      subst h1
      refine ⟨dHas_dSet_same _ _ _, dGet_dSet_same _ _ _, ?_⟩
      intro fpath rename wdt now t
      unfold dumpOp snapshot
      rw [snapshotGo_none _ _ _ ⟨(k, []), dSet_mem ds.files k [], rfl⟩]
  · intro ds2 w2 h
    unfold cleanOp at h
    have h' : (match removeAll w ds.path (dGet ds.files k) with
        | none => none
        | some w1 => some (({ ds with files := dDelKey ds.files k } : DataSet), w1)) =
        some (ds2, w2) := h
    rcases hrem : removeAll w ds.path (dGet ds.files k) with _ | w1
    · rw [hrem] at h'
      cases h'
    · rw [hrem] at h'
      simp only [Option.some.injEq] at h'
      injection h' with h1 h2
      subst h1
      exact dHas_dDelKey_same _ _

/-- Witness for C10 at a concrete one-entry store: a full-range `rm` leaves
key `a` present but empty, `dump` then fails, and `clean("a")` instead
removes the key. -/
theorem c10_rm_keeps_empty_key_witness :
    rmOp ⟨"d".toList, "p/d".toList, Codec.joblib,
        [("a".toList, [("a.@1.pkl.z".toList)])]⟩
      ⟨[⟨"p/d".toList, "a.@1.pkl.z".toList, 1, ⟨Codec.joblib, Value.obj 5⟩⟩],
       ["p/d".toList]⟩
      (PyIndex.slice none none) (some ("a".toList)) =
      some (⟨"d".toList, "p/d".toList, Codec.joblib, [("a".toList, [])]⟩,
        ⟨[], ["p/d".toList]⟩) ∧
    dHas ([("a".toList, ([] : List Str))]) ("a".toList) = true ∧
    dumpOp ⟨"d".toList, "p/d".toList, Codec.joblib, [("a".toList, [])]⟩
      ⟨[], ["p/d".toList]⟩ ("q".toList) none false ⟨0, 0, 0, 0, 0, 0, 0⟩ 9 =
      none ∧
    (∀ ds2 w2, cleanOp ⟨"d".toList, "p/d".toList, Codec.joblib,
        [("a".toList, [("a.@1.pkl.z".toList)])]⟩
      ⟨[⟨"p/d".toList, "a.@1.pkl.z".toList, 1, ⟨Codec.joblib, Value.obj 5⟩⟩],
       ["p/d".toList]⟩ (some ("a".toList)) = some (ds2, w2) →
      dHas ds2.files ("a".toList) = false) := by
  have h := c10_rm_keeps_empty_key_spec
    ⟨"d".toList, "p/d".toList, Codec.joblib,
      [("a".toList, [("a.@1.pkl.z".toList)])]⟩
    ⟨[⟨"p/d".toList, "a.@1.pkl.z".toList, 1, ⟨Codec.joblib, Value.obj 5⟩⟩],
     ["p/d".toList]⟩
    ("a".toList) (by decide)
  have hrm : rmOp ⟨"d".toList, "p/d".toList, Codec.joblib,
      [("a".toList, [("a.@1.pkl.z".toList)])]⟩
    ⟨[⟨"p/d".toList, "a.@1.pkl.z".toList, 1, ⟨Codec.joblib, Value.obj 5⟩⟩],
     ["p/d".toList]⟩
    (PyIndex.slice none none) (some ("a".toList)) =
    some (⟨"d".toList, "p/d".toList, Codec.joblib, [("a".toList, [])]⟩,
      ⟨[], ["p/d".toList]⟩) := by rfl
  obtain ⟨h1, h2, h3⟩ := h.1 _ _ hrm
  exact ⟨hrm, by decide, h3 _ _ _ _ _, h.2⟩

/-! ### clean: per-key file removal and whole-store removal -/

theorem find?_filter_of_imp {α : Type} (p q : α → Bool) (l : List α)
    (h : ∀ x, p x = true → q x = true) :
    (l.filter q).find? p = l.find? p := by
  induction l with
  | nil => rfl
  | cons a t ih =>
    rcases hq : q a with _ | _
    · rw [List.filter_cons_of_neg (by simp [hq])]
      rw [ih, List.find?_cons]
      rcases hp : p a with _ | _
      · rfl
      · exact absurd (h a hp) (by simp [hq])
    · rw [List.filter_cons_of_pos hq, List.find?_cons, List.find?_cons]
      rcases hp : p a with _ | _
      · simp only [ih]
      · rfl

theorem removeAll_files (d : Str) :
    ∀ (fs : List Str) (w w' : World), removeAll w d fs = some w' →
    w'.files = w.files.filter
      (fun y => !(decide (y.dir = d) && decide (y.fname ∈ fs))) ∧
    w'.dirs = w.dirs := by
  intro fs
  induction fs with
  | nil =>
    intro w w' h
    rw [removeAll] at h
    cases h
    simp
  | cons f rest ih =>
    intro w w' h
    rw [removeAll] at h
    rcases hrm : wRemove w d f with _ | w1
    · rw [hrm] at h
      cases h
    · rw [hrm] at h
      obtain ⟨hfiles, hdirs⟩ := ih w1 w' h
      unfold wRemove at hrm
      by_cases hex : (wGet w d f).isSome
      · rw [if_pos hex] at hrm
        injection hrm with hrm1
        constructor
        · rw [hfiles, ← hrm1]
          simp only [List.filter_filter]
          apply List.filter_congr
          intro x hx
          by_cases h1 : x.dir = d <;> by_cases h2 : x.fname = f <;>
            by_cases h3 : x.fname ∈ rest <;>
            simp [sameFile, h1, h2, h3]
        · rw [hdirs, ← hrm1]
      · rw [if_neg hex] at hrm
        cases hrm

theorem wGet_removeAll_removed (d : Str) (fs : List Str) (w w' : World)
    (h : removeAll w d fs = some w') (f : Str) (hf : f ∈ fs) :
    wGet w' d f = none := by
  obtain ⟨hfiles, _⟩ := removeAll_files d fs w w' h
  unfold wGet
  rw [hfiles, List.find?_eq_none]
  intro x hx
  rcases List.mem_filter.1 hx with ⟨_, hn⟩
  intro hs
  have hs' : x.dir = d ∧ x.fname = f := by
    simpa [sameFile] using hs
  have hmem : x.fname ∈ fs := by
    rw [hs'.2]
    exact hf
  simp [hs'.1, hmem] at hn

theorem wGet_removeAll_kept (d : Str) (fs : List Str) (w w' : World)
    (h : removeAll w d fs = some w') (d2 f2 : Str)
    (hkeep : ¬(d2 = d ∧ f2 ∈ fs)) :
    wGet w' d2 f2 = wGet w d2 f2 := by
  obtain ⟨hfiles, _⟩ := removeAll_files d fs w w' h
  unfold wGet
  rw [hfiles]
  apply find?_filter_of_imp
  intro x hx
  have hx' : x.dir = d2 ∧ x.fname = f2 := by
    simpa [sameFile] using hx
  have hgoal : ¬(x.dir = d ∧ x.fname ∈ fs) := by
    rintro ⟨hd, hm⟩
    apply hkeep
    constructor
    · rw [← hx'.1]
      exact hd
    · rw [← hx'.2]
      exact hm
  simp only [Bool.not_eq_true', Bool.and_eq_false_iff, decide_eq_false_iff_not]
  by_cases hd : x.dir = d
  · right
    intro hm
    exact hgoal ⟨hd, hm⟩
  · left
    exact hd

theorem wRemove_dirs (w : World) (d f : Str) (w1 : World)
    (h : wRemove w d f = some w1) : w1.dirs = w.dirs := by
  unfold wRemove at h
  by_cases hex : (wGet w d f).isSome
  · rw [if_pos hex] at h
    injection h with h1
    rw [← h1]
  · rw [if_neg hex] at h
    cases h

theorem wMkdir_dirs_mem (w : World) (d d0 : Str) (h : d0 ∈ w.dirs) :
    d0 ∈ (wMkdir w d).dirs := by
  unfold wMkdir
  by_cases hd : d ∈ w.dirs
  · rw [if_pos hd]
    exact h
  · rw [if_neg hd]
    exact List.mem_cons_of_mem _ h

theorem save_data_dirs_mem (ds : DataSet) (w : World) (v : Value)
    (filename : Str) (t : Nat) (d0 : Str) (h : d0 ∈ w.dirs) :
    d0 ∈ (save_data ds w v filename t).2.dirs := by
  rw [save_data_world]
  exact wMkdir_dirs_mem w ds.path d0 h

theorem saveUnnamed_dirs_mem :
    ∀ (vs : List Value) (ds : DataSet) (w : World) (t num : Nat) r,
    saveUnnamed ds w t num vs = some r →
    ∀ d0 ∈ w.dirs, d0 ∈ r.2.1.dirs := by
  intro vs
  induction vs with
  | nil =>
    intro ds w t num r h d0 hd0
    rw [saveUnnamed] at h
    cases h
    exact hd0
  | cons v vs ih =>
    intro ds w t num r h d0 hd0
    rw [saveUnnamed] at h
    rcases hg : (if num = 0 then get_file_index ds ("unnamed".toList) else some num)
      with _ | n0
    · rw [hg] at h
      cases h
    · rw [hg] at h
      simp only at h
      exact ih _ _ _ _ r h d0 (save_data_dirs_mem ds w v _ t d0 hd0)

theorem saveNamed_dirs_mem :
    ∀ (items : List (Str × Value)) (ds : DataSet) (w : World) (t : Nat) r,
    saveNamed ds w t items = some r →
    ∀ d0 ∈ w.dirs, d0 ∈ r.2.1.dirs := by
  intro items
  induction items with
  | nil =>
    intro ds w t r h d0 hd0
    rw [saveNamed] at h
    cases h
    exact hd0
  | cons kv items ih =>
    intro ds w t r h d0 hd0
    rw [saveNamed] at h
    rcases hg : get_file_index ds kv.1 with _ | g
    · rw [hg] at h
      cases h
    · rw [hg] at h
      simp only at h
      exact ih _ _ _ r h d0 (save_data_dirs_mem ds w kv.2 _ t d0 hd0)

theorem save_dirs_mem (ds : DataSet) (w : World) (t : Nat) (u : List Value)
    (n : List (Str × Value)) (r : DataSet × World × Nat)
    (h : save ds w t u n = some r) : ∀ d0 ∈ w.dirs, d0 ∈ r.2.1.dirs := by
  rw [save] at h
  rcases hu : saveUnnamed ds w t 0 u with _ | r1
  · rw [hu] at h
    cases h
  · rw [hu] at h
    intro d0 hd0
    exact saveNamed_dirs_mem n r1.1 r1.2.1 r1.2.2.1 r h d0
      (saveUnnamed_dirs_mem u ds w t 0 r1 hu d0 hd0)

theorem rmOp_dirs (ds : DataSet) (w : World) (i : PyIndex) (name : Option Str)
    (ds' : DataSet) (w' : World) (h : rmOp ds w i name = some (ds', w')) :
    w'.dirs = w.dirs := by
  unfold rmOp at h
  rcases i with i | ⟨a, b⟩
  · have h2 : (match pyGet (dGet ds.files (rmKey name)) i with
      | none => none
      | some f =>
        match wRemove w ds.path f with
        | none => none
        | some w1 =>
          match pyDelete (dGet ds.files (rmKey name)) (PyIndex.int i) with
          | none => none
          | some hs1 =>
            some (({ ds with files := dSet ds.files (rmKey name) hs1 } : DataSet),
              w1)) = some (ds', w') := h
    rcases hget : pyGet (dGet ds.files (rmKey name)) i with _ | f
    · simp only [hget] at h2
      cases h2
    · simp only [hget] at h2
      rcases hrm : wRemove w ds.path f with _ | w1
      · simp only [hrm] at h2
        cases h2
      · simp only [hrm] at h2
        rcases hdel : pyDelete (dGet ds.files (rmKey name)) (PyIndex.int i)
          with _ | hs1
        · simp only [hdel] at h2
          cases h2
        · simp only [hdel, Option.some.injEq] at h2
          have hw : w1 = w' := congrArg Prod.snd h2
          rw [← hw]
          exact wRemove_dirs w ds.path f w1 hrm
  · have h2 : (match removeAll w ds.path
        (pySlice (dGet ds.files (rmKey name)) a b) with
      | none => none
      | some w1 =>
        match pyDelete (dGet ds.files (rmKey name)) (PyIndex.slice a b) with
        | none => none
        | some hs1 =>
          some (({ ds with files := dSet ds.files (rmKey name) hs1 } : DataSet),
            w1)) = some (ds', w') := h
    rcases hrem : removeAll w ds.path
        (pySlice (dGet ds.files (rmKey name)) a b) with _ | w1
    · simp only [hrem] at h2
      cases h2
    · simp only [hrem] at h2
      rcases hdel : pyDelete (dGet ds.files (rmKey name)) (PyIndex.slice a b)
        with _ | hs1
      · simp only [hdel] at h2
        cases h2
      · simp only [hdel, Option.some.injEq] at h2
        have hw : w1 = w' := congrArg Prod.snd h2
        rw [← hw]
        exact (removeAll_files ds.path _ w w1 hrem).2

/-- C6: `clean(name)` deletes every file stored under that key from disk
and removes the key from the index entirely, leaving other keys' index
entries and files untouched; `clean()` with no key removes the whole store
directory recursively and resets the index to empty; and no other
operation (`save`, `rm`, `clean(name)`, `dump`) ever removes the store
directory. -/
theorem c6_clean_spec (ds : DataSet) (w : World) :
    (∀ k ds' w', cleanOp ds w (some k) = some (ds', w') →
      dHas ds'.files k = false ∧
      (∀ k2, k2 ≠ k → dGet ds'.files k2 = dGet ds.files k2) ∧
      (∀ f ∈ dGet ds.files k, wGet w' ds.path f = none) ∧
      (∀ d2 f2, ¬(d2 = ds.path ∧ f2 ∈ dGet ds.files k) →
        wGet w' d2 f2 = wGet w d2 f2) ∧
      w'.dirs = w.dirs) ∧
    (∀ ds' w', cleanOp ds w none = some (ds', w') →
      ds'.files = [] ∧ ds.path ∉ w'.dirs ∧
      (∀ x ∈ w'.files, underDir ds.path x.dir = false)) ∧
    (∀ op ds1 w1 t t1, op ≠ Op.cl none →
      runOp ds w t op = some (ds1, w1, t1) →
      ∀ d0 ∈ w.dirs, d0 ∈ w1.dirs) ∧
    (∀ fpath rename wdt now t p w2,
      dumpOp ds w fpath rename wdt now t = some (p, w2) →
      ∀ d0 ∈ w.dirs, d0 ∈ w2.dirs) := by
  refine ⟨?_, ?_, ?_, ?_⟩
  · intro k ds' w' h
    unfold cleanOp at h
    have h2 : (match removeAll w ds.path (dGet ds.files k) with
        | none => none
        | some w1 =>
          some (({ ds with files := dDelKey ds.files k } : DataSet), w1)) =
        some (ds', w') := h
    rcases hrem : removeAll w ds.path (dGet ds.files k) with _ | w1
    · simp only [hrem] at h2
      cases h2
    · simp only [hrem, Option.some.injEq] at h2
      have hds : ({ ds with files := dDelKey ds.files k } : DataSet) = ds' :=
        congrArg Prod.fst h2
      have hw : w1 = w' := congrArg Prod.snd h2
      subst hds
      subst hw
      refine ⟨dHas_dDelKey_same _ _, ?_, ?_, ?_,
        (removeAll_files ds.path _ w w1 hrem).2⟩
      · intro k2 hk2
        exact dGet_dDelKey_other ds.files k k2 hk2
      · intro f hf
        exact wGet_removeAll_removed ds.path _ w w1 hrem f hf
      · intro d2 f2 hkeep
        exact wGet_removeAll_kept ds.path _ w w1 hrem d2 f2 hkeep
  · intro ds' w' h
    unfold cleanOp at h
    have h2 : (match wRmtree w ds.path with
        | none => none
        | some w1 => some (({ ds with files := [] } : DataSet), w1)) =
        some (ds', w') := h
    unfold wRmtree at h2
    by_cases hd : ds.path ∈ w.dirs
    · rw [if_pos hd] at h2
      simp only [Option.some.injEq] at h2
      injection h2 with hds hw
      subst hds
      subst hw
      refine ⟨rfl, ?_, ?_⟩
      · intro hmem
        rcases List.mem_filter.1 hmem with ⟨_, hn⟩
        have : underDir ds.path ds.path = true := by
          simp [underDir]
        simp [this] at hn
      · intro x hx
        rcases List.mem_filter.1 hx with ⟨_, hn⟩
        simpa using hn
    · rw [if_neg hd] at h2
      cases h2
  · intro op ds1 w1 t t1 hne h
    rcases op with ⟨u, nd⟩ | ⟨i, nm⟩ | nm
    · exact fun d0 hd0 => save_dirs_mem ds w t u nd (ds1, w1, t1) h d0 hd0
    · unfold runOp at h
      have h' : (match rmOp ds w i nm with
          | none => none
          | some r => some (r.1, r.2, t)) = some (ds1, w1, t1) := h
      rcases hrm : rmOp ds w i nm with _ | r
      · rw [hrm] at h'
        cases h'
      · simp only [hrm, Option.some.injEq, Prod.mk.injEq] at h'
        have hw : r.2.dirs = w.dirs := rmOp_dirs ds w i nm r.1 r.2 (by
          rw [hrm])
        intro d0 hd0
        rw [← h'.2.1, hw]
        exact hd0
    · rcases nm with _ | k
      · exact absurd rfl hne
      · unfold runOp at h
        have h' : (match cleanOp ds w (some k) with
            | none => none
            | some r => some (r.1, r.2, t)) = some (ds1, w1, t1) := h
        rcases hcl : cleanOp ds w (some k) with _ | r
        · rw [hcl] at h'
          cases h'
        · simp only [hcl, Option.some.injEq, Prod.mk.injEq] at h'
          unfold cleanOp at hcl
          have hcl2 : (match removeAll w ds.path (dGet ds.files k) with
              | none => none
              | some w1 =>
                some (({ ds with files := dDelKey ds.files k } : DataSet), w1)) =
              some r := hcl
          rcases hrem : removeAll w ds.path (dGet ds.files k) with _ | wr
          · simp only [hrem] at hcl2
            cases hcl2
          · simp only [hrem, Option.some.injEq] at hcl2
            have hw : wr = r.2 := congrArg Prod.snd hcl2
            have hdirs : wr.dirs = w.dirs := (removeAll_files ds.path _ w wr hrem).2
            intro d0 hd0
            rw [← h'.2.1, ← hw, hdirs]
            exact hd0
  · intro fpath rename wdt now t p w2 h
    unfold dumpOp at h
    rcases hsnap : snapshot ds w with _ | ret
    · rw [hsnap] at h
      cases h
    · rw [hsnap] at h
      simp only [Option.some.injEq] at h
      injection h with hp hw
      intro d0 hd0
      rw [← hw]
      show d0 ∈ (wMkdir w fpath).dirs
      exact wMkdir_dirs_mem w fpath d0 hd0

/-- Witness for C6 on a concrete two-key store: cleaning key `a` removes
its file from disk and its key from the index while leaving key `b`
intact; cleaning with no key empties the index and removes the store
directory; and a non-`clean()` operation keeps the directory. -/
theorem c6_clean_witness :
    cleanOp ⟨"d".toList, "p/d".toList, Codec.joblib,
        [("a".toList, [("a.@1.pkl.z".toList)]),
         ("b".toList, [("b.@1.pkl.z".toList)])]⟩
      ⟨[⟨"p/d".toList, "a.@1.pkl.z".toList, 1, ⟨Codec.joblib, Value.obj 5⟩⟩,
        ⟨"p/d".toList, "b.@1.pkl.z".toList, 2, ⟨Codec.joblib, Value.obj 6⟩⟩],
       ["p/d".toList]⟩ (some ("a".toList)) =
      some (⟨"d".toList, "p/d".toList, Codec.joblib,
        [("b".toList, [("b.@1.pkl.z".toList)])]⟩,
        ⟨[⟨"p/d".toList, "b.@1.pkl.z".toList, 2, ⟨Codec.joblib, Value.obj 6⟩⟩],
         ["p/d".toList]⟩) ∧
    dHas ([("b".toList, [("b.@1.pkl.z".toList)])]) ("a".toList) = false ∧
    dGet ([("b".toList, [("b.@1.pkl.z".toList)])]) ("b".toList) =
      dGet ([("a".toList, [("a.@1.pkl.z".toList)]),
        ("b".toList, [("b.@1.pkl.z".toList)])]) ("b".toList) ∧
    wGet ⟨[⟨"p/d".toList, "b.@1.pkl.z".toList, 2, ⟨Codec.joblib, Value.obj 6⟩⟩],
      ["p/d".toList]⟩ ("p/d".toList) ("a.@1.pkl.z".toList) = none ∧
    (∀ ds' w', cleanOp ⟨"d".toList, "p/d".toList, Codec.joblib,
        [("a".toList, [("a.@1.pkl.z".toList)])]⟩
      ⟨[⟨"p/d".toList, "a.@1.pkl.z".toList, 1, ⟨Codec.joblib, Value.obj 5⟩⟩],
       ["p/d".toList]⟩ none = some (ds', w') →
      ds'.files = [] ∧ "p/d".toList ∉ w'.dirs) ∧
    (∀ ds1 w1 t1, runOp ⟨"d".toList, "p/d".toList, Codec.joblib,
        [("a".toList, [("a.@1.pkl.z".toList)])]⟩
      ⟨[⟨"p/d".toList, "a.@1.pkl.z".toList, 1, ⟨Codec.joblib, Value.obj 5⟩⟩],
       ["p/d".toList]⟩ 7 (Op.cl (some ("a".toList))) = some (ds1, w1, t1) →
      "p/d".toList ∈ w1.dirs) := by
  have hcl : cleanOp ⟨"d".toList, "p/d".toList, Codec.joblib,
        [("a".toList, [("a.@1.pkl.z".toList)]),
         ("b".toList, [("b.@1.pkl.z".toList)])]⟩
      ⟨[⟨"p/d".toList, "a.@1.pkl.z".toList, 1, ⟨Codec.joblib, Value.obj 5⟩⟩,
        ⟨"p/d".toList, "b.@1.pkl.z".toList, 2, ⟨Codec.joblib, Value.obj 6⟩⟩],
       ["p/d".toList]⟩ (some ("a".toList)) =
      some (⟨"d".toList, "p/d".toList, Codec.joblib,
        [("b".toList, [("b.@1.pkl.z".toList)])]⟩,
        ⟨[⟨"p/d".toList, "b.@1.pkl.z".toList, 2, ⟨Codec.joblib, Value.obj 6⟩⟩],
         ["p/d".toList]⟩) := by rfl
  have hc := (c6_clean_spec ⟨"d".toList, "p/d".toList, Codec.joblib,
      [("a".toList, [("a.@1.pkl.z".toList)]),
       ("b".toList, [("b.@1.pkl.z".toList)])]⟩
    ⟨[⟨"p/d".toList, "a.@1.pkl.z".toList, 1, ⟨Codec.joblib, Value.obj 5⟩⟩,
      ⟨"p/d".toList, "b.@1.pkl.z".toList, 2, ⟨Codec.joblib, Value.obj 6⟩⟩],
     ["p/d".toList]⟩).1 ("a".toList) _ _ hcl
  refine ⟨hcl, hc.1, hc.2.1 ("b".toList) (by decide),
    hc.2.2.1 ("a.@1.pkl.z".toList) (by decide), ?_, ?_⟩
  · intro ds' w' h
    have hc2 := (c6_clean_spec ⟨"d".toList, "p/d".toList, Codec.joblib,
        [("a".toList, [("a.@1.pkl.z".toList)])]⟩
      ⟨[⟨"p/d".toList, "a.@1.pkl.z".toList, 1, ⟨Codec.joblib, Value.obj 5⟩⟩],
       ["p/d".toList]⟩).2.1 ds' w' h
    exact ⟨hc2.1, hc2.2.1⟩
  · intro ds1 w1 t1 h
    have hc3 := (c6_clean_spec ⟨"d".toList, "p/d".toList, Codec.joblib,
        [("a".toList, [("a.@1.pkl.z".toList)])]⟩
      ⟨[⟨"p/d".toList, "a.@1.pkl.z".toList, 1, ⟨Codec.joblib, Value.obj 5⟩⟩],
       ["p/d".toList]⟩).2.2.1 (Op.cl (some ("a".toList))) ds1 w1 7 t1
      (by
        intro hx
        injection hx with h1
        exact Option.noConfusion h1) h
    exact hc3 ("p/d".toList) (by decide)

/-! ### dump: snapshot of every key's newest entry -/

theorem wMkdir_self_mem (w : World) (d : Str) : d ∈ (wMkdir w d).dirs := by
  unfold wMkdir
  by_cases hd : d ∈ w.dirs
  · rw [if_pos hd]
    exact hd
  · rw [if_neg hd]
    exact List.mem_cons_self _ _

theorem snapshotGo_forall (ds : DataSet) (w : World) :
    ∀ (fs : List (Str × List Str)) (m : List (Str × Value)),
    snapshotGo ds w fs = some m →
    m.map Prod.fst = fs.map Prod.fst ∧
    ∀ kv ∈ fs, ∃ f v, kv.2.getLast? = some f ∧
      load_data ds w f = some v ∧ (kv.1, v) ∈ m := by
  intro fs
  induction fs with
  | nil =>
    intro m h
    rw [snapshotGo] at h
    injection h with h1
    subst h1
    exact ⟨rfl, by simp⟩
  | cons kv rest ih =>
    intro m h
    have h2 : (match kv.2.getLast? with
        | none => none
        | some f =>
          match load_data ds w f, snapshotGo ds w rest with
          | some v, some m0 => some ((kv.1, v) :: m0)
          | _, _ => none) = some m := h
    rcases hlast : kv.2.getLast? with _ | f
    · simp only [hlast] at h2
      cases h2
    · simp only [hlast] at h2
      rcases hload : load_data ds w f with _ | v
      · simp only [hload] at h2
        cases h2
      · simp only [hload] at h2
        rcases hrest : snapshotGo ds w rest with _ | m0
        · simp only [hrest] at h2
          cases h2
        · simp only [hrest, Option.some.injEq] at h2
          subst h2
          obtain ⟨hkeys, hall⟩ := ih m0 hrest
          constructor
          · simp [hkeys]
          · intro kv0 hkv0
            rcases List.mem_cons.1 hkv0 with rfl | hmem
            · exact ⟨f, v, hlast, hload, List.mem_cons_self _ _⟩
            · obtain ⟨f0, v0, ha, hb, hc⟩ := hall kv0 hmem
              exact ⟨f0, v0, ha, hb, List.mem_cons_of_mem _ hc⟩

/-- C5: `dump` builds the mapping from every logical key in the index to
its newest entry's deserialized value, serializes it as a single
backend-format blob into the target directory (created when absent) under
the name `<rename-or-store-name><-timestamp?>.pkl.z` — the timestamp
formatted down to microseconds exactly when `with_datetime` is true — and
returns the resulting path. -/
theorem c5_dump_spec (ds : DataSet) (w : World) (fpath : Str)
    (rename : Option Str) (wdt : Bool) (now : PyTime) (t : Nat)
    (m : List (Str × Value)) (hsnap : snapshot ds w = some m) :
    (m.map Prod.fst = ds.files.map Prod.fst ∧
     ∀ kv ∈ ds.files, ∃ f v, kv.2.getLast? = some f ∧
       load_data ds w f = some v ∧ (kv.1, v) ∈ m) ∧
    ∃ w2, dumpOp ds w fpath rename wdt now t =
        some (fpath ++ '/' :: ((match rename with
          | some r => if r = [] then ds.name else r
          | none => ds.name) ++
          (if wdt then fmtDatetime now else []) ++ ".pkl.z".toList), w2) ∧
      fpath ∈ w2.dirs ∧
      wGet w2 fpath ((match rename with
          | some r => if r = [] then ds.name else r
          | none => ds.name) ++
          (if wdt then fmtDatetime now else []) ++ ".pkl.z".toList) =
        some ⟨fpath, (match rename with
          | some r => if r = [] then ds.name else r
          | none => ds.name) ++
          (if wdt then fmtDatetime now else []) ++ ".pkl.z".toList, t,
          ⟨ds.backend, Value.dict m⟩⟩ := by
  refine ⟨snapshotGo_forall ds w ds.files m hsnap, ?_⟩
  refine ⟨wWrite (wMkdir w fpath)
    ⟨fpath, (match rename with
      | some r => if r = [] then ds.name else r
      | none => ds.name) ++
      (if wdt then fmtDatetime now else []) ++ ".pkl.z".toList, t,
      ⟨ds.backend, Value.dict m⟩⟩, ?_, ?_, ?_⟩
  · unfold dumpOp
    rw [hsnap]
  · show fpath ∈ (wMkdir w fpath).dirs
    exact wMkdir_self_mem w fpath
  · exact wGet_wWrite_same (wMkdir w fpath) _

/-- Witness for C5: dumping a concrete two-key store snapshots each key's
newest entry and names the file with the microsecond-precision timestamp. -/
theorem c5_dump_witness :
    snapshot ⟨"d".toList, "p/d".toList, Codec.joblib,
        [("a".toList, [("a.@1.pkl.z".toList)]),
         ("b".toList, [("b.@1.pkl.z".toList), ("b.@2.pkl.z".toList)])]⟩
      ⟨[⟨"p/d".toList, "a.@1.pkl.z".toList, 1, ⟨Codec.joblib, Value.obj 5⟩⟩,
        ⟨"p/d".toList, "b.@1.pkl.z".toList, 2, ⟨Codec.joblib, Value.obj 6⟩⟩,
        ⟨"p/d".toList, "b.@2.pkl.z".toList, 3, ⟨Codec.joblib, Value.obj 7⟩⟩],
       ["p/d".toList]⟩ =
      some [("a".toList, Value.obj 5), ("b".toList, Value.obj 7)] ∧
    fmtDatetime ⟨2026, 10, 12, 3, 4, 5, 123456⟩ =
      "-2026-10-12_03-04-05_123456".toList ∧
    (∃ w2, dumpOp ⟨"d".toList, "p/d".toList, Codec.joblib,
        [("a".toList, [("a.@1.pkl.z".toList)]),
         ("b".toList, [("b.@1.pkl.z".toList), ("b.@2.pkl.z".toList)])]⟩
      ⟨[⟨"p/d".toList, "a.@1.pkl.z".toList, 1, ⟨Codec.joblib, Value.obj 5⟩⟩,
        ⟨"p/d".toList, "b.@1.pkl.z".toList, 2, ⟨Codec.joblib, Value.obj 6⟩⟩,
        ⟨"p/d".toList, "b.@2.pkl.z".toList, 3, ⟨Codec.joblib, Value.obj 7⟩⟩],
       ["p/d".toList]⟩ ("q".toList) none true ⟨2026, 10, 12, 3, 4, 5, 123456⟩ 50 =
        some ("q".toList ++ '/' :: ((match (none : Option Str) with
          | some r => if r = [] then "d".toList else r
          | none => "d".toList) ++
          (if true then fmtDatetime ⟨2026, 10, 12, 3, 4, 5, 123456⟩ else []) ++
          ".pkl.z".toList), w2) ∧
      "q".toList ∈ w2.dirs) := by
  have hsnap : snapshot ⟨"d".toList, "p/d".toList, Codec.joblib,
      [("a".toList, [("a.@1.pkl.z".toList)]),
       ("b".toList, [("b.@1.pkl.z".toList), ("b.@2.pkl.z".toList)])]⟩
    ⟨[⟨"p/d".toList, "a.@1.pkl.z".toList, 1, ⟨Codec.joblib, Value.obj 5⟩⟩,
      ⟨"p/d".toList, "b.@1.pkl.z".toList, 2, ⟨Codec.joblib, Value.obj 6⟩⟩,
      ⟨"p/d".toList, "b.@2.pkl.z".toList, 3, ⟨Codec.joblib, Value.obj 7⟩⟩],
     ["p/d".toList]⟩ =
    some [("a".toList, Value.obj 5), ("b".toList, Value.obj 7)] := by rfl
  have h := c5_dump_spec _ _ ("q".toList) none true ⟨2026, 10, 12, 3, 4, 5, 123456⟩
    50 _ hsnap
  obtain ⟨w2, hd, hdir, _⟩ := h.2
  exact ⟨hsnap, by decide, w2, hd, hdir⟩

/-! ### Structure of dotted file names -/

theorem splitDots_seg_nodot :
    ∀ (l : Str), ∀ seg ∈ splitDots l, '.' ∉ seg := by
  intro l
  induction l with
  | nil =>
    intro seg hseg
    simp [splitDots] at hseg
    simp [hseg]
  | cons c t ih =>
    intro seg hseg
    rw [splitDots] at hseg
    by_cases hc : c = '.'
    · rw [if_pos hc] at hseg
      rcases List.mem_cons.1 hseg with rfl | hmem
      · simp
      · exact ih seg hmem
    · rw [if_neg hc] at hseg
      rcases hsp : splitDots t with _ | ⟨h0, r⟩
      · rw [hsp] at hseg
        simp at hseg
        subst hseg
        simp only [List.mem_singleton]
        exact fun he => hc he.symm
      · rw [hsp] at hseg
        rcases List.mem_cons.1 hseg with rfl | hmem
        · intro hdot
          rcases List.mem_cons.1 hdot with he | hmem2
          · exact hc he.symm
          · exact ih h0 (hsp ▸ List.mem_cons_self _ _) hmem2
        · exact ih seg (hsp ▸ List.mem_cons_of_mem _ hmem)

theorem joinDots_nil : joinDots [] = [] := rfl

theorem joinDots_single (a : Str) : joinDots [a] = a := by
  simp [joinDots, List.intercalate]

theorem joinDots_cons₂ (a b : Str) (t : List Str) :
    joinDots (a :: b :: t) = a ++ '.' :: joinDots (b :: t) := by
  simp [joinDots, List.intercalate, List.intersperse]

theorem dot_mem_joinDots₂ (a b : Str) (t : List Str) :
    '.' ∈ joinDots (a :: b :: t) := by
  rw [joinDots_cons₂]
  simp

theorem joinDots_splitDots : ∀ (l : Str), joinDots (splitDots l) = l := by
  intro l
  induction l with
  | nil => rfl
  | cons c t ih =>
    rw [splitDots]
    by_cases hc : c = '.'
    · rw [if_pos hc]
      rcases hsp : splitDots t with _ | ⟨h0, r⟩
      · exact absurd hsp (splitDots_ne_nil t)
      · rw [joinDots_cons₂]
        have hthis := ih
        rw [hsp] at hthis
        rw [hthis, hc]
        simp
    · rw [if_neg hc]
      rcases hsp : splitDots t with _ | ⟨h0, r⟩
      · exact absurd hsp (splitDots_ne_nil t)
      · simp only [hsp]
        cases r with
        | nil =>
          rw [joinDots_single]
          have hthis := ih
          rw [hsp, joinDots_single] at hthis
          rw [hthis]
        | cons r0 r' =>
          rw [joinDots_cons₂]
          have hthis := ih
          rw [hsp, joinDots_cons₂] at hthis
          rw [List.cons_append, hthis]

theorem splitDots_joinDots :
    ∀ (segs : List Str), (∀ seg ∈ segs, '.' ∉ seg) → segs ≠ [] →
    splitDots (joinDots segs) = segs := by
  intro segs
  induction segs with
  | nil =>
    intro _ h
    exact absurd rfl h
  | cons a t ih =>
    intro hnodot _
    cases t with
    | nil =>
      rw [joinDots_single]
      have hsp := splitDots_append_nodot a []
        (fun c hc he => hnodot a (by simp) (he ▸ hc)) [] [] (by rfl)
      simpa using hsp
    | cons b t2 =>
      rw [joinDots_cons₂]
      have hy : splitDots ('.' :: joinDots (b :: t2)) =
          [] :: splitDots (joinDots (b :: t2)) := by
        rw [splitDots, if_pos rfl]
      have hrec := ih (fun seg hs => hnodot seg (List.mem_cons_of_mem _ hs))
        (by simp)
      have hsp := splitDots_append_nodot a ('.' :: joinDots (b :: t2))
        (fun c hc he => hnodot a (by simp) (he ▸ hc)) _ _ hy
      rw [hsp, hrec]
      simp

/-- A file name whose parsed key is literally `unnamed` has exactly four
dot-segments, decomposes as `unnamed.<tail>`, and its three-segment tail
is the rename target. -/
theorem legacy_structure (f : Str) (h : fnKey f = "unnamed".toList) :
    (splitDots f).length = 4 ∧
    f = "unnamed".toList ++ '.' :: legacyNewName f ∧
    (splitDots (legacyNewName f)).length = 3 := by
  have hn4 : (splitDots f).length = 4 := by
    rcases hlen : (splitDots f).length - 3 with _ | m
    · unfold fnKey at h
      rw [hlen, List.take_zero] at h
      exact absurd (h.symm) (by decide)
    · rcases m with _ | m2
      · omega
      · exfalso
        unfold fnKey at h
        have hlen2 : ((splitDots f).take ((splitDots f).length - 3)).length =
            (splitDots f).length - 3 := by
          rw [List.length_take]
          omega
        rcases htake : (splitDots f).take ((splitDots f).length - 3)
          with _ | ⟨a, rest⟩
        · rw [htake] at hlen2
          simp at hlen2
          omega
        · rcases rest with _ | ⟨b, t2⟩
          · rw [htake] at hlen2
            simp at hlen2
            omega
          · rw [htake] at h
            have hdot : '.' ∈ joinDots (a :: b :: t2) := dot_mem_joinDots₂ a b t2
            rw [h] at hdot
            exact absurd hdot (by decide)
  obtain ⟨s0, tail, hsp⟩ : ∃ s0 tail, splitDots f = s0 :: tail := by
    rcases hx : splitDots f with _ | ⟨s0, tail⟩
    · exact absurd hx (splitDots_ne_nil f)
    · exact ⟨s0, tail, rfl⟩
  rw [hsp] at hn4
  simp only [List.length_cons] at hn4
  obtain ⟨s1, s2, s3, htl⟩ := List.length_eq_three.1 (show tail.length = 3 by omega)
  subst htl
  have hkey : s0 = "unnamed".toList := by
    unfold fnKey at h
    rw [hsp] at h
    simp at h
    rw [joinDots_single] at h
    exact h
  have hnn : legacyNewName f = joinDots [s1, s2, s3] := by
    unfold legacyNewName
    rw [hsp]
    simp
  have hjoin : f = joinDots [s0, s1, s2, s3] := by
    rw [← hsp, joinDots_splitDots]
  have hnodots : ∀ seg ∈ [s1, s2, s3], '.' ∉ seg := by
    intro seg hs
    apply splitDots_seg_nodot f
    rw [hsp]
    exact List.mem_cons_of_mem _ hs
  refine ⟨by rw [hsp]; rfl, ?_, ?_⟩
  · rw [hnn, hjoin, joinDots_cons₂, hkey]
  · rw [hnn, splitDots_joinDots [s1, s2, s3] hnodots (by simp)]
    rfl

theorem legacy_nn_ne_legacy (f g : Str) (hf : fnKey f = "unnamed".toList)
    (hg : fnKey g = "unnamed".toList) : legacyNewName g ≠ f := by
  intro he
  have h1 := (legacy_structure f hf).1
  have h2 := (legacy_structure g hg).2.2
  rw [he] at h2
  omega

theorem legacy_nn_inj (f g : Str) (hf : fnKey f = "unnamed".toList)
    (hg : fnKey g = "unnamed".toList)
    (he : legacyNewName f = legacyNewName g) : f = g := by
  rw [(legacy_structure f hf).2.1, (legacy_structure g hg).2.1, he]

theorem find?_append_eq {α : Type} (p : α → Bool) (l1 l2 : List α) :
    (l1 ++ l2).find? p = (match l1.find? p with
      | some x => some x
      | none => l2.find? p) := by
  induction l1 with
  | nil => simp
  | cons a t ih =>
    rw [List.cons_append, List.find?_cons, List.find?_cons]
    rcases hp : p a with _ | _
    · simp only [ih]
    · rfl

theorem wGet_wRename_ne (w : World) (d src dst q : Str) (hq1 : q ≠ src)
    (hq2 : q ≠ dst) : wGet (wRename w d src dst) d q = wGet w d q := by
  unfold wRename
  rcases hs : wGet w d src with _ | x
  · rfl
  · show wGet { w with files := _ } d q = wGet w d q
    unfold wGet
    simp only
    rw [find?_append_eq]
    rw [find?_filter_of_imp (sameFile d q) _ w.files ?himp]
    case himp =>
      intro y hy
      have hy' : y.dir = d ∧ y.fname = q := by
        simpa [sameFile] using hy
      have h1 : sameFile d src y = false := by
        simp [sameFile, hy'.2]
        intro _
        exact hq1
      have h2 : sameFile d dst y = false := by
        simp [sameFile, hy'.2]
        intro _
        exact hq2
      simp [h1, h2]
    rcases hfind : w.files.find? (sameFile d q) with _ | y
    · simp only
      have : sameFile d q { x with fname := dst } = false := by
        simp [sameFile]
        intro _
        exact fun he => hq2 he.symm
      rw [List.find?_cons, this]
      rfl
    · rfl

theorem wGet_wRename_dst (w : World) (d src dst : Str) (x : DiskFile)
    (hs : wGet w d src = some x) :
    wGet (wRename w d src dst) d dst = some { x with fname := dst } := by
  unfold wRename
  rw [hs]
  show wGet { w with files := _ } d dst = _
  unfold wGet
  simp only
  rw [find?_append_eq]
  have hnone : (w.files.filter (fun y =>
      !(sameFile d src y) && !(sameFile d dst y))).find? (sameFile d dst) =
      none := by
    rw [List.find?_eq_none]
    intro y hy
    rcases List.mem_filter.1 hy with ⟨_, hp⟩
    intro hsf
    simp only [Bool.and_eq_true, Bool.not_eq_true'] at hp
    rw [hp.2] at hsf
    cases hsf
  rw [hnone]
  simp only
  have hxd : x.dir = d := by
    have := List.find?_some hs
    have h2 : x.dir = d ∧ x.fname = src := by
      simpa [sameFile] using this
    exact h2.1
  rw [List.find?_cons]
  have : sameFile d dst { x with fname := dst } = true := by
    simp [sameFile, hxd]
  rw [this]

theorem wGet_wRename_src (w : World) (d src dst : Str) (hne : dst ≠ src)
    (x : DiskFile) (hs : wGet w d src = some x) :
    wGet (wRename w d src dst) d src = none := by
  unfold wRename
  rw [hs]
  show wGet { w with files := _ } d src = none
  unfold wGet
  simp only
  rw [find?_append_eq]
  have hnone : (w.files.filter (fun y =>
      !(sameFile d src y) && !(sameFile d dst y))).find? (sameFile d src) =
      none := by
    rw [List.find?_eq_none]
    intro y hy
    rcases List.mem_filter.1 hy with ⟨_, hp⟩
    intro hsf
    simp only [Bool.and_eq_true, Bool.not_eq_true'] at hp
    rw [hp.1] at hsf
    cases hsf
  rw [hnone]
  simp only
  rw [List.find?_cons]
  have : sameFile d src { x with fname := dst } = false := by
    simp [sameFile]
    intro _
    exact fun he => hne he
  rw [this]
  rfl

theorem scanFiles_extends (path : Str) :
    ∀ (L : List Str) (fs0 : List (Str × List Str)) (w0 : World) (warns0 : Nat)
    (k : Str), dGet fs0 k <+: dGet (scanFiles path L fs0 w0 warns0).1 k := by
  intro L
  induction L with
  | nil =>
    intro fs0 w0 warns0 k
    rfl
  | cons g rest ih =>
    intro fs0 w0 warns0 k
    rw [scanFiles]
    by_cases hg : fnKey g = "unnamed".toList
    · rw [if_pos hg]
      exact (dGet_dAppend_grows fs0 _ k _).trans (ih _ _ _ k)
    · rw [if_neg hg]
      exact (dGet_dAppend_grows fs0 _ k _).trans (ih _ _ _ k)

theorem scanFiles_wGet_preserve (path : Str) :
    ∀ (L : List Str) (fs0 : List (Str × List Str)) (w0 : World) (warns0 : Nat)
    (q : Str),
    (∀ g ∈ L, fnKey g = "unnamed".toList → q ≠ g ∧ q ≠ legacyNewName g) →
    wGet (scanFiles path L fs0 w0 warns0).2.1 path q = wGet w0 path q := by
  intro L
  induction L with
  | nil =>
    intro fs0 w0 warns0 q hq
    rfl
  | cons g rest ih =>
    intro fs0 w0 warns0 q hq
    rw [scanFiles]
    by_cases hg : fnKey g = "unnamed".toList
    · rw [if_pos hg]
      have hqg := hq g (List.mem_cons_self _ _) hg
      rw [ih _ _ _ q (fun g2 hg2 hl2 => hq g2 (List.mem_cons_of_mem _ hg2) hl2)]
      exact wGet_wRename_ne w0 path g (legacyNewName g) q hqg.1 hqg.2
    · rw [if_neg hg]
      exact ih _ _ _ q (fun g2 hg2 hl2 => hq g2 (List.mem_cons_of_mem _ hg2) hl2)

/-- The scan loop of `_make_file_index`: one warning per legacy file; each
legacy file's three-segment name is indexed under `unnamed`; and each
legacy file present on disk ends up renamed in place — the new name holds
the original record, the old name is gone. -/
theorem scanFiles_rename (path : Str) :
    ∀ (L : List Str) (fs0 : List (Str × List Str)) (w0 : World)
    (warns0 : Nat), L.Nodup →
    (scanFiles path L fs0 w0 warns0).2.2 =
      warns0 + L.countP (fun f => decide (fnKey f = "unnamed".toList)) ∧
    (∀ f ∈ L, fnKey f = "unnamed".toList →
      legacyNewName f ∈ dGet (scanFiles path L fs0 w0 warns0).1
        ("unnamed".toList) ∧
      (∀ x, wGet w0 path f = some x →
        wGet (scanFiles path L fs0 w0 warns0).2.1 path (legacyNewName f) =
          some { x with fname := legacyNewName f } ∧
        wGet (scanFiles path L fs0 w0 warns0).2.1 path f = none)) := by
  intro L
  induction L with
  | nil =>
    intro fs0 w0 warns0 _
    refine ⟨by simp [scanFiles], ?_⟩
    intro f hf
    simp at hf
  | cons g rest ih =>
    intro fs0 w0 warns0 hnodup
    have hnd2 := hnodup.of_cons
    have hgnotin : g ∉ rest := by
      intro hmem
      exact (List.nodup_cons.1 hnodup).1 hmem
    rw [scanFiles]
    by_cases hg : fnKey g = "unnamed".toList
    · rw [if_pos hg]
      obtain ⟨hcount, hall⟩ := ih (dAppend fs0 (fnKey g)
        (legacyNewName g)) (wRename w0 path g (legacyNewName g))
        (warns0 + 1) hnd2
      constructor
      · rw [hcount, List.countP_cons_of_pos _ _ (by simp [hg])]
        omega
      · intro f hf hlf
        rcases List.mem_cons.1 hf with rfl | hfr
        · constructor
          · have hmem0 : legacyNewName f ∈ dGet (dAppend fs0
                (fnKey f) (legacyNewName f)) ("unnamed".toList) := by
              rw [hlf, dGet_dAppend_same]
              simp
            exact (scanFiles_extends path rest _ _ _
              ("unnamed".toList)).subset hmem0
          · intro x hx
            have hw1dst := wGet_wRename_dst w0 path f (legacyNewName f) x hx
            have hw1src := wGet_wRename_src w0 path f (legacyNewName f)
              (fun he => legacy_nn_ne_legacy f f hlf hlf he) x hx
            have hpres1 : wGet (scanFiles path rest
                (dAppend fs0 (fnKey f) (legacyNewName f))
                (wRename w0 path f (legacyNewName f)) (warns0 + 1)).2.1 path
                (legacyNewName f) = wGet (wRename w0 path f (legacyNewName f))
                path (legacyNewName f) := by
              apply scanFiles_wGet_preserve
              intro g2 hg2 hl2
              constructor
              · exact legacy_nn_ne_legacy g2 f hl2 hlf
              · intro he
                exact hgnotin ((legacy_nn_inj f g2 hlf hl2 he) ▸ hg2)
            have hpres2 : wGet (scanFiles path rest
                (dAppend fs0 (fnKey f) (legacyNewName f))
                (wRename w0 path f (legacyNewName f)) (warns0 + 1)).2.1 path f =
                wGet (wRename w0 path f (legacyNewName f)) path f := by
              apply scanFiles_wGet_preserve
              intro g2 hg2 hl2
              constructor
              · intro he
                exact hgnotin (he ▸ hg2)
              · exact fun he => (legacy_nn_ne_legacy f g2 hlf hl2) he.symm
            exact ⟨hpres1.trans hw1dst, hpres2.trans hw1src⟩
        · obtain ⟨hidx, hdisk⟩ := hall f hfr hlf
          refine ⟨hidx, ?_⟩
          intro x hx
          apply hdisk
          rw [wGet_wRename_ne w0 path g (legacyNewName g) f ?hne1 ?hne2]
          · exact hx
          case hne1 =>
            intro he
            exact hgnotin (he ▸ hfr)
          case hne2 =>
            exact fun he => (legacy_nn_ne_legacy f g hlf hg) he.symm
    · rw [if_neg hg]
      obtain ⟨hcount, hall⟩ := ih (dAppend fs0
        (if fnKey g = [] then "unnamed".toList else fnKey g) g) w0 warns0 hnd2
      constructor
      · rw [hcount, List.countP_cons_of_neg _ _
          (by simp only [decide_eq_true_eq]; exact hg)]
      · intro f hf hlf
        rcases List.mem_cons.1 hf with rfl | hfr
        · exact absurd hlf hg
        · exact hall f hfr hlf

theorem dGet_map_g (g : List Str → List Str) (hg : g [] = [])
    (fs : List (Str × List Str)) (k : Str) :
    dGet (fs.map (fun kv => (kv.1, g kv.2))) k = g (dGet fs k) := by
  induction fs with
  | nil => simp [dGet_nil, hg]
  | cons kv t ih =>
    rw [List.map_cons, dGet_cons, dGet_cons]
    by_cases h : kv.1 = k
    · simp [h]
    · simp [h, ih]

/-- C7: at store construction (`__init__` → `_make_file_index`), each
listed `*.pkl.*` file whose parsed logical key is the literal string
`unnamed` — the legacy four-segment convention — contributes exactly one
compatibility warning; such a file equals `unnamed.` followed by its
three-segment normalized name, that normalized name is indexed under the
key `unnamed`, and the file is renamed in place on disk: its record (data
and mtime intact) survives under the new name while the old name is gone. -/
theorem c7_legacy_rename_spec (name parent : Str) (backend : Codec)
    (w : World)
    (hnd : ((((dirFiles (wMkdir w (parent ++ '/' :: name))
        (parent ++ '/' :: name)).map (fun x => x.fname)).filter
        matchesPkl)).Nodup) :
    (mk_dataset name parent backend w).2.2 =
      ((((dirFiles (wMkdir w (parent ++ '/' :: name))
        (parent ++ '/' :: name)).map (fun x => x.fname)).filter
        matchesPkl)).countP (fun f => decide (fnKey f = "unnamed".toList)) ∧
    ∀ f ∈ ((((dirFiles (wMkdir w (parent ++ '/' :: name))
        (parent ++ '/' :: name)).map (fun x => x.fname)).filter matchesPkl)),
      fnKey f = "unnamed".toList →
      f = "unnamed".toList ++ '.' :: legacyNewName f ∧
      (splitDots (legacyNewName f)).length = 3 ∧
      legacyNewName f ∈ dGet (mk_dataset name parent backend w).1.files
        ("unnamed".toList) ∧
      ∀ x, wGet (wMkdir w (parent ++ '/' :: name)) (parent ++ '/' :: name) f
          = some x →
        wGet (mk_dataset name parent backend w).2.1 (parent ++ '/' :: name)
            (legacyNewName f) = some { x with fname := legacyNewName f } ∧
        wGet (mk_dataset name parent backend w).2.1 (parent ++ '/' :: name) f
          = none := by
  obtain ⟨hc, hall⟩ := scanFiles_rename (parent ++ '/' :: name)
    ((((dirFiles (wMkdir w (parent ++ '/' :: name))
      (parent ++ '/' :: name)).map (fun x => x.fname)).filter matchesPkl))
    [] (wMkdir w (parent ++ '/' :: name)) 0 hnd
  constructor
  · show (scanFiles (parent ++ '/' :: name)
      ((((dirFiles (wMkdir w (parent ++ '/' :: name))
        (parent ++ '/' :: name)).map (fun x => x.fname)).filter matchesPkl))
      [] (wMkdir w (parent ++ '/' :: name)) 0).2.2 = _
    rw [hc, Nat.zero_add]
  · intro f hf hlf
    obtain ⟨hidx, hdisk⟩ := hall f hf hlf
    refine ⟨(legacy_structure f hlf).2.1, (legacy_structure f hlf).2.2, ?_, ?_⟩
    · rw [(mk_dataset_proj name parent backend w).1,
        dGet_map_g _ rfl, mem_sortByKey]
      exact hidx
    · intro x hx
      rw [(mk_dataset_proj name parent backend w).2.2]
      exact hdisk x hx

/-- Concrete run of the C7 theorem: a store opened over a directory holding
the single legacy file `unnamed.@3.pkl.z` raises one warning, indexes
`@3.pkl.z` under `unnamed`, and on disk the record now lives at `@3.pkl.z`
(mtime and payload unchanged) while `unnamed.@3.pkl.z` is gone. -/
theorem c7_legacy_rename_witness :
    (mk_dataset ("ds".toList) ("d".toList) Codec.joblib
      { files := [{ dir := "d/ds".toList,
                    fname := "unnamed.@3.pkl.z".toList,
                    mtime := 5,
                    blob := { codec := Codec.joblib, val := Value.obj 7 } }],
        dirs := ["d/ds".toList] }).2.2 = 1 ∧
    "@3.pkl.z".toList ∈ dGet (mk_dataset ("ds".toList) ("d".toList)
      Codec.joblib
      { files := [{ dir := "d/ds".toList,
                    fname := "unnamed.@3.pkl.z".toList,
                    mtime := 5,
                    blob := { codec := Codec.joblib, val := Value.obj 7 } }],
        dirs := ["d/ds".toList] }).1.files ("unnamed".toList) ∧
    wGet (mk_dataset ("ds".toList) ("d".toList) Codec.joblib
      { files := [{ dir := "d/ds".toList,
                    fname := "unnamed.@3.pkl.z".toList,
                    mtime := 5,
                    blob := { codec := Codec.joblib, val := Value.obj 7 } }],
        dirs := ["d/ds".toList] }).2.1 ("d/ds".toList) ("@3.pkl.z".toList) =
      some { dir := "d/ds".toList,
             fname := "@3.pkl.z".toList,
             mtime := 5,
             blob := { codec := Codec.joblib, val := Value.obj 7 } } ∧
    wGet (mk_dataset ("ds".toList) ("d".toList) Codec.joblib
      { files := [{ dir := "d/ds".toList,
                    fname := "unnamed.@3.pkl.z".toList,
                    mtime := 5,
                    blob := { codec := Codec.joblib, val := Value.obj 7 } }],
        dirs := ["d/ds".toList] }).2.1 ("d/ds".toList)
      ("unnamed.@3.pkl.z".toList) = none := by
  obtain ⟨hc, hall⟩ := c7_legacy_rename_spec ("ds".toList) ("d".toList)
    Codec.joblib
    { files := [{ dir := "d/ds".toList,
                  fname := "unnamed.@3.pkl.z".toList,
                  mtime := 5,
                  blob := { codec := Codec.joblib, val := Value.obj 7 } }],
      dirs := ["d/ds".toList] } (by decide)
  obtain ⟨_, _, hidx, hdisk⟩ := hall ("unnamed.@3.pkl.z".toList) (by decide)
    (by decide)
  obtain ⟨hnew, hold⟩ := hdisk { dir := "d/ds".toList,
                                 fname := "unnamed.@3.pkl.z".toList,
                                 mtime := 5,
                                 blob := { codec := Codec.joblib,
                                           val := Value.obj 7 } } rfl
  exact ⟨hc.trans (by decide), hidx, hnew, hold⟩

/-! ### The generation arithmetic of `save` -/

theorem genOf_unName (path : Str) (n : Nat) (v : Value) :
    genOf path ('@' :: natToChars n ++ sfx v) = some n := by
  unfold sfx
  by_cases h : isDataFrame v
  · rw [if_pos h]
    exact genOf_unnamed path n ("pkl.pd_".toList) (by decide)
  · rw [if_neg h]
    exact genOf_unnamed path n ("pkl.z".toList) (by decide)

theorem genOf_nmName (path k : Str) (n : Nat) (v : Value) :
    genOf path (k ++ '.' :: '@' :: natToChars n ++ sfx v) = some n := by
  unfold sfx
  by_cases h : isDataFrame v
  · rw [if_pos h]
    have hre : k ++ '.' :: '@' :: natToChars n ++ ".pkl.pd_".toList =
        k ++ '.' :: '@' :: (natToChars n ++ '.' :: "pkl.pd_".toList) := by
      have he : (".pkl.pd_".toList : Str) = '.' :: "pkl.pd_".toList := by
        decide
      rw [he]
      simp
    rw [hre]
    exact genOf_named path k n ("pkl.pd_".toList) (by decide)
  · rw [if_neg h]
    have hre : k ++ '.' :: '@' :: natToChars n ++ ".pkl.z".toList =
        k ++ '.' :: '@' :: (natToChars n ++ '.' :: "pkl.z".toList) := by
      have he : (".pkl.z".toList : Str) = '.' :: "pkl.z".toList := by
        decide
      rw [he]
      simp
    rw [hre]
    exact genOf_named path k n ("pkl.z".toList) (by decide)

theorem fnKey_unName (n : Nat) (v : Value) :
    fnKey ('@' :: natToChars n ++ sfx v) = [] := by
  unfold sfx
  by_cases h : isDataFrame v
  · rw [if_pos h]
    exact fnKey_unnamed_pd n
  · rw [if_neg h]
    exact fnKey_unnamed_z n

theorem fnKey_nmName (k : Str) (hk : '.' ∉ k) (n : Nat) (v : Value) :
    fnKey (k ++ '.' :: '@' :: natToChars n ++ sfx v) = k := by
  unfold sfx
  by_cases h : isDataFrame v
  · rw [if_pos h]
    have hre : k ++ '.' :: '@' :: natToChars n ++ ".pkl.pd_".toList =
        (k ++ '.' :: '@' :: natToChars n) ++ ".pkl.pd_".toList := by
      simp
    rw [hre]
    exact fnKey_named_pd k hk n
  · rw [if_neg h]
    have hre : k ++ '.' :: '@' :: natToChars n ++ ".pkl.z".toList =
        (k ++ '.' :: '@' :: natToChars n) ++ ".pkl.z".toList := by
      simp
    rw [hre]
    exact fnKey_named_z k hk n

theorem unNames_length : ∀ (vs : List Value) (M : Nat),
    (unNames M vs).length = vs.length := by
  intro vs
  induction vs with
  | nil =>
    intro M
    rfl
  | cons v vs ih =>
    intro M
    rw [unNames, List.length_cons, ih]
    rfl

theorem mem_unNames : ∀ (vs : List Value) (M : Nat) (f : Str),
    f ∈ unNames M vs →
    ∃ g v, v ∈ vs ∧ M + 1 ≤ g ∧ g ≤ M + vs.length ∧
      f = '@' :: natToChars g ++ sfx v := by
  intro vs
  induction vs with
  | nil =>
    intro M f hf
    simp [unNames] at hf
  | cons v vs ih =>
    intro M f hf
    rw [unNames] at hf
    rcases List.mem_cons.1 hf with rfl | hfr
    · exact ⟨M + 1, v, List.mem_cons_self _ _, le_rfl, by simp, rfl⟩
    · obtain ⟨g, v', hv', h1, h2, he⟩ := ih (M + 1) f hfr
      exact ⟨g, v', List.mem_cons_of_mem _ hv', by omega,
        by simp only [List.length_cons]; omega, he⟩

theorem gensOf_unNames (path : Str) : ∀ (vs : List Value) (M : Nat),
    gensOf path (unNames M vs) = some (List.range' (M + 1) vs.length) := by
  intro vs
  induction vs with
  | nil =>
    intro M
    rfl
  | cons v vs ih =>
    intro M
    rw [unNames, gensOf, genOf_unName, ih]
    rw [List.length_cons, List.range'_succ]

theorem gensOf_append (path : Str) : ∀ (l1 l2 : List Str),
    gensOf path (l1 ++ l2) =
      (match gensOf path l1, gensOf path l2 with
       | some a, some b => some (a ++ b)
       | _, _ => none) := by
  intro l1
  induction l1 with
  | nil =>
    intro l2
    rcases h : gensOf path l2 with _ | b
    · simp [gensOf, h]
    · simp [gensOf, h]
  | cons f rest ih =>
    intro l2
    rw [List.cons_append, gensOf, gensOf, ih]
    rcases h1 : genOf path f with _ | g
    · rfl
    · rcases h2 : gensOf path rest with _ | a
      · rfl
      · rcases h3 : gensOf path l2 with _ | b
        · rfl
        · rfl

theorem gensOf_ne_nil (path : Str) (f : Str) (rest : List Str)
    (gl : List Nat) (h : gensOf path (f :: rest) = some gl) : gl ≠ [] := by
  rw [gensOf] at h
  rcases h1 : genOf path f with _ | g
  · rw [h1] at h
    cases h
  · rw [h1] at h
    rcases h2 : gensOf path rest with _ | a
    · rw [h2] at h
      cases h
    · rw [h2] at h
      injection h with h3
      rw [← h3]
      simp

theorem gensOf_getLast (path : Str) : ∀ (hs : List Str) (gl : List Nat),
    gensOf path hs = some gl → ∀ f, hs.getLast? = some f →
    genOf path f = gl.getLast? := by
  intro hs
  induction hs with
  | nil =>
    intro gl _ f hf
    simp at hf
  | cons f0 rest ih =>
    intro gl hg f hf
    rw [gensOf] at hg
    rcases h1 : genOf path f0 with _ | g
    · rw [h1] at hg
      cases hg
    · rw [h1] at hg
      rcases h2 : gensOf path rest with _ | gs
      · rw [h2] at hg
        cases hg
      · rw [h2] at hg
        injection hg with hg1
        subst hg1
        cases rest with
        | nil =>
          simp at hf
          subst hf
          rw [gensOf] at h2
          injection h2 with h2'
          rw [← h2', h1]
          rfl
        | cons r1 r2 =>
          rw [getLast?_cons_ne f0 (r1 :: r2) (by simp)] at hf
          have hne := gensOf_ne_nil path r1 r2 gs h2
          rw [getLast?_cons_ne g gs hne]
          exact ih gs h2 f hf

theorem get_file_index_sorted (ds : DataSet) (k : Str) (gl : List Nat)
    (hg : gensOf ds.path (dGet ds.files k) = some gl)
    (hp : gl.Pairwise (fun a b => a < b)) :
    get_file_index ds k = some (maxGen gl) := by
  unfold get_file_index
  rcases hl : (dGet ds.files k).getLast? with _ | f
  · have hnil : dGet ds.files k = [] := List.getLast?_eq_none_iff.1 hl
    rw [hnil] at hg
    rw [gensOf] at hg
    injection hg with hg1
    rw [← hg1]
    rfl
  · have hgl := gensOf_getLast ds.path _ gl hg f hl
    have hglne : gl ≠ [] := by
      rcases hd : dGet ds.files k with _ | ⟨f0, rest⟩
      · rw [hd] at hl
        simp at hl
      · rw [hd] at hg
        exact gensOf_ne_nil ds.path f0 rest gl hg
    rcases hlast : gl.getLast? with _ | g
    · exact absurd (List.getLast?_eq_none_iff.1 hlast) hglne
    · rw [hlast] at hgl
      rw [maxGen_eq_getLast gl g hp hlast]
      unfold genOf at hgl
      exact hgl

/-! ### Key-list structure of the index under append -/

theorem dAppend_keys (fs : List (Str × List Str)) (k : Str) (f : Str) :
    (dAppend fs k f).map Prod.fst =
      if k ∈ fs.map Prod.fst then fs.map Prod.fst
      else fs.map Prod.fst ++ [k] := by
  induction fs with
  | nil => simp [dAppend]
  | cons kv t ih =>
    rw [dAppend]
    by_cases h : kv.1 = k
    · rw [if_pos h]
      simp [h]
    · rw [if_neg h, List.map_cons, ih, List.map_cons]
      by_cases h2 : k ∈ t.map Prod.fst
      · rw [if_pos h2, if_pos (by simp [h2])]
      · have hnot : ¬ k ∈ kv.1 :: t.map Prod.fst := by
          simp only [List.mem_cons]
          rintro (he | hm)
          · exact h he.symm
          · exact h2 hm
        rw [if_neg h2, if_neg hnot, List.cons_append]

theorem keys_nodup_dAppend (fs : List (Str × List Str)) (k : Str) (f : Str)
    (h : (fs.map Prod.fst).Nodup) : ((dAppend fs k f).map Prod.fst).Nodup := by
  rw [dAppend_keys]
  by_cases h2 : k ∈ fs.map Prod.fst
  · rw [if_pos h2]
    exact h
  · rw [if_neg h2]
    rw [List.nodup_append]
    refine ⟨h, List.nodup_singleton k, ?_⟩
    intro x hx hk
    rw [List.mem_singleton] at hk
    exact h2 (hk ▸ hx)

theorem mem_keys_dAppend (fs : List (Str × List Str)) (k : Str) (f : Str)
    (k2 : Str) :
    k2 ∈ (dAppend fs k f).map Prod.fst ↔
      k2 ∈ fs.map Prod.fst ∨ k2 = k := by
  rw [dAppend_keys]
  by_cases h2 : k ∈ fs.map Prod.fst
  · rw [if_pos h2]
    constructor
    · exact fun h => Or.inl h
    · rintro (h | rfl)
      · exact h
      · exact h2
  · rw [if_neg h2]
    simp [List.mem_append]

theorem mem_iff_dGet (fs : List (Str × List Str))
    (h : (fs.map Prod.fst).Nodup) (k : Str) (v : List Str) :
    (k, v) ∈ fs ↔ k ∈ fs.map Prod.fst ∧ v = dGet fs k := by
  induction fs with
  | nil => simp
  | cons kv t ih =>
    have h' := h
    rw [List.map_cons, List.nodup_cons] at h'
    have hh := h'.1
    have hht := h'.2
    rw [dGet_cons]
    constructor
    · intro hm
      rcases List.mem_cons.1 hm with he | hmt
      · have h1 : kv.1 = k := by
          rw [← he]
        have h2 : kv.2 = v := by
          rw [← he]
        rw [if_pos h1]
        refine ⟨?_, h2.symm⟩
        rw [List.map_cons]
        exact List.mem_cons.2 (Or.inl h1.symm)
      · obtain ⟨hk, hv⟩ := (ih hht).1 hmt
        have hne : kv.1 ≠ k := by
          intro he2
          exact hh (he2 ▸ hk)
        rw [if_neg hne]
        exact ⟨List.mem_cons.2 (Or.inr hk), hv⟩
    · rintro ⟨hk, hv⟩
      by_cases he : kv.1 = k
      · rw [if_pos he] at hv
        subst hv
        have heta : (k, kv.2) = kv := by
          rw [← he]
        rw [heta]
        exact List.mem_cons_self _ _
      · rw [if_neg he] at hv
        rw [List.map_cons] at hk
        rcases List.mem_cons.1 hk with h1 | h2
        · exact absurd h1.symm he
        · exact List.mem_cons_of_mem _ ((ih hht).2 ⟨h2, hv⟩)

theorem wGet_wWrite_other (w : World) (x : DiskFile) (d f : Str)
    (h : ¬(d = x.dir ∧ f = x.fname)) : wGet (wWrite w x) d f = wGet w d f := by
  show (w.files.filter (fun y => !(sameFile x.dir x.fname y)) ++ [x]).find?
    (sameFile d f) = wGet w d f
  rw [find?_append_eq]
  have hfx : sameFile d f x = false := by
    unfold sameFile
    by_cases h1 : x.dir = d
    · by_cases h2 : x.fname = f
      · exact absurd ⟨h1.symm, h2.symm⟩ h
      · simp [h2]
    · simp [h1]
  have hfind : (w.files.filter (fun y => !(sameFile x.dir x.fname y))).find?
      (sameFile d f) = w.files.find? (sameFile d f) := by
    apply find?_filter_of_imp
    intro y hy
    have hy' : y.dir = d ∧ y.fname = f := by
      simpa [sameFile] using hy
    simp only [sameFile, Bool.not_eq_true', Bool.and_eq_false_iff,
      decide_eq_false_iff_not]
    by_cases h1 : y.dir = x.dir
    · right
      intro h2
      exact h (by rw [← hy'.1, ← hy'.2]; exact ⟨h1, h2⟩)
    · left
      exact h1
  rw [hfind]
  unfold wGet
  rcases hw : w.files.find? (sameFile d f) with _ | y
  · simp [List.find?_cons, List.find?_nil, hfx]
  · rfl

theorem wMkdir_files (w : World) (d : Str) : (wMkdir w d).files = w.files := by
  unfold wMkdir
  split
  · rfl
  · rfl

/-- Full characterization of the positional loop of `save`: starting from a
generation base `M` (read from the index only while `num = 0`), it succeeds,
appends the generated names to the `unnamed` key in order, touches no other
key, and writes exactly the corresponding files into the store directory. -/
theorem saveUnnamed_spec :
    ∀ (vs : List Value) (ds : DataSet) (w : World) (t num M : Nat),
    (if num = 0 then get_file_index ds ("unnamed".toList) else some num) =
      some M →
    ∃ ds' w',
      saveUnnamed ds w t num vs =
        some (ds', w', t + vs.length,
          if vs.length = 0 then num else M + vs.length) ∧
      ds'.name = ds.name ∧ ds'.path = ds.path ∧ ds'.backend = ds.backend ∧
      (∀ k, k ≠ "unnamed".toList → dGet ds'.files k = dGet ds.files k) ∧
      dGet ds'.files ("unnamed".toList) =
        dGet ds.files ("unnamed".toList) ++ unNames M vs ∧
      (∀ k2, k2 ∈ ds'.files.map Prod.fst ↔
        k2 ∈ ds.files.map Prod.fst ∨ (vs ≠ [] ∧ k2 = "unnamed".toList)) ∧
      ((ds.files.map Prod.fst).Nodup → (ds'.files.map Prod.fst).Nodup) ∧
      ∃ nf : List DiskFile,
        nf.map (fun x => x.fname) = unNames M vs ∧
        (∀ x ∈ nf, x.dir = ds.path) ∧
        w'.files = w.files.filter
          (fun y => !(decide (y.dir = ds.path) &&
            decide (y.fname ∈ unNames M vs))) ++ nf := by
  intro vs
  induction vs with
  | nil =>
    intro ds w t num M _
    refine ⟨ds, w, ?_, rfl, rfl, rfl, fun k _ => rfl, by simp [unNames],
      fun k2 => by simp, fun h => h, [], rfl, by simp, ?_⟩
    · rw [saveUnnamed]
      simp [unNames]
    · simp only [unNames, List.append_nil]
      symm
      rw [List.filter_eq_self]
      intro y _
      simp
  | cons v rest ih =>
    intro ds w t num M hM
    have hstep : saveUnnamed ds w t num (v :: rest) = saveUnnamed { ds with files := dAppend ds.files ("unnamed".toList) ((save_data ds w v ('@' :: natToChars (M + 1)) t).1) } (save_data ds w v ('@' :: natToChars (M + 1)) t).2 (t + 1) (M + 1) rest := by
      rw [saveUnnamed, hM]
    have hf1 : (save_data ds w v ('@' :: natToChars (M + 1)) t).1 =
        '@' :: natToChars (M + 1) ++ sfx v := by
      rw [save_data_fname]
      rfl
    obtain ⟨ds', w', heq, hname, hpath, hback, hother, hun, hkeys, hnodup, nf, hnf1, hnf2, hnf3⟩ := ih { ds with files := dAppend ds.files ("unnamed".toList) ((save_data ds w v ('@' :: natToChars (M + 1)) t).1) } (save_data ds w v ('@' :: natToChars (M + 1)) t).2 (t + 1) (M + 1) (M + 1) (by rw [if_neg (Nat.succ_ne_zero M)])
    dsimp only at hother hun hkeys hnodup hnf2 hnf3
    refine ⟨ds', w', ?_, hname, hpath, hback, ?_, ?_, ?_, ?_, ?_⟩
    · rw [hstep, heq]
      have h2 : (t + 1) + rest.length = t + (v :: rest).length := by
        rw [List.length_cons]
        omega
      have h3 : (if rest.length = 0 then M + 1 else M + 1 + rest.length) =
          M + (v :: rest).length := by
        by_cases hr : rest.length = 0
        · rw [if_pos hr, List.length_cons, hr]
        · rw [if_neg hr, List.length_cons]
          omega
      have h4 : (if (v :: rest).length = 0 then num
          else M + (v :: rest).length) = M + (v :: rest).length := by
        rw [if_neg (by simp)]
      rw [h2, h3, h4]
    · intro k hk
      rw [hother k hk]
      exact dGet_dAppend_other ds.files _ k _ hk
    · rw [hun]
      have hz : dGet (dAppend ds.files ("unnamed".toList) ((save_data ds w v ('@' :: natToChars (M + 1)) t).1)) ("unnamed".toList) = dGet ds.files ("unnamed".toList) ++ [(save_data ds w v ('@' :: natToChars (M + 1)) t).1] :=
        dGet_dAppend_same ds.files _ _
      rw [hz, hf1, unNames]
      simp [List.append_assoc]
    · intro k2
      have hm := mem_keys_dAppend ds.files ("unnamed".toList) ((save_data ds w v ('@' :: natToChars (M + 1)) t).1) k2
      rw [hkeys k2]
      constructor
      · rintro (h1 | ⟨_, rfl⟩)
        · rcases hm.1 h1 with h2 | rfl
          · exact Or.inl h2
          · exact Or.inr ⟨by simp, rfl⟩
        · exact Or.inr ⟨by simp, rfl⟩
      · rintro (h1 | ⟨_, rfl⟩)
        · exact Or.inl (hm.2 (Or.inl h1))
        · exact Or.inl (hm.2 (Or.inr rfl))
    · intro hnd
      exact hnodup (keys_nodup_dAppend ds.files _ _ hnd)
    · have hnotmem : ('@' :: (natToChars (M + 1) ++ sfx v)) ∉
          unNames (M + 1) rest := by
        intro hmem
        obtain ⟨g, v', _, hg1, _, he⟩ := mem_unNames rest (M + 1) _ hmem
        have e1 := genOf_unName [] (M + 1) v
        rw [List.cons_append] at e1
        rw [he, genOf_unName [] g v'] at e1
        injection e1 with e2
        omega
      have hw1 : (save_data ds w v ('@' :: natToChars (M + 1)) t).2.files = w.files.filter (fun y => !(sameFile ds.path ((save_data ds w v ('@' :: natToChars (M + 1)) t).1) y)) ++ [⟨ds.path, (save_data ds w v ('@' :: natToChars (M + 1)) t).1, t, ⟨if isDataFrame v then Codec.pandas else ds.backend, v⟩⟩] := by
        rw [save_data_world]
        show (wMkdir w ds.path).files.filter _ ++ _ = _
        rw [wMkdir_files]
      refine ⟨⟨ds.path, (save_data ds w v ('@' :: natToChars (M + 1)) t).1, t, ⟨if isDataFrame v then Codec.pandas else ds.backend, v⟩⟩ :: nf, ?_, ?_, ?_⟩
      · rw [List.map_cons, hnf1]
        show (save_data ds w v ('@' :: natToChars (M + 1)) t).1 ::
          unNames (M + 1) rest = unNames M (v :: rest)
        rw [hf1, unNames]
      · intro x hx
        rcases List.mem_cons.1 hx with rfl | hxr
        · rfl
        · exact hnf2 x hxr
      · rw [hnf3, hw1, List.filter_append, List.filter_filter]
        have hone : List.filter (fun y => !(decide (y.dir = ds.path) && decide (y.fname ∈ unNames (M + 1) rest))) [(⟨ds.path, (save_data ds w v ('@' :: natToChars (M + 1)) t).1, t, ⟨if isDataFrame v then Codec.pandas else ds.backend, v⟩⟩ : DiskFile)] = [⟨ds.path, (save_data ds w v ('@' :: natToChars (M + 1)) t).1, t, ⟨if isDataFrame v then Codec.pandas else ds.backend, v⟩⟩] := by
          simp [hf1, hnotmem]
        rw [hone]
        have hcomb : ∀ y : DiskFile, ((!(decide (y.dir = ds.path) && decide (y.fname ∈ unNames (M + 1) rest))) && (!(sameFile ds.path ((save_data ds w v ('@' :: natToChars (M + 1)) t).1) y))) = (!(decide (y.dir = ds.path) && decide (y.fname ∈ unNames M (v :: rest)))) := by
          intro y
          rw [hf1]
          show ((!(decide (y.dir = ds.path) && decide (y.fname ∈ unNames (M + 1) rest))) && (!(decide (y.dir = ds.path) && decide (y.fname = '@' :: natToChars (M + 1) ++ sfx v)))) = _
          rw [unNames]
          by_cases h1 : y.dir = ds.path <;>
            by_cases h2 : y.fname = '@' :: natToChars (M + 1) ++ sfx v <;>
            by_cases h3 : y.fname ∈ unNames (M + 1) rest <;>
            simp [h1, h2, h3]
        rw [List.filter_congr (fun y _ => hcomb y), List.append_assoc]
        rfl

theorem nmNames_congr (p : Str) (fs1 fs2 : List (Str × List Str))
    (items : List (Str × Value))
    (h : ∀ kv ∈ items, dGet fs1 kv.1 = dGet fs2 kv.1) :
    nmNames p fs1 items = nmNames p fs2 items := by
  unfold nmNames
  apply List.map_congr_left
  intro kv hkv
  rw [h kv hkv]

theorem mem_nmNames (p : Str) (fs : List (Str × List Str))
    (items : List (Str × Value)) (f : Str) (hf : f ∈ nmNames p fs items) :
    ∃ kv ∈ items, f = kv.1 ++ '.' :: '@' ::
      natToChars (baseGen p (dGet fs kv.1) + 1) ++ sfx kv.2 := by
  unfold nmNames at hf
  obtain ⟨kv, hkv, he⟩ := List.mem_map.1 hf
  exact ⟨kv, hkv, he.symm⟩

/-- Full characterization of the keyword loop of `save`: under distinct
keyword-shaped keys whose current generation lists are strictly increasing,
it succeeds, appends one freshly numbered handle (base+1, the base being
each key's maximum generation at entry) to each named key, touches no other
key, and writes exactly the corresponding files into the store directory. -/
theorem saveNamed_spec :
    ∀ (items : List (Str × Value)) (ds : DataSet) (w : World) (t : Nat),
    (items.map Prod.fst).Nodup →
    (∀ kv ∈ items, validKey kv.1) →
    (∀ kv ∈ items, ∃ gl, gensOf ds.path (dGet ds.files kv.1) = some gl ∧
      gl.Pairwise (fun a b => a < b)) →
    ∃ ds' w',
      saveNamed ds w t items = some (ds', w', t + items.length) ∧
      ds'.name = ds.name ∧ ds'.path = ds.path ∧ ds'.backend = ds.backend ∧
      (∀ k, k ∉ items.map Prod.fst → dGet ds'.files k = dGet ds.files k) ∧
      (∀ kv ∈ items, dGet ds'.files kv.1 = dGet ds.files kv.1 ++
        [kv.1 ++ '.' :: '@' ::
          natToChars (baseGen ds.path (dGet ds.files kv.1) + 1) ++ sfx kv.2]) ∧
      (∀ k2, k2 ∈ ds'.files.map Prod.fst ↔
        k2 ∈ ds.files.map Prod.fst ∨ k2 ∈ items.map Prod.fst) ∧
      ((ds.files.map Prod.fst).Nodup → (ds'.files.map Prod.fst).Nodup) ∧
      ∃ nf : List DiskFile,
        nf.map (fun x => x.fname) = nmNames ds.path ds.files items ∧
        (∀ x ∈ nf, x.dir = ds.path) ∧
        w'.files = w.files.filter
          (fun y => !(decide (y.dir = ds.path) &&
            decide (y.fname ∈ nmNames ds.path ds.files items))) ++ nf := by
  intro items
  induction items with
  | nil =>
    intro ds w t _ _ _
    refine ⟨ds, w, ?_, rfl, rfl, rfl, fun k _ => rfl, by simp,
      fun k2 => by simp, fun h => h, [], rfl, by simp, ?_⟩
    · rw [saveNamed]
      simp
    · simp only [List.append_nil]
      symm
      rw [List.filter_eq_self]
      intro y _
      simp [nmNames]
  | cons kv rest ih =>
    intro ds w t hnd hvk hsorted
    obtain ⟨gl, hgl, hglp⟩ := hsorted kv (List.mem_cons_self _ _)
    have hidx : get_file_index ds kv.1 = some (maxGen gl) :=
      get_file_index_sorted ds kv.1 gl hgl hglp
    have hbase : baseGen ds.path (dGet ds.files kv.1) = maxGen gl := by
      unfold baseGen
      rw [hgl]
      rfl
    have hnd' := hnd
    rw [List.map_cons, List.nodup_cons] at hnd'
    have hkrest : kv.1 ∉ rest.map Prod.fst := hnd'.1
    have hndr : (rest.map Prod.fst).Nodup := hnd'.2
    have hvkk : validKey kv.1 := hvk kv (List.mem_cons_self _ _)
    have hstep : saveNamed ds w t (kv :: rest) = saveNamed { ds with files := dAppend ds.files kv.1 ((save_data ds w kv.2 (kv.1 ++ '.' :: '@' :: natToChars (maxGen gl + 1)) t).1) } (save_data ds w kv.2 (kv.1 ++ '.' :: '@' :: natToChars (maxGen gl + 1)) t).2 (t + 1) rest := by
      have hkv : kv = (kv.1, kv.2) := rfl
      rw [hkv, saveNamed, hidx]
    have hrestget : ∀ kv2 ∈ rest, dGet (dAppend ds.files kv.1 ((save_data ds w kv.2 (kv.1 ++ '.' :: '@' :: natToChars (maxGen gl + 1)) t).1)) kv2.1 = dGet ds.files kv2.1 := by
      intro kv2 hkv2
      apply dGet_dAppend_other
      intro he
      exact hkrest (he ▸ List.mem_map_of_mem Prod.fst hkv2)
    obtain ⟨ds', w', heq, hname, hpath, hback, hother, hitems, hkeys, hnodup, nf, hnf1, hnf2, hnf3⟩ := ih { ds with files := dAppend ds.files kv.1 ((save_data ds w kv.2 (kv.1 ++ '.' :: '@' :: natToChars (maxGen gl + 1)) t).1) } (save_data ds w kv.2 (kv.1 ++ '.' :: '@' :: natToChars (maxGen gl + 1)) t).2 (t + 1) hndr (fun kv2 hkv2 => hvk kv2 (List.mem_cons_of_mem _ hkv2)) (by
      intro kv2 hkv2
      obtain ⟨gl2, hgl2, hglp2⟩ := hsorted kv2 (List.mem_cons_of_mem _ hkv2)
      refine ⟨gl2, ?_, hglp2⟩
      show gensOf ds.path (dGet (dAppend ds.files kv.1 _) kv2.1) = some gl2
      rw [hrestget kv2 hkv2]
      exact hgl2)
    dsimp only at hother hitems hkeys hnodup hnf2 hnf3
    have hf1 : (save_data ds w kv.2 (kv.1 ++ '.' :: '@' :: natToChars (maxGen gl + 1)) t).1 = kv.1 ++ '.' :: '@' :: natToChars (baseGen ds.path (dGet ds.files kv.1) + 1) ++ sfx kv.2 := by
      rw [save_data_fname, hbase]
      rfl
    have hnmc : nmNames ds.path ds.files (kv :: rest) = (kv.1 ++ '.' :: '@' :: natToChars (baseGen ds.path (dGet ds.files kv.1) + 1) ++ sfx kv.2) :: nmNames ds.path ds.files rest := rfl
    have hnmr : nmNames ds.path (dAppend ds.files kv.1 ((save_data ds w kv.2 (kv.1 ++ '.' :: '@' :: natToChars (maxGen gl + 1)) t).1)) rest = nmNames ds.path ds.files rest :=
      nmNames_congr ds.path _ ds.files rest hrestget
    rw [hnmr] at hnf1 hnf3
    refine ⟨ds', w', ?_, hname, hpath, hback, ?_, ?_, ?_, ?_, ?_⟩
    · rw [hstep, heq]
      have h2 : (t + 1) + rest.length = t + (kv :: rest).length := by
        rw [List.length_cons]
        omega
      rw [h2]
    · intro k hk
      have hk1 : k ∉ rest.map Prod.fst := by
        intro hm
        exact hk (List.mem_cons_of_mem _ hm)
      have hk2 : k ≠ kv.1 := by
        intro he
        exact hk (he ▸ List.mem_cons_self _ _)
      rw [hother k hk1]
      exact dGet_dAppend_other ds.files _ k _ hk2
    · intro kv2 hkv2
      rcases List.mem_cons.1 hkv2 with rfl | hkr
      · rw [hother kv2.1 hkrest]
        have hz : dGet (dAppend ds.files kv2.1 ((save_data ds w kv2.2 (kv2.1 ++ '.' :: '@' :: natToChars (maxGen gl + 1)) t).1)) kv2.1 = dGet ds.files kv2.1 ++ [(save_data ds w kv2.2 (kv2.1 ++ '.' :: '@' :: natToChars (maxGen gl + 1)) t).1] :=
          dGet_dAppend_same ds.files _ _
        rw [hz, hf1]
      · rw [hitems kv2 hkr, hrestget kv2 hkr]
    · intro k2
      have hm := mem_keys_dAppend ds.files kv.1 ((save_data ds w kv.2 (kv.1 ++ '.' :: '@' :: natToChars (maxGen gl + 1)) t).1) k2
      rw [hkeys k2]
      constructor
      · rintro (h1 | h2)
        · rcases hm.1 h1 with h3 | rfl
          · exact Or.inl h3
          · exact Or.inr (List.mem_cons_self _ _)
        · exact Or.inr (by rw [List.map_cons]; exact List.mem_cons_of_mem _ h2)
      · rintro (h1 | h2)
        · exact Or.inl (hm.2 (Or.inl h1))
        · rw [List.map_cons] at h2
          rcases List.mem_cons.1 h2 with rfl | h3
          · exact Or.inl (hm.2 (Or.inr rfl))
          · exact Or.inr h3
    · intro hnd2
      exact hnodup (keys_nodup_dAppend ds.files _ _ hnd2)
    · have hnotmem0 : (kv.1 ++ '.' :: '@' :: natToChars (baseGen ds.path (dGet ds.files kv.1) + 1) ++ sfx kv.2) ∉ nmNames ds.path ds.files rest := by
        intro hmem
        obtain ⟨kv2, hkv2, he⟩ := mem_nmNames ds.path ds.files rest _ hmem
        have hfk1 : fnKey (kv.1 ++ '.' :: '@' :: natToChars (baseGen ds.path (dGet ds.files kv.1) + 1) ++ sfx kv.2) = kv.1 :=
          fnKey_nmName kv.1 hvkk.2.2.1 _ kv.2
        have hfk2 : fnKey (kv2.1 ++ '.' :: '@' :: natToChars (baseGen ds.path (dGet ds.files kv2.1) + 1) ++ sfx kv2.2) = kv2.1 :=
          fnKey_nmName kv2.1 (hvk kv2 (List.mem_cons_of_mem _ hkv2)).2.2.1 _ kv2.2
        rw [he, hfk2] at hfk1
        exact hkrest (hfk1 ▸ List.mem_map_of_mem Prod.fst hkv2)
      have hnotmem : (kv.1 ++ '.' :: '@' :: (natToChars (baseGen ds.path (dGet ds.files kv.1) + 1) ++ sfx kv.2)) ∉ nmNames ds.path ds.files rest := by
        have hassoc : kv.1 ++ '.' :: '@' :: (natToChars (baseGen ds.path (dGet ds.files kv.1) + 1) ++ sfx kv.2) = kv.1 ++ '.' :: '@' :: natToChars (baseGen ds.path (dGet ds.files kv.1) + 1) ++ sfx kv.2 := by
          simp
        rw [hassoc]
        exact hnotmem0
      have hw1 : (save_data ds w kv.2 (kv.1 ++ '.' :: '@' :: natToChars (maxGen gl + 1)) t).2.files = w.files.filter (fun y => !(sameFile ds.path ((save_data ds w kv.2 (kv.1 ++ '.' :: '@' :: natToChars (maxGen gl + 1)) t).1) y)) ++ [⟨ds.path, (save_data ds w kv.2 (kv.1 ++ '.' :: '@' :: natToChars (maxGen gl + 1)) t).1, t, ⟨if isDataFrame kv.2 then Codec.pandas else ds.backend, kv.2⟩⟩] := by
        rw [save_data_world]
        show (wMkdir w ds.path).files.filter _ ++ _ = _
        rw [wMkdir_files]
      refine ⟨⟨ds.path, (save_data ds w kv.2 (kv.1 ++ '.' :: '@' :: natToChars (maxGen gl + 1)) t).1, t, ⟨if isDataFrame kv.2 then Codec.pandas else ds.backend, kv.2⟩⟩ :: nf, ?_, ?_, ?_⟩
      · rw [List.map_cons, hnf1, hnmc, hf1]
      · intro x hx
        rcases List.mem_cons.1 hx with rfl | hxr
        · rfl
        · exact hnf2 x hxr
      · rw [hnf3, hw1, List.filter_append, List.filter_filter]
        have hone : List.filter (fun y => !(decide (y.dir = ds.path) && decide (y.fname ∈ nmNames ds.path ds.files rest))) [(⟨ds.path, (save_data ds w kv.2 (kv.1 ++ '.' :: '@' :: natToChars (maxGen gl + 1)) t).1, t, ⟨if isDataFrame kv.2 then Codec.pandas else ds.backend, kv.2⟩⟩ : DiskFile)] = [⟨ds.path, (save_data ds w kv.2 (kv.1 ++ '.' :: '@' :: natToChars (maxGen gl + 1)) t).1, t, ⟨if isDataFrame kv.2 then Codec.pandas else ds.backend, kv.2⟩⟩] := by
          simp [hf1, hnotmem]
        rw [hone]
        have hcomb : ∀ y : DiskFile, ((!(decide (y.dir = ds.path) && decide (y.fname ∈ nmNames ds.path ds.files rest))) && (!(sameFile ds.path ((save_data ds w kv.2 (kv.1 ++ '.' :: '@' :: natToChars (maxGen gl + 1)) t).1) y))) = (!(decide (y.dir = ds.path) && decide (y.fname ∈ nmNames ds.path ds.files (kv :: rest)))) := by
          intro y
          rw [hf1, hnmc]
          show ((!(decide (y.dir = ds.path) && decide (y.fname ∈ nmNames ds.path ds.files rest))) && (!(decide (y.dir = ds.path) && decide (y.fname = kv.1 ++ '.' :: '@' :: natToChars (baseGen ds.path (dGet ds.files kv.1) + 1) ++ sfx kv.2)))) = _
          by_cases h1 : y.dir = ds.path <;>
            by_cases h2 : y.fname = kv.1 ++ '.' :: '@' :: natToChars (baseGen ds.path (dGet ds.files kv.1) + 1) ++ sfx kv.2 <;>
            by_cases h3 : y.fname ∈ nmNames ds.path ds.files rest <;>
            simp [h1, h2, h3]
        rw [List.filter_congr (fun y _ => hcomb y), List.append_assoc]
        rfl

theorem le_maxGen (gl : List Nat) (x : Nat) (hx : x ∈ gl) : x ≤ maxGen gl := by
  induction gl with
  | nil => simp at hx
  | cons a t ih =>
    rcases List.mem_cons.1 hx with rfl | hxt
    · show x ≤ max x (maxGen t)
      omega
    · have := ih hxt
      show x ≤ max a (maxGen t)
      omega

theorem mem_gensOf (path : Str) : ∀ (l : List Str) (gl : List Nat),
    gensOf path l = some gl → ∀ f ∈ l, ∃ g ∈ gl, genOf path f = some g := by
  intro l
  induction l with
  | nil =>
    intro gl _ f hf
    simp at hf
  | cons f0 rest ih =>
    intro gl hg f hf
    rw [gensOf] at hg
    rcases h1 : genOf path f0 with _ | g0
    · rw [h1] at hg
      cases hg
    · rw [h1] at hg
      rcases h2 : gensOf path rest with _ | gs
      · rw [h2] at hg
        cases hg
      · rw [h2] at hg
        injection hg with hg1
        subst hg1
        rcases List.mem_cons.1 hf with rfl | hfr
        · exact ⟨g0, List.mem_cons_self _ _, h1⟩
        · obtain ⟨g, hgm, hge⟩ := ih gs h2 f hfr
          exact ⟨g, List.mem_cons_of_mem _ hgm, hge⟩

theorem gensOf_nodup (path : Str) : ∀ (l : List Str) (gl : List Nat),
    gensOf path l = some gl → gl.Nodup → l.Nodup := by
  intro l
  induction l with
  | nil =>
    intro gl _ _
    exact List.nodup_nil
  | cons f0 rest ih =>
    intro gl hg hnd
    rw [gensOf] at hg
    rcases h1 : genOf path f0 with _ | g0
    · rw [h1] at hg
      cases hg
    · rw [h1] at hg
      rcases h2 : gensOf path rest with _ | gs
      · rw [h2] at hg
        cases hg
      · rw [h2] at hg
        injection hg with hg1
        subst hg1
        rw [List.nodup_cons] at hnd
        rw [List.nodup_cons]
        constructor
        · intro hmem
          obtain ⟨g, hgm, hge⟩ := mem_gensOf path rest gs h2 f0 hmem
          rw [h1] at hge
          injection hge with hge1
          exact hnd.1 (hge1 ▸ hgm)
        · exact ih gs h2 hnd.2

theorem gensOf_single (path f : Str) (g : Nat) (h : genOf path f = some g) :
    gensOf path [f] = some [g] := by
  rw [gensOf, h]
  rfl

theorem mem_allHandles (ds : DataSet) (f : Str) :
    f ∈ allHandles ds ↔ ∃ kv ∈ ds.files, f ∈ kv.2 := by
  unfold allHandles
  rw [List.mem_flatMap]

/-- Extract the per-key facts of the invariant through `dGet`. -/
theorem StoreInv_dGet (ds : DataSet) (w : World) (hinv : StoreInv ds w)
    (k : Str) :
    (∃ gl, gensOf ds.path (dGet ds.files k) = some gl ∧
      gl.Pairwise (fun a b => a < b)) ∧
    (∀ f ∈ dGet ds.files k, fnKey f = keyTag k) := by
  by_cases h : dGet ds.files k = []
  · rw [h]
    refine ⟨⟨[], rfl, List.Pairwise.nil⟩, ?_⟩
    intro f hf
    simp at hf
  · have hm := dGet_mem ds.files k h
    have hs := hinv.2.2.2.1 (k, dGet ds.files k) hm
    have hk := hinv.2.2.1 (k, dGet ds.files k) hm
    refine ⟨?_, hk⟩
    rcases hg : gensOf ds.path (dGet ds.files k) with _ | gl
    · unfold sortedSome at hs
      rw [hg] at hs
      exact absurd hs (by simp)
    · unfold sortedSome at hs
      rw [hg] at hs
      exact ⟨gl, rfl, hs⟩

theorem unNames_nodup (vs : List Value) (M : Nat) : (unNames M vs).Nodup := by
  apply gensOf_nodup [] (unNames M vs) (List.range' (M + 1) vs.length)
  · exact gensOf_unNames [] vs M
  · exact List.nodup_range' ..

theorem nmNames_nodup (p : Str) (fs : List (Str × List Str))
    (items : List (Str × Value)) (hnd : (items.map Prod.fst).Nodup)
    (hvk : ∀ kv ∈ items, validKey kv.1) :
    (nmNames p fs items).Nodup := by
  induction items with
  | nil => exact List.nodup_nil
  | cons kv rest ih =>
    have hnd' := hnd
    rw [List.map_cons, List.nodup_cons] at hnd'
    show ((kv.1 ++ '.' :: '@' :: natToChars (baseGen p (dGet fs kv.1) + 1) ++ sfx kv.2) :: nmNames p fs rest).Nodup
    rw [List.nodup_cons]
    constructor
    · intro hmem
      obtain ⟨kv2, hkv2, he⟩ := mem_nmNames p fs rest _ hmem
      have hfk1 : fnKey (kv.1 ++ '.' :: '@' :: natToChars (baseGen p (dGet fs kv.1) + 1) ++ sfx kv.2) = kv.1 :=
        fnKey_nmName kv.1 (hvk kv (List.mem_cons_self _ _)).2.2.1 _ kv.2
      have hfk2 : fnKey (kv2.1 ++ '.' :: '@' :: natToChars (baseGen p (dGet fs kv2.1) + 1) ++ sfx kv2.2) = kv2.1 :=
        fnKey_nmName kv2.1 (hvk kv2 (List.mem_cons_of_mem _ hkv2)).2.2.1 _ kv2.2
      rw [he, hfk2] at hfk1
      exact hnd'.1 (hfk1 ▸ List.mem_map_of_mem Prod.fst hkv2)
    · exact ih hnd'.2 (fun kv2 hkv2 => hvk kv2 (List.mem_cons_of_mem _ hkv2))

/-- A name generated by the positional loop never collides with a name
generated by the keyword loop: their parsed keys differ. -/
theorem unNames_nmNames_disjoint (vs : List Value) (M : Nat) (p : Str)
    (fs : List (Str × List Str)) (items : List (Str × Value))
    (hvk : ∀ kv ∈ items, validKey kv.1) (f : Str) (h1 : f ∈ unNames M vs) :
    f ∉ nmNames p fs items := by
  intro h2
  obtain ⟨g, v, _, _, _, he1⟩ := mem_unNames vs M f h1
  obtain ⟨kv, hkv, he2⟩ := mem_nmNames p fs items f h2
  have hfk1 : fnKey f = [] := by
    rw [he1]
    exact fnKey_unName g v
  have hfk2 : fnKey f = kv.1 := by
    rw [he2]
    exact fnKey_nmName kv.1 (hvk kv hkv).2.2.1 _ kv.2
  rw [hfk1] at hfk2
  exact (hvk kv hkv).1 hfk2.symm

theorem sortedSome_of (p : Str) (l : List Str) (gl : List Nat)
    (h : gensOf p l = some gl) (hp : gl.Pairwise (fun a b => a < b)) :
    sortedSome (gensOf p l) := by
  rw [h]
  exact hp

theorem keyTag_unnamed : keyTag ("unnamed".toList) = [] := by
  unfold keyTag
  rw [if_pos rfl]

/-- `DataSet.save` on a well-formed store: it succeeds, preserves the
invariant, writes exactly one new file per saved item (never overwriting),
and extends each touched key's generation list with fresh maxima: the
`unnamed` key gains `max+1, ..., max+len` and every named key gains its own
`max+1`. -/
theorem save_inv (ds : DataSet) (w : World) (t : Nat) (u : List Value)
    (items : List (Str × Value)) (hinv : StoreInv ds w)
    (hnd : (items.map Prod.fst).Nodup)
    (hvk : ∀ kv ∈ items, validKey kv.1) :
    ∃ ds2 w2,
      save ds w t u items = some (ds2, w2, t + u.length + items.length) ∧
      ds2.name = ds.name ∧ ds2.path = ds.path ∧ ds2.backend = ds.backend ∧
      StoreInv ds2 w2 ∧
      (dirFiles w2 ds.path).length =
        (dirFiles w ds.path).length + u.length + items.length ∧
      (∀ gl, gensOf ds.path (dGet ds.files ("unnamed".toList)) = some gl →
        gensOf ds.path (dGet ds2.files ("unnamed".toList)) =
          some (gl ++ List.range' (maxGen gl + 1) u.length)) ∧
      (∀ kv ∈ items, ∀ gl, gensOf ds.path (dGet ds.files kv.1) = some gl →
        gensOf ds.path (dGet ds2.files kv.1) = some (gl ++ [maxGen gl + 1])) := by
  obtain ⟨⟨glu, hglu, hglup⟩, hfku⟩ := StoreInv_dGet ds w hinv ("unnamed".toList)
  have hM : get_file_index ds ("unnamed".toList) = some (maxGen glu) :=
    get_file_index_sorted ds _ glu hglu hglup
  obtain ⟨ds1, w1, heq1, hname1, hpath1, hback1, hother1, hun1, hkeys1, hnodup1, nf1, hnf11, hnf12, hnf13⟩ :=
    saveUnnamed_spec u ds w t 0 (maxGen glu) (by rw [if_pos rfl]; exact hM)
  have hsorted1 : ∀ kv ∈ items, ∃ gl, gensOf ds1.path (dGet ds1.files kv.1) = some gl ∧ gl.Pairwise (fun a b => a < b) := by
    intro kv hkv
    obtain ⟨⟨gl, hgl, hglp⟩, _⟩ := StoreInv_dGet ds w hinv kv.1
    refine ⟨gl, ?_, hglp⟩
    rw [hpath1, hother1 kv.1 (hvk kv hkv).2.1]
    exact hgl
  obtain ⟨ds2, w2, heq2, hname2, hpath2, hback2, hother2, hitems2, hkeys2, hnodup2, nf2, hnf21, hnf22, hnf23⟩ :=
    saveNamed_spec items ds1 w1 (t + u.length) hnd hvk hsorted1
  have hp2 : ds2.path = ds.path := hpath2.trans hpath1
  have hnm : nmNames ds1.path ds1.files items = nmNames ds.path ds.files items := by
    rw [hpath1]
    exact nmNames_congr ds.path ds1.files ds.files items (fun kv hkv => hother1 kv.1 (hvk kv hkv).2.1)
  rw [hnm] at hnf21
  rw [hnm, hpath1] at hnf23
  rw [hpath1] at hnf22
  have hsave : save ds w t u items = some (ds2, w2, t + u.length + items.length) := by
    rw [save, heq1]
    exact heq2
  have hUn2 : dGet ds2.files ("unnamed".toList) = dGet ds.files ("unnamed".toList) ++ unNames (maxGen glu) u := by
    have h1 : ("unnamed".toList : Str) ∉ items.map Prod.fst := by
      intro hm
      obtain ⟨kv, hkv, he⟩ := List.mem_map.1 hm
      exact (hvk kv hkv).2.1 he
    rw [hother2 _ h1, hun1]
  have hKey2 : ∀ kv ∈ items, dGet ds2.files kv.1 = dGet ds.files kv.1 ++ [kv.1 ++ '.' :: '@' :: natToChars (baseGen ds.path (dGet ds.files kv.1) + 1) ++ sfx kv.2] := by
    intro kv hkv
    have h := hitems2 kv hkv
    rw [hother1 kv.1 (hvk kv hkv).2.1, hpath1] at h
    exact h
  have hOther2 : ∀ k, k ≠ "unnamed".toList → k ∉ items.map Prod.fst → dGet ds2.files k = dGet ds.files k := by
    intro k h1 h2
    rw [hother2 k h2, hother1 k h1]
  have hpre : ∀ k, dGet ds.files k <+: dGet ds2.files k :=
    save_grows ds w t u items (ds2, w2, t + u.length + items.length) hsave
  have hkeys : ∀ k2, k2 ∈ ds2.files.map Prod.fst ↔ (k2 ∈ ds.files.map Prod.fst ∨ (u ≠ [] ∧ k2 = "unnamed".toList)) ∨ k2 ∈ items.map Prod.fst := by
    intro k2
    rw [hkeys2 k2, hkeys1 k2]
  have hnd2 : (ds2.files.map Prod.fst).Nodup := hnodup2 (hnodup1 hinv.1)
  have hfreshU : ∀ f, f ∈ allHandles ds → f ∉ unNames (maxGen glu) u := by
    intro f hf hmem
    obtain ⟨kv0, hkv0, hfin⟩ := (mem_allHandles ds f).1 hf
    have hft : fnKey f = keyTag kv0.1 := hinv.2.2.1 kv0 hkv0 f hfin
    obtain ⟨g, v, _, hg1, _, he⟩ := mem_unNames u (maxGen glu) f hmem
    have hfk : fnKey f = [] := by
      rw [he]
      exact fnKey_unName g v
    rw [hfk] at hft
    by_cases hk0 : kv0.1 = "unnamed".toList
    · have hv0 : kv0.2 = dGet ds.files kv0.1 := ((mem_iff_dGet ds.files hinv.1 kv0.1 kv0.2).1 hkv0).2
      rw [hk0] at hv0
      rw [hv0] at hfin
      obtain ⟨g0, hg0m, hg0e⟩ := mem_gensOf ds.path _ glu hglu f hfin
      have hle := le_maxGen glu g0 hg0m
      have hgf : genOf ds.path f = some g := by
        rw [he]
        exact genOf_unName ds.path g v
      rw [hgf] at hg0e
      injection hg0e with hg0e'
      omega
    · have hkt : keyTag kv0.1 = kv0.1 := by
        unfold keyTag
        rw [if_neg hk0]
      rw [hkt] at hft
      rcases hinv.2.1 kv0 hkv0 with h | h | h
      · exact hk0 h
      · exact h.1 hft.symm
      · rw [h] at hfin
        simp at hfin
  have hfreshN : ∀ f, f ∈ allHandles ds → f ∉ nmNames ds.path ds.files items := by
    intro f hf hmem
    obtain ⟨kv0, hkv0, hfin⟩ := (mem_allHandles ds f).1 hf
    have hft : fnKey f = keyTag kv0.1 := hinv.2.2.1 kv0 hkv0 f hfin
    obtain ⟨kv, hkv, he⟩ := mem_nmNames ds.path ds.files items f hmem
    have hfk : fnKey f = kv.1 := by
      rw [he]
      exact fnKey_nmName kv.1 (hvk kv hkv).2.2.1 _ kv.2
    rw [hfk] at hft
    by_cases hk0 : kv0.1 = "unnamed".toList
    · rw [hk0, keyTag_unnamed] at hft
      exact (hvk kv hkv).1 hft
    · have hkt : keyTag kv0.1 = kv0.1 := by
        unfold keyTag
        rw [if_neg hk0]
      rw [hkt] at hft
      have hv0 : kv0.2 = dGet ds.files kv0.1 := ((mem_iff_dGet ds.files hinv.1 kv0.1 kv0.2).1 hkv0).2
      rw [hv0, ← hft] at hfin
      obtain ⟨⟨glk, hglk, hglkp⟩, _⟩ := StoreInv_dGet ds w hinv kv.1
      obtain ⟨g0, hg0m, hg0e⟩ := mem_gensOf ds.path _ glk hglk f hfin
      have hle := le_maxGen glk g0 hg0m
      have hbase : baseGen ds.path (dGet ds.files kv.1) = maxGen glk := by
        unfold baseGen
        rw [hglk]
        rfl
      have hgf : genOf ds.path f = some (baseGen ds.path (dGet ds.files kv.1) + 1) := by
        rw [he]
        exact genOf_nmName ds.path kv.1 _ kv.2
      rw [hgf] at hg0e
      injection hg0e with hg0e'
      rw [hbase] at hg0e'
      omega
  have hnf1keep : nf1.filter (fun y => !(decide (y.dir = ds.path) && decide (y.fname ∈ nmNames ds.path ds.files items))) = nf1 := by
    rw [List.filter_eq_self]
    intro x hx
    have hxm : x.fname ∈ unNames (maxGen glu) u := by
      rw [← hnf11]
      exact List.mem_map_of_mem _ hx
    have hnot := unNames_nmNames_disjoint u (maxGen glu) ds.path ds.files items hvk x.fname hxm
    simp [hnot]
  rw [hnf13, List.filter_append, hnf1keep, List.filter_filter] at hnf23
  have hdirfiles : dirFiles w2 ds.path = dirFiles w ds.path ++ (nf1 ++ nf2) := by
    unfold dirFiles
    rw [hnf23, List.filter_append, List.filter_append]
    have hA : (w.files.filter (fun y => (!(decide (y.dir = ds.path) && decide (y.fname ∈ nmNames ds.path ds.files items))) && (!(decide (y.dir = ds.path) && decide (y.fname ∈ unNames (maxGen glu) u))))).filter (fun y => decide (y.dir = ds.path)) = w.files.filter (fun y => decide (y.dir = ds.path)) := by
      rw [List.filter_filter]
      apply List.filter_congr
      intro y hy
      by_cases hd : y.dir = ds.path
      · have hyd : y ∈ dirFiles w ds.path := by
          unfold dirFiles
          rw [List.mem_filter]
          exact ⟨hy, by simp [hd]⟩
        have hall := hinv.2.2.2.2.1 y hyd
        have h1 := hfreshU y.fname hall
        have h2 := hfreshN y.fname hall
        simp [hd, h1, h2]
      · simp [hd]
    have hB : nf1.filter (fun y => decide (y.dir = ds.path)) = nf1 := by
      rw [List.filter_eq_self]
      intro x hx
      simp [hnf12 x hx]
    have hC : nf2.filter (fun y => decide (y.dir = ds.path)) = nf2 := by
      rw [List.filter_eq_self]
      intro x hx
      simp [hnf22 x hx]
    rw [hA, hB, hC, List.append_assoc]
  have hnf1len : nf1.length = u.length := by
    rw [← unNames_length u (maxGen glu), ← hnf11, List.length_map]
  have hnf2len : nf2.length = items.length := by
    have h := congrArg List.length hnf21
    rw [List.length_map] at h
    rw [h]
    unfold nmNames
    rw [List.length_map]
  refine ⟨ds2, w2, hsave, hname2.trans hname1, hp2, hback2.trans hback1, ?_, ?_, ?_, ?_⟩
  · unfold StoreInv
    rw [hp2]
    refine ⟨hnd2, ?_, ?_, ?_, ?_, ?_⟩
    · intro kv hkv
      have hm := (mem_iff_dGet ds2.files hnd2 kv.1 kv.2).1 hkv
      rcases (hkeys kv.1).1 hm.1 with (hks | ⟨hu, hkun⟩) | hki
      · obtain ⟨kv0, hkv0, hfst⟩ := List.mem_map.1 hks
        rcases hinv.2.1 kv0 hkv0 with h | h | h
        · exact Or.inl (by rw [← hfst]; exact h)
        · exact Or.inr (Or.inl (by rw [← hfst]; exact h))
        · by_cases hun : kv.1 = "unnamed".toList
          · exact Or.inl hun
          · by_cases hit : kv.1 ∈ items.map Prod.fst
            · obtain ⟨kvI, hkvI, hfstI⟩ := List.mem_map.1 hit
              exact Or.inr (Or.inl (by rw [← hfstI]; exact hvk kvI hkvI))
            · right
              right
              rw [hm.2, hOther2 kv.1 hun hit, ← hfst, ← ((mem_iff_dGet ds.files hinv.1 kv0.1 kv0.2).1 hkv0).2]
              exact h
      · exact Or.inl hkun
      · obtain ⟨kvI, hkvI, hfstI⟩ := List.mem_map.1 hki
        exact Or.inr (Or.inl (by rw [← hfstI]; exact hvk kvI hkvI))
    · intro kv hkv f hf
      have hm := (mem_iff_dGet ds2.files hnd2 kv.1 kv.2).1 hkv
      rw [hm.2] at hf
      by_cases hun : kv.1 = "unnamed".toList
      · rw [hun] at hf ⊢
        rw [hUn2] at hf
        rcases List.mem_append.1 hf with h | h
        · exact hfku f h
        · obtain ⟨g, v, _, _, _, he⟩ := mem_unNames u (maxGen glu) f h
          rw [he, fnKey_unName g v, keyTag_unnamed]
      · by_cases hit : kv.1 ∈ items.map Prod.fst
        · obtain ⟨kvI, hkvI, hfstI⟩ := List.mem_map.1 hit
          rw [← hfstI] at hf ⊢
          rw [hKey2 kvI hkvI] at hf
          rcases List.mem_append.1 hf with h | h
          · exact (StoreInv_dGet ds w hinv kvI.1).2 f h
          · rw [List.mem_singleton] at h
            rw [h, fnKey_nmName kvI.1 (hvk kvI hkvI).2.2.1 _ kvI.2]
            unfold keyTag
            rw [if_neg (hvk kvI hkvI).2.1]
        · rw [hOther2 kv.1 hun hit] at hf
          exact (StoreInv_dGet ds w hinv kv.1).2 f hf
    · intro kv hkv
      have hm := (mem_iff_dGet ds2.files hnd2 kv.1 kv.2).1 hkv
      rw [hm.2]
      by_cases hun : kv.1 = "unnamed".toList
      · rw [hun, hUn2, gensOf_append, hglu, gensOf_unNames]
        show List.Pairwise (fun a b => a < b) (glu ++ List.range' (maxGen glu + 1) u.length)
        rw [List.pairwise_append]
        refine ⟨hglup, List.pairwise_lt_range' _ _, ?_⟩
        intro a ha b hb
        have h1 := le_maxGen glu a ha
        have h2 := (List.mem_range'_1.1 hb).1
        omega
      · by_cases hit : kv.1 ∈ items.map Prod.fst
        · obtain ⟨kvI, hkvI, hfstI⟩ := List.mem_map.1 hit
          rw [← hfstI]
          obtain ⟨⟨glk, hglk, hglkp⟩, _⟩ := StoreInv_dGet ds w hinv kvI.1
          have hbase : baseGen ds.path (dGet ds.files kvI.1) = maxGen glk := by
            unfold baseGen
            rw [hglk]
            rfl
          have hsingle : gensOf ds.path [kvI.1 ++ '.' :: '@' :: natToChars (baseGen ds.path (dGet ds.files kvI.1) + 1) ++ sfx kvI.2] = some [baseGen ds.path (dGet ds.files kvI.1) + 1] :=
            gensOf_single _ _ _ (genOf_nmName ds.path kvI.1 _ kvI.2)
          rw [hKey2 kvI hkvI, gensOf_append, hglk, hsingle]
          show List.Pairwise (fun a b => a < b) (glk ++ [baseGen ds.path (dGet ds.files kvI.1) + 1])
          rw [List.pairwise_append]
          refine ⟨hglkp, List.pairwise_singleton _ _, ?_⟩
          intro a ha b hb
          rw [List.mem_singleton] at hb
          subst hb
          have := le_maxGen glk a ha
          rw [hbase]
          omega
        · rw [hOther2 kv.1 hun hit]
          obtain ⟨⟨glk, hglk, hglkp⟩, _⟩ := StoreInv_dGet ds w hinv kv.1
          rw [hglk]
          exact hglkp
    · intro x hx
      rw [hdirfiles] at hx
      rcases List.mem_append.1 hx with hold | hnew
      · have hall := hinv.2.2.2.2.1 x hold
        obtain ⟨kv0, hkv0, hfin⟩ := (mem_allHandles ds x.fname).1 hall
        have hv0 : kv0.2 = dGet ds.files kv0.1 := ((mem_iff_dGet ds.files hinv.1 kv0.1 kv0.2).1 hkv0).2
        rw [hv0] at hfin
        have hin2 : x.fname ∈ dGet ds2.files kv0.1 := (hpre kv0.1).subset hfin
        refine (mem_allHandles ds2 x.fname).2 ⟨(kv0.1, dGet ds2.files kv0.1), ?_, hin2⟩
        exact (mem_iff_dGet ds2.files hnd2 kv0.1 _).2 ⟨(hkeys kv0.1).2 (Or.inl (Or.inl (List.mem_map_of_mem Prod.fst hkv0))), rfl⟩
      · rcases List.mem_append.1 hnew with h1 | h2
        · have hxm : x.fname ∈ unNames (maxGen glu) u := by
            rw [← hnf11]
            exact List.mem_map_of_mem _ h1
          have hune : u ≠ [] := by
            intro hu0
            rw [hu0] at hxm
            simp [unNames] at hxm
          have hin2 : x.fname ∈ dGet ds2.files ("unnamed".toList) := by
            rw [hUn2]
            exact List.mem_append.2 (Or.inr hxm)
          refine (mem_allHandles ds2 x.fname).2 ⟨("unnamed".toList, dGet ds2.files ("unnamed".toList)), ?_, hin2⟩
          exact (mem_iff_dGet ds2.files hnd2 _ _).2 ⟨(hkeys _).2 (Or.inl (Or.inr ⟨hune, rfl⟩)), rfl⟩
        · have hxm : x.fname ∈ nmNames ds.path ds.files items := by
            rw [← hnf21]
            exact List.mem_map_of_mem _ h2
          obtain ⟨kv, hkv, he⟩ := mem_nmNames ds.path ds.files items x.fname hxm
          have hin2 : x.fname ∈ dGet ds2.files kv.1 := by
            rw [hKey2 kv hkv]
            refine List.mem_append.2 (Or.inr ?_)
            rw [he]
            exact List.mem_singleton.2 rfl
          refine (mem_allHandles ds2 x.fname).2 ⟨(kv.1, dGet ds2.files kv.1), ?_, hin2⟩
          exact (mem_iff_dGet ds2.files hnd2 _ _).2 ⟨(hkeys _).2 (Or.inr (List.mem_map_of_mem Prod.fst hkv)), rfl⟩
    · rw [hdirfiles, List.map_append, List.map_append, hnf11, hnf21]
      rw [List.nodup_append]
      refine ⟨hinv.2.2.2.2.2, ?_, ?_⟩
      · rw [List.nodup_append]
        refine ⟨unNames_nodup u (maxGen glu), nmNames_nodup ds.path ds.files items hnd hvk, ?_⟩
        intro a ha
        exact unNames_nmNames_disjoint u (maxGen glu) ds.path ds.files items hvk a ha
      · intro a ha hb
        obtain ⟨x, hx, hxe⟩ := List.mem_map.1 ha
        have hall := hinv.2.2.2.2.1 x hx
        rw [hxe] at hall
        rcases List.mem_append.1 hb with h1 | h2
        · exact hfreshU a hall h1
        · exact hfreshN a hall h2
  · rw [hdirfiles, List.length_append, List.length_append, hnf1len, hnf2len]
    omega
  · intro gl hgl
    have hgleq : gl = glu := by
      rw [hglu] at hgl
      injection hgl with h
      exact h.symm
    subst hgleq
    rw [hUn2, gensOf_append, hglu, gensOf_unNames]
  · intro kv hkv gl hgl
    have hbase : baseGen ds.path (dGet ds.files kv.1) = maxGen gl := by
      unfold baseGen
      rw [hgl]
      rfl
    have hsingle : gensOf ds.path [kv.1 ++ '.' :: '@' :: natToChars (baseGen ds.path (dGet ds.files kv.1) + 1) ++ sfx kv.2] = some [baseGen ds.path (dGet ds.files kv.1) + 1] :=
      gensOf_single _ _ _ (genOf_nmName ds.path kv.1 _ kv.2)
    rw [hKey2 kv hkv, gensOf_append, hgl, hsingle, hbase]

/-! ### Deletion preserves the invariant -/

theorem dSet_keys (fs : List (Str × List Str)) (k : Str) (v : List Str) :
    (dSet fs k v).map Prod.fst =
      if k ∈ fs.map Prod.fst then fs.map Prod.fst
      else fs.map Prod.fst ++ [k] := by
  induction fs with
  | nil => simp [dSet]
  | cons kv t ih =>
    rw [dSet]
    by_cases h : kv.1 = k
    · rw [if_pos h]
      simp [h]
    · rw [if_neg h, List.map_cons, ih, List.map_cons]
      by_cases h2 : k ∈ t.map Prod.fst
      · rw [if_pos h2, if_pos (by simp [h2])]
      · have hnot : ¬ k ∈ kv.1 :: t.map Prod.fst := by
          simp only [List.mem_cons]
          rintro (he | hm)
          · exact h he.symm
          · exact h2 hm
        rw [if_neg h2, if_neg hnot, List.cons_append]

theorem keys_nodup_dSet (fs : List (Str × List Str)) (k : Str) (v : List Str)
    (h : (fs.map Prod.fst).Nodup) : ((dSet fs k v).map Prod.fst).Nodup := by
  rw [dSet_keys]
  by_cases h2 : k ∈ fs.map Prod.fst
  · rw [if_pos h2]
    exact h
  · rw [if_neg h2]
    rw [List.nodup_append]
    refine ⟨h, List.nodup_singleton k, ?_⟩
    intro x hx hk
    rw [List.mem_singleton] at hk
    exact h2 (hk ▸ hx)

theorem mem_dSet (fs : List (Str × List Str)) (k : Str) (v : List Str)
    (kv : Str × List Str) (h : kv ∈ dSet fs k v) : kv ∈ fs ∨ kv = (k, v) := by
  induction fs with
  | nil =>
    rw [dSet] at h
    rw [List.mem_singleton] at h
    exact Or.inr h
  | cons kv0 t ih =>
    rw [dSet] at h
    by_cases he : kv0.1 = k
    · rw [if_pos he] at h
      rcases List.mem_cons.1 h with h1 | h1
      · right
        rw [h1, he]
      · exact Or.inl (List.mem_cons_of_mem _ h1)
    · rw [if_neg he] at h
      rcases List.mem_cons.1 h with h1 | h1
      · exact Or.inl (h1 ▸ List.mem_cons_self _ _)
      · rcases ih h1 with h2 | h2
        · exact Or.inl (List.mem_cons_of_mem _ h2)
        · exact Or.inr h2

theorem mem_dSet_of_ne (fs : List (Str × List Str)) (k : Str) (v : List Str)
    (kv : Str × List Str) (h : kv ∈ fs) (hne : kv.1 ≠ k) :
    kv ∈ dSet fs k v := by
  induction fs with
  | nil => simp at h
  | cons kv0 t ih =>
    rw [dSet]
    by_cases he : kv0.1 = k
    · rw [if_pos he]
      rcases List.mem_cons.1 h with h1 | h1
      · exact absurd (h1 ▸ he) hne
      · exact List.mem_cons_of_mem _ h1
    · rw [if_neg he]
      rcases List.mem_cons.1 h with h1 | h1
      · exact h1 ▸ List.mem_cons_self _ _
      · exact List.mem_cons_of_mem _ (ih h1)

theorem gensOf_sublist (p : Str) : ∀ (l' l : List Str), List.Sublist l' l →
    ∀ gl, gensOf p l = some gl →
    ∃ gl', gensOf p l' = some gl' ∧ List.Sublist gl' gl := by
  intro l' l h
  induction h with
  | slnil =>
    intro gl hg
    exact ⟨gl, hg, List.Sublist.refl gl⟩
  | cons a h ih =>
    rename_i l1 l2
    intro gl hg
    rw [gensOf] at hg
    rcases h1 : genOf p a with _ | g
    · rw [h1] at hg
      cases hg
    · rw [h1] at hg
      rcases h2 : gensOf p l2 with _ | gs
      · rw [h2] at hg
        cases hg
      · rw [h2] at hg
        injection hg with hg1
        subst hg1
        obtain ⟨gl', hgl', hsub⟩ := ih gs h2
        exact ⟨gl', hgl', hsub.trans (List.sublist_cons_self g gs)⟩
  | cons₂ a h ih =>
    rename_i l1 l2
    intro gl hg
    rw [gensOf] at hg
    rcases h1 : genOf p a with _ | g
    · rw [h1] at hg
      cases hg
    · rw [h1] at hg
      rcases h2 : gensOf p l2 with _ | gs
      · rw [h2] at hg
        cases hg
      · rw [h2] at hg
        injection hg with hg1
        subst hg1
        obtain ⟨gl', hgl', hsub⟩ := ih gs h2
        refine ⟨g :: gl', ?_, hsub.cons₂ g⟩
        rw [gensOf, h1, hgl']

theorem mem_eraseIdx_of_ne {α : Type} :
    ∀ (l : List α) (n : Nat) (f x : α), l.get? n = some f → x ∈ l → x ≠ f →
    x ∈ l.eraseIdx n := by
  intro l
  induction l with
  | nil =>
    intro n f x hg hx
    simp at hx
  | cons a t ih =>
    intro n f x hg hx hne
    cases n with
    | zero =>
      rw [List.get?_cons_zero] at hg
      injection hg with hg1
      rcases List.mem_cons.1 hx with rfl | h1
      · exact absurd hg1.symm (by intro he; exact hne he.symm)
      · exact h1
    | succ n =>
      rw [List.get?_cons_succ] at hg
      show x ∈ a :: t.eraseIdx n
      rcases List.mem_cons.1 hx with rfl | h1
      · exact List.mem_cons_self _ _
      · exact List.mem_cons_of_mem _ (ih n f x hg h1 hne)

theorem slice_keep_mem {α : Type} (l : List α) (a b : Option Int) (x : α)
    (hx : x ∈ l) (hns : x ∉ pySlice l a b) :
    x ∈ l.take (pyBounds l.length a b).1 ++
      l.drop (max (pyBounds l.length a b).1 (pyBounds l.length a b).2) := by
  by_cases hlh : (pyBounds l.length a b).1 ≤ (pyBounds l.length a b).2
  · have ht : (l.take (pyBounds l.length a b).2).take (pyBounds l.length a b).1 = l.take (pyBounds l.length a b).1 := by
      rw [List.take_take, Nat.min_eq_left hlh]
    have hdecomp : l = l.take (pyBounds l.length a b).1 ++ (pySlice l a b ++ l.drop (pyBounds l.length a b).2) := by
      unfold pySlice
      rw [← List.append_assoc, ← ht, List.take_append_drop, List.take_append_drop]
    rw [Nat.max_eq_right hlh]
    rw [hdecomp] at hx
    rcases List.mem_append.1 hx with h1 | h1
    · exact List.mem_append.2 (Or.inl h1)
    · rcases List.mem_append.1 h1 with h2 | h2
      · exact absurd h2 hns
      · exact List.mem_append.2 (Or.inr h2)
  · rw [Nat.max_eq_left (Nat.le_of_lt (Nat.lt_of_not_le hlh))]
    rw [List.take_append_drop]
    exact hx

theorem slice_keep_sublist {α : Type} (l : List α) (a b : Option Int) :
    List.Sublist (l.take (pyBounds l.length a b).1 ++
      l.drop (max (pyBounds l.length a b).1 (pyBounds l.length a b).2)) l := by
  by_cases hlh : (pyBounds l.length a b).1 ≤ (pyBounds l.length a b).2
  · have ht : (l.take (pyBounds l.length a b).2).take (pyBounds l.length a b).1 = l.take (pyBounds l.length a b).1 := by
      rw [List.take_take, Nat.min_eq_left hlh]
    have hdecomp : l = l.take (pyBounds l.length a b).1 ++ (pySlice l a b ++ l.drop (pyBounds l.length a b).2) := by
      unfold pySlice
      rw [← List.append_assoc, ← ht, List.take_append_drop, List.take_append_drop]
    rw [Nat.max_eq_right hlh]
    conv_rhs => rw [hdecomp]
    apply List.Sublist.append_left
    exact List.sublist_append_right _ _
  · rw [Nat.max_eq_left (Nat.le_of_lt (Nat.lt_of_not_le hlh))]
    rw [List.take_append_drop]

/-- Replacing one key's handle list by a selection of it (dropping the same
names from disk) preserves the invariant. -/
theorem dSet_preserve (ds : DataSet) (w : World) (hinv : StoreInv ds w)
    (k : Str) (hs1 : List Str) (R : List Str) (w' : World)
    (hsub : List.Sublist hs1 (dGet ds.files k))
    (hkeep : ∀ x ∈ dGet ds.files k, x ∉ R → x ∈ hs1)
    (hwf : w'.files = w.files.filter
      (fun y => !(decide (y.dir = ds.path) && decide (y.fname ∈ R)))) :
    StoreInv { ds with files := dSet ds.files k hs1 } w' := by
  unfold StoreInv
  dsimp only
  refine ⟨keys_nodup_dSet ds.files k hs1 hinv.1, ?_, ?_, ?_, ?_, ?_⟩
  · intro kv hkv
    rcases mem_dSet ds.files k hs1 kv hkv with h | h
    · exact hinv.2.1 kv h
    · subst h
      by_cases hk : k ∈ ds.files.map Prod.fst
      · obtain ⟨kv0, hkv0, hfst⟩ := List.mem_map.1 hk
        rcases hinv.2.1 kv0 hkv0 with h | h | h
        · exact Or.inl (hfst ▸ h)
        · exact Or.inr (Or.inl (hfst ▸ h))
        · right
          right
          have hv0 : kv0.2 = dGet ds.files kv0.1 := ((mem_iff_dGet ds.files hinv.1 kv0.1 kv0.2).1 hkv0).2
          rw [hv0, hfst] at h
          rw [h] at hsub
          exact List.sublist_nil.1 hsub
      · right
        right
        have hnil : dGet ds.files k = [] := by
          rcases hd : dGet ds.files k with _ | ⟨f0, t0⟩
          · rfl
          · have := dGet_mem ds.files k (by rw [hd]; simp)
            exact absurd (List.mem_map_of_mem Prod.fst this) hk
        rw [hnil] at hsub
        exact List.sublist_nil.1 hsub
  · intro kv hkv f hf
    rcases mem_dSet ds.files k hs1 kv hkv with h | h
    · exact hinv.2.2.1 kv h f hf
    · subst h
      exact (StoreInv_dGet ds w hinv k).2 f (hsub.subset hf)
  · intro kv hkv
    rcases mem_dSet ds.files k hs1 kv hkv with h | h
    · exact hinv.2.2.2.1 kv h
    · subst h
      obtain ⟨⟨glk, hglk, hglkp⟩, _⟩ := StoreInv_dGet ds w hinv k
      obtain ⟨gl', hgl', hsub'⟩ := gensOf_sublist ds.path hs1 _ hsub glk hglk
      show sortedSome (gensOf ds.path hs1)
      rw [hgl']
      exact hglkp.sublist hsub'
  · intro x hx
    unfold dirFiles at hx
    rw [hwf, List.filter_filter] at hx
    rw [List.mem_filter] at hx
    obtain ⟨hxw, hxp⟩ := hx
    rw [Bool.and_eq_true] at hxp
    have hxd : x.dir = ds.path := of_decide_eq_true hxp.1
    have hxnr : x.fname ∉ R := by
      have h2 := hxp.2
      rw [Bool.not_eq_true', Bool.and_eq_false_iff] at h2
      rcases h2 with h2 | h2
      · simp [hxd] at h2
      · exact of_decide_eq_false h2
    have hxold : x ∈ dirFiles w ds.path := by
      unfold dirFiles
      rw [List.mem_filter]
      exact ⟨hxw, by simp [hxd]⟩
    have hall := hinv.2.2.2.2.1 x hxold
    obtain ⟨kv0, hkv0, hfin⟩ := (mem_allHandles ds x.fname).1 hall
    by_cases hk0 : kv0.1 = k
    · have hv0 : kv0.2 = dGet ds.files kv0.1 := ((mem_iff_dGet ds.files hinv.1 kv0.1 kv0.2).1 hkv0).2
      rw [hv0, hk0] at hfin
      have hx1 : x.fname ∈ hs1 := hkeep x.fname hfin hxnr
      refine (mem_allHandles _ x.fname).2 ⟨(k, hs1), dSet_mem ds.files k hs1, hx1⟩
    · refine (mem_allHandles _ x.fname).2 ⟨kv0, mem_dSet_of_ne ds.files k hs1 kv0 hkv0 hk0, hfin⟩
  · have hsubf : List.Sublist (dirFiles w' ds.path) (dirFiles w ds.path) := by
      unfold dirFiles
      rw [hwf]
      exact (List.filter_sublist w.files).filter _
    exact hinv.2.2.2.2.2.sublist (hsubf.map _)

/-- `DataSet.rm` preserves the invariant. -/
theorem rm_inv (ds : DataSet) (w : World) (i : PyIndex) (name : Option Str)
    (hinv : StoreInv ds w) (ds' : DataSet) (w' : World)
    (h : rmOp ds w i name = some (ds', w')) :
    ds'.name = ds.name ∧ ds'.path = ds.path ∧ ds'.backend = ds.backend ∧
    StoreInv ds' w' := by
  unfold rmOp at h
  rcases i with i | ⟨a, b⟩
  · have h2m : (match pyGet (dGet ds.files (rmKey name)) i with
        | none => none
        | some f =>
          match wRemove w ds.path f with
          | none => none
          | some w1 =>
            match pyDelete (dGet ds.files (rmKey name)) (PyIndex.int i) with
            | none => none
            | some hs1 =>
              some (({ ds with files := dSet ds.files (rmKey name) hs1 } : DataSet), w1)) = some (ds', w') := h
    clear h
    have h := h2m
    rcases hpg : pyGet (dGet ds.files (rmKey name)) i with _ | f
    · rw [hpg] at h
      cases h
    · rw [hpg] at h
      have h3 : (match wRemove w ds.path f with
          | none => none
          | some w1 =>
            match pyDelete (dGet ds.files (rmKey name)) (PyIndex.int i) with
            | none => none
            | some hs1 =>
              some (({ ds with files := dSet ds.files (rmKey name) hs1 } : DataSet), w1)) = some (ds', w') := h
      rcases hrm : wRemove w ds.path f with _ | w1
      · rw [hrm] at h3
        cases h3
      · rw [hrm] at h3
        have h4 : (match pyDelete (dGet ds.files (rmKey name)) (PyIndex.int i) with
            | none => none
            | some hs1 =>
              some (({ ds with files := dSet ds.files (rmKey name) hs1 } : DataSet), w1)) = some (ds', w') := h3
        rcases hdel : pyDelete (dGet ds.files (rmKey name)) (PyIndex.int i) with _ | hs1
        · rw [hdel] at h4
          cases h4
        · rw [hdel] at h4
          simp only [Option.some.injEq] at h4
          injection h4 with h1 h2
          subst h1
          subst h2
          have hpg0 : (if pyNormIdx (dGet ds.files (rmKey name)).length i < 0 then (none : Option Str)
              else (dGet ds.files (rmKey name)).get? (pyNormIdx (dGet ds.files (rmKey name)).length i).toNat) = some f := hpg
          have hj : ¬ pyNormIdx (dGet ds.files (rmKey name)).length i < 0 ∧ (dGet ds.files (rmKey name)).get? (pyNormIdx (dGet ds.files (rmKey name)).length i).toNat = some f := by
            by_cases hneg : pyNormIdx (dGet ds.files (rmKey name)).length i < 0
            · rw [if_pos hneg] at hpg0
              cases hpg0
            · rw [if_neg hneg] at hpg0
              exact ⟨hneg, hpg0⟩
          have hdel0 : (if pyNormIdx (dGet ds.files (rmKey name)).length i < 0 then (none : Option (List Str))
              else if (pyNormIdx (dGet ds.files (rmKey name)).length i).toNat < (dGet ds.files (rmKey name)).length then some ((dGet ds.files (rmKey name)).eraseIdx (pyNormIdx (dGet ds.files (rmKey name)).length i).toNat)
              else none) = some hs1 := hdel
          have hdel' : hs1 = (dGet ds.files (rmKey name)).eraseIdx (pyNormIdx (dGet ds.files (rmKey name)).length i).toNat := by
            rw [if_neg hj.1] at hdel0
            by_cases hlt : (pyNormIdx (dGet ds.files (rmKey name)).length i).toNat < (dGet ds.files (rmKey name)).length
            · rw [if_pos hlt] at hdel0
              injection hdel0 with hdel1
              exact hdel1.symm
            · rw [if_neg hlt] at hdel0
              cases hdel0
          have hw1 : w1.files = w.files.filter (fun y => !(decide (y.dir = ds.path) && decide (y.fname ∈ [f]))) := by
            unfold wRemove at hrm
            by_cases hex : (wGet w ds.path f).isSome
            · rw [if_pos hex] at hrm
              injection hrm with hrm1
              rw [← hrm1]
              show w.files.filter _ = _
              apply List.filter_congr
              intro y _
              unfold sameFile
              by_cases hd : y.dir = ds.path <;> by_cases hf : y.fname = f <;>
                simp [hd, hf]
            · rw [if_neg hex] at hrm
              cases hrm
          refine ⟨rfl, rfl, rfl, ?_⟩
          apply dSet_preserve ds w hinv (rmKey name) hs1 [f] w1
          · rw [hdel']
            exact List.eraseIdx_sublist _ _
          · intro x hx hxr
            rw [hdel']
            apply mem_eraseIdx_of_ne _ _ f x hj.2 hx
            intro he
            exact hxr (by rw [he]; exact List.mem_singleton.2 rfl)
          · exact hw1
  · have h2m : (match removeAll w ds.path (pySlice (dGet ds.files (rmKey name)) a b) with
        | none => none
        | some w1 =>
          match pyDelete (dGet ds.files (rmKey name)) (PyIndex.slice a b) with
          | none => none
          | some hs1 =>
            some (({ ds with files := dSet ds.files (rmKey name) hs1 } : DataSet), w1)) = some (ds', w') := h
    clear h
    have h := h2m
    rcases hrem : removeAll w ds.path (pySlice (dGet ds.files (rmKey name)) a b) with _ | w1
    · rw [hrem] at h
      cases h
    · rw [hrem] at h
      have h3 : (match pyDelete (dGet ds.files (rmKey name)) (PyIndex.slice a b) with
          | none => none
          | some hs1 =>
            some (({ ds with files := dSet ds.files (rmKey name) hs1 } : DataSet), w1)) = some (ds', w') := h
      have hdel : pyDelete (dGet ds.files (rmKey name)) (PyIndex.slice a b) = some ((dGet ds.files (rmKey name)).take (pyBounds (dGet ds.files (rmKey name)).length a b).1 ++ (dGet ds.files (rmKey name)).drop (max (pyBounds (dGet ds.files (rmKey name)).length a b).1 (pyBounds (dGet ds.files (rmKey name)).length a b).2)) := rfl
      rw [hdel] at h3
      simp only [Option.some.injEq] at h3
      injection h3 with h1 h2
      subst h1
      subst h2
      refine ⟨rfl, rfl, rfl, ?_⟩
      apply dSet_preserve ds w hinv (rmKey name) _ (pySlice (dGet ds.files (rmKey name)) a b) w1
      · exact slice_keep_sublist _ a b
      · intro x hx hxr
        exact slice_keep_mem _ a b x hx hxr
      · exact (removeAll_files ds.path _ w w1 hrem).1

/-- `DataSet.clean` preserves the invariant. -/
theorem clean_inv (ds : DataSet) (w : World) (name : Option Str)
    (hinv : StoreInv ds w) (ds' : DataSet) (w' : World)
    (h : cleanOp ds w name = some (ds', w')) :
    ds'.name = ds.name ∧ ds'.path = ds.path ∧ ds'.backend = ds.backend ∧
    StoreInv ds' w' := by
  unfold cleanOp at h
  rcases name with _ | k
  · have h2 : (match wRmtree w ds.path with
        | none => none
        | some w1 => some (({ ds with files := [] } : DataSet), w1)) = some (ds', w') := h
    rcases hrt : wRmtree w ds.path with _ | w1
    · rw [hrt] at h2
      cases h2
    · rw [hrt] at h2
      simp only [Option.some.injEq] at h2
      injection h2 with h1 h2b
      subst h1
      subst h2b
      have hw1 : w1.files = w.files.filter (fun y => !(underDir ds.path y.dir)) := by
        unfold wRmtree at hrt
        by_cases hd : ds.path ∈ w.dirs
        · rw [if_pos hd] at hrt
          injection hrt with hrt1
          rw [← hrt1]
        · rw [if_neg hd] at hrt
          cases hrt
      have hempty : dirFiles w1 ds.path = [] := by
        rw [List.eq_nil_iff_forall_not_mem]
        intro x hx
        unfold dirFiles at hx
        rw [List.mem_filter] at hx
        obtain ⟨hxw, hxd⟩ := hx
        rw [hw1, List.mem_filter] at hxw
        have hxd' : x.dir = ds.path := of_decide_eq_true hxd
        have : underDir ds.path x.dir = true := by
          unfold underDir
          rw [hxd']
          simp
        rw [this] at hxw
        simp at hxw
      refine ⟨rfl, rfl, rfl, ?_⟩
      unfold StoreInv
      dsimp only
      refine ⟨by simp, ?_, ?_, ?_, ?_, ?_⟩
      · intro kv hkv
        simp at hkv
      · intro kv hkv
        simp at hkv
      · intro kv hkv
        simp at hkv
      · intro x hx
        rw [hempty] at hx
        simp at hx
      · rw [hempty]
        simp
  · have h2 : (match removeAll w ds.path (dGet ds.files k) with
        | none => none
        | some w1 => some (({ ds with files := dDelKey ds.files k } : DataSet), w1)) = some (ds', w') := h
    rcases hrem : removeAll w ds.path (dGet ds.files k) with _ | w1
    · rw [hrem] at h2
      cases h2
    · rw [hrem] at h2
      simp only [Option.some.injEq] at h2
      injection h2 with h1 h2b
      subst h1
      subst h2b
      have hwf := (removeAll_files ds.path _ w w1 hrem).1
      refine ⟨rfl, rfl, rfl, ?_⟩
      unfold StoreInv
      dsimp only
      refine ⟨?_, ?_, ?_, ?_, ?_, ?_⟩
      · exact hinv.1.sublist ((List.filter_sublist ds.files).map Prod.fst)
      · intro kv hkv
        exact hinv.2.1 kv (List.mem_filter.1 hkv).1
      · intro kv hkv
        exact hinv.2.2.1 kv (List.mem_filter.1 hkv).1
      · intro kv hkv
        exact hinv.2.2.2.1 kv (List.mem_filter.1 hkv).1
      · intro x hx
        unfold dirFiles at hx
        rw [hwf, List.filter_filter, List.mem_filter] at hx
        obtain ⟨hxw, hxp⟩ := hx
        rw [Bool.and_eq_true] at hxp
        have hxd : x.dir = ds.path := of_decide_eq_true hxp.1
        have hxnr : x.fname ∉ dGet ds.files k := by
          have h2' := hxp.2
          rw [Bool.not_eq_true', Bool.and_eq_false_iff] at h2'
          rcases h2' with h2' | h2'
          · simp [hxd] at h2'
          · exact of_decide_eq_false h2'
        have hxold : x ∈ dirFiles w ds.path := by
          unfold dirFiles
          rw [List.mem_filter]
          exact ⟨hxw, by simp [hxd]⟩
        have hall := hinv.2.2.2.2.1 x hxold
        obtain ⟨kv0, hkv0, hfin⟩ := (mem_allHandles ds x.fname).1 hall
        by_cases hk0 : kv0.1 = k
        · have hv0 : kv0.2 = dGet ds.files kv0.1 := ((mem_iff_dGet ds.files hinv.1 kv0.1 kv0.2).1 hkv0).2
          rw [hv0, hk0] at hfin
          exact absurd hfin hxnr
        · refine (mem_allHandles _ x.fname).2 ⟨kv0, ?_, hfin⟩
          show kv0 ∈ dDelKey ds.files k
          unfold dDelKey
          rw [List.mem_filter]
          exact ⟨hkv0, by simp [hk0]⟩
      · have hsubf : List.Sublist (dirFiles w1 ds.path) (dirFiles w ds.path) := by
          unfold dirFiles
          rw [hwf]
          exact (List.filter_sublist w.files).filter _
        exact hinv.2.2.2.2.2.sublist (hsubf.map _)

/-- Any single valid operation preserves the invariant and the identity of
the store. -/
theorem runOp_inv (ds : DataSet) (w : World) (t : Nat) (op : Op)
    (hinv : StoreInv ds w) (hop : opValid op) :
    ∀ r, runOp ds w t op = some r →
      StoreInv r.1 r.2.1 ∧ r.1.path = ds.path ∧ r.1.name = ds.name ∧
      r.1.backend = ds.backend := by
  cases op with
  | sv u n =>
    intro r h
    obtain ⟨hnd, hvk⟩ := hop
    obtain ⟨ds2, w2, hsave, hname, hpath, hback, hinv2, _, _, _⟩ :=
      save_inv ds w t u n hinv hnd hvk
    have h' : save ds w t u n = some r := h
    rw [hsave] at h'
    injection h' with h''
    subst h''
    exact ⟨hinv2, hpath, hname, hback⟩
  | del i name =>
    intro r h
    have h' : (match rmOp ds w i name with
        | none => none
        | some rr => some (rr.1, rr.2, t)) = some r := h
    rcases hrm : rmOp ds w i name with _ | rr
    · rw [hrm] at h'
      cases h'
    · rw [hrm] at h'
      injection h' with h''
      obtain ⟨hn, hp, hb, hi⟩ := rm_inv ds w i name hinv rr.1 rr.2 hrm
      subst h''
      exact ⟨hi, hp, hn, hb⟩
  | cl name =>
    intro r h
    have h' : (match cleanOp ds w name with
        | none => none
        | some rr => some (rr.1, rr.2, t)) = some r := h
    rcases hcl : cleanOp ds w name with _ | rr
    · rw [hcl] at h'
      cases h'
    · rw [hcl] at h'
      injection h' with h''
      obtain ⟨hn, hp, hb, hi⟩ := clean_inv ds w name hinv rr.1 rr.2 hcl
      subst h''
      exact ⟨hi, hp, hn, hb⟩

/-- Any sequence of valid operations preserves the invariant. -/
theorem runOps_inv : ∀ (ops : List Op) (ds : DataSet) (w : World) (t : Nat),
    StoreInv ds w → (∀ op ∈ ops, opValid op) →
    ∀ r, runOps ds w t ops = some r →
      StoreInv r.1 r.2.1 ∧ r.1.path = ds.path := by
  intro ops
  induction ops with
  | nil =>
    intro ds w t hinv _ r h
    rw [runOps] at h
    injection h with h'
    subst h'
    exact ⟨hinv, rfl⟩
  | cons op rest ih =>
    intro ds w t hinv hops r h
    rw [runOps] at h
    rcases hop1 : runOp ds w t op with _ | r1
    · rw [hop1] at h
      cases h
    · rw [hop1] at h
      have h' : runOps r1.1 r1.2.1 r1.2.2 rest = some r := h
      obtain ⟨hinv1, hpath1, _, _⟩ :=
        runOp_inv ds w t op hinv (hops op (List.mem_cons_self _ _)) r1 hop1
      obtain ⟨hinv2, hpath2⟩ := ih r1.1 r1.2.1 r1.2.2 hinv1
        (fun o ho => hops o (List.mem_cons_of_mem _ ho)) r h'
      exact ⟨hinv2, hpath2.trans hpath1⟩

/-- C1 refuted on a reachable-looking store whose modification times
contradict generation order: the store directory holds `@1` (newer mtime)
and `@2` (older mtime), so the index sorts `@2` before `@1` and the last
handle parses to generation `1` although the maximum existing generation is
`2`. The next save therefore picks generation `2` — not max+1 = 3 — writes
`@2.pkl.z` over the existing file (the directory still holds two files),
and leaves the key holding two handles with the same generation. -/
theorem c1_generation_counterexample :
    dGet (mk_dataset ("ds".toList) ("d".toList) Codec.joblib
      { files := [{ dir := "d/ds".toList, fname := "@1.pkl.z".toList,
                    mtime := 10,
                    blob := { codec := Codec.joblib, val := Value.obj 1 } },
                  { dir := "d/ds".toList, fname := "@2.pkl.z".toList,
                    mtime := 5,
                    blob := { codec := Codec.joblib, val := Value.obj 2 } }],
        dirs := ["d/ds".toList] }).1.files ("unnamed".toList) =
      ["@2.pkl.z".toList, "@1.pkl.z".toList] ∧
    gensOf ("d/ds".toList) ["@2.pkl.z".toList, "@1.pkl.z".toList] =
      some [2, 1] ∧
    ((save (mk_dataset ("ds".toList) ("d".toList) Codec.joblib
      { files := [{ dir := "d/ds".toList, fname := "@1.pkl.z".toList,
                    mtime := 10,
                    blob := { codec := Codec.joblib, val := Value.obj 1 } },
                  { dir := "d/ds".toList, fname := "@2.pkl.z".toList,
                    mtime := 5,
                    blob := { codec := Codec.joblib, val := Value.obj 2 } }],
        dirs := ["d/ds".toList] }).1
      (mk_dataset ("ds".toList) ("d".toList) Codec.joblib
      { files := [{ dir := "d/ds".toList, fname := "@1.pkl.z".toList,
                    mtime := 10,
                    blob := { codec := Codec.joblib, val := Value.obj 1 } },
                  { dir := "d/ds".toList, fname := "@2.pkl.z".toList,
                    mtime := 5,
                    blob := { codec := Codec.joblib, val := Value.obj 2 } }],
        dirs := ["d/ds".toList] }).2.1 20 [Value.obj 9] []).map
      (fun r => (dGet r.1.files ("unnamed".toList),
        (dirFiles r.2.1 ("d/ds".toList)).length))) =
      some (["@2.pkl.z".toList, "@1.pkl.z".toList, "@2.pkl.z".toList], 2) := by
  refine ⟨by decide, by decide, by decide⟩

/-- C1 (amended): on a well-formed store — one whose per-key parsed
generations are strictly increasing along each handle list and whose
directory holds exactly the indexed files — every save assigns fresh
generations `max+1, max+2, ...` to its positional items and `max+1` per
named key, and adds exactly one directory entry per item, overwriting
nothing; and the well-formedness itself (hence the uniqueness of
generations within each key) is preserved by every valid save, rm and
clean, so it holds after any sequence of such operations. -/
theorem c1_generation_spec (ds : DataSet) (w : World) (t : Nat)
    (hinv : StoreInv ds w) :
    (∀ u n, opValid (Op.sv u n) →
      ∀ r, runOp ds w t (Op.sv u n) = some r →
        StoreInv r.1 r.2.1 ∧
        (dirFiles r.2.1 ds.path).length =
          (dirFiles w ds.path).length + u.length + n.length ∧
        (∀ gl, gensOf ds.path (dGet ds.files ("unnamed".toList)) = some gl →
          gensOf ds.path (dGet r.1.files ("unnamed".toList)) =
            some (gl ++ List.range' (maxGen gl + 1) u.length)) ∧
        (∀ kv ∈ n, ∀ gl, gensOf ds.path (dGet ds.files kv.1) = some gl →
          gensOf ds.path (dGet r.1.files kv.1) =
            some (gl ++ [maxGen gl + 1]))) ∧
    (∀ ops, (∀ op ∈ ops, opValid op) →
      ∀ r, runOps ds w t ops = some r →
        StoreInv r.1 r.2.1 ∧
        ∀ kv ∈ r.1.files, ∀ gl, gensOf r.1.path kv.2 = some gl →
          gl.Nodup) := by
  constructor
  · intro u n hop r h
    obtain ⟨hnd, hvk⟩ := hop
    obtain ⟨ds2, w2, hsave, _, _, _, hinv2, hlen, hgun, hgnm⟩ :=
      save_inv ds w t u n hinv hnd hvk
    have h' : save ds w t u n = some r := h
    rw [hsave] at h'
    injection h' with h''
    subst h''
    exact ⟨hinv2, hlen, hgun, hgnm⟩
  · intro ops hops r h
    obtain ⟨hinv2, hpath2⟩ := runOps_inv ops ds w t hinv hops r h
    refine ⟨hinv2, ?_⟩
    intro kv hkv gl hgl
    have hs := hinv2.2.2.2.1 kv hkv
    rw [hgl] at hs
    exact pairwise_lt_nodup gl hs

/-- Concrete run of the C1 theorem from an empty well-formed store: saving
one positional and one named item writes two files into the empty
directory, the positional one at generation `1` under `unnamed` and the
named one at generation `1` under `k`, with the invariant intact; and a
save/rm/save sequence keeps every key's generations duplicate-free. -/
theorem c1_generation_witness :
    StoreInv ⟨"ds".toList, "d/ds".toList, Codec.joblib, []⟩
      ⟨[], ["d/ds".toList]⟩ ∧
    opValid (Op.sv [Value.obj 1] [("k".toList, Value.obj 2)]) ∧
    ((runOp ⟨"ds".toList, "d/ds".toList, Codec.joblib, []⟩
        ⟨[], ["d/ds".toList]⟩ 0
        (Op.sv [Value.obj 1] [("k".toList, Value.obj 2)])).map
      (fun r => ((dirFiles r.2.1 ("d/ds".toList)).length,
        gensOf ("d/ds".toList) (dGet r.1.files ("unnamed".toList)),
        gensOf ("d/ds".toList) (dGet r.1.files ("k".toList)),
        decide (StoreInv r.1 r.2.1))) =
      some (2, some [1], some [1], true)) := by
  refine ⟨by decide, by decide, ?_⟩
  have hsome : (runOp ⟨"ds".toList, "d/ds".toList, Codec.joblib, []⟩
      ⟨[], ["d/ds".toList]⟩ 0
      (Op.sv [Value.obj 1] [("k".toList, Value.obj 2)])).isSome = true := rfl
  rcases hrun : runOp ⟨"ds".toList, "d/ds".toList, Codec.joblib, []⟩
      ⟨[], ["d/ds".toList]⟩ 0
      (Op.sv [Value.obj 1] [("k".toList, Value.obj 2)]) with _ | r
  · rw [hrun] at hsome
    cases hsome
  · obtain ⟨hinvR, hlen, hgun, hgk⟩ :=
      (c1_generation_spec ⟨"ds".toList, "d/ds".toList, Codec.joblib, []⟩
        ⟨[], ["d/ds".toList]⟩ 0 (by decide)).1 [Value.obj 1]
        [("k".toList, Value.obj 2)] (by decide) r hrun
    have hlen' : (dirFiles r.2.1 ("d/ds".toList)).length = 2 := by
      rw [hlen]
      rfl
    have hgun' : gensOf ("d/ds".toList) (dGet r.1.files ("unnamed".toList)) =
        some [1] := by
      rw [hgun [] rfl]
      rfl
    have hgk' : gensOf ("d/ds".toList) (dGet r.1.files ("k".toList)) =
        some [1] := by
      rw [hgk ("k".toList, Value.obj 2) (List.mem_singleton.2 rfl) [] rfl]
      rfl
    rw [Option.map_some', hlen', hgun', hgk', decide_eq_true hinvR]

/-- C3: a single `save` call with `k` positional items succeeds, appends to
the `unnamed` key — in call order — the `k` generated handles whose parsed
generations are the consecutive run `max+1, ..., max+k` computed once from
the state before the call began; and in the concrete scenario, saving
`A, B, C` in one call from an empty store makes `last()` return `C`,
`[1]` return `B` and `[0:2]` return `[A, B]`. -/
theorem c3_unnamed_batch_spec (ds : DataSet) (w : World) (t : Nat)
    (vs : List Value) (hinv : StoreInv ds w) :
    (∃ gl, gensOf ds.path (dGet ds.files ("unnamed".toList)) = some gl ∧
      ∃ ds' w',
        save ds w t vs [] = some (ds', w', t + vs.length) ∧
        dGet ds'.files ("unnamed".toList) =
          dGet ds.files ("unnamed".toList) ++ unNames (maxGen gl) vs ∧
        gensOf ds.path (unNames (maxGen gl) vs) =
          some (List.range' (maxGen gl + 1) vs.length)) ∧
    ((save ⟨"ds".toList, "d/ds".toList, Codec.joblib, []⟩
        ⟨[], ["d/ds".toList]⟩ 0 [Value.obj 1, Value.obj 2, Value.obj 3] []).map
      (fun r => (lastOp r.1 r.2.1 none,
        getitem r.1 r.2.1 (Item.idx (PyIndex.int 1)),
        getitem r.1 r.2.1 (Item.idx (PyIndex.slice (some 0) (some 2))))) =
      some (some (Value.obj 3), some (GRes.one (Value.obj 2)),
        some (GRes.many [Value.obj 1, Value.obj 2]))) := by
  obtain ⟨⟨glu, hglu, hglup⟩, _⟩ := StoreInv_dGet ds w hinv ("unnamed".toList)
  have hM := get_file_index_sorted ds _ glu hglu hglup
  obtain ⟨ds1, w1, heq1, _, hpath1, _, _, hun1, _, _, _, _, _, _⟩ :=
    saveUnnamed_spec vs ds w t 0 (maxGen glu) (by rw [if_pos rfl]; exact hM)
  refine ⟨⟨glu, hglu, ds1, w1, ?_, hun1, gensOf_unNames ds.path vs (maxGen glu)⟩, ?_⟩
  · rw [save, heq1]
    rfl
  · rfl

/-- Concrete run of the C3 theorem: from an empty store, one call saving
three plain objects appends exactly the handles `@1.pkl.z`, `@2.pkl.z`,
`@3.pkl.z` — generations `1, 2, 3` — under the `unnamed` key. -/
theorem c3_unnamed_batch_witness :
    StoreInv ⟨"ds".toList, "d/ds".toList, Codec.joblib, []⟩
      ⟨[], ["d/ds".toList]⟩ ∧
    ((save ⟨"ds".toList, "d/ds".toList, Codec.joblib, []⟩
        ⟨[], ["d/ds".toList]⟩ 0 [Value.obj 1, Value.obj 2, Value.obj 3] []).map
      (fun r => dGet r.1.files ("unnamed".toList))) =
      some ["@1.pkl.z".toList, "@2.pkl.z".toList, "@3.pkl.z".toList] := by
  refine ⟨by decide, ?_⟩
  obtain ⟨⟨gl, hgl, ds', w', hsave, happ, _⟩, _⟩ :=
    c3_unnamed_batch_spec ⟨"ds".toList, "d/ds".toList, Codec.joblib, []⟩
      ⟨[], ["d/ds".toList]⟩ 0 [Value.obj 1, Value.obj 2, Value.obj 3]
      (by decide)
  have hgl0 : gl = [] := by
    have h0 : gensOf ("d/ds".toList)
        (dGet ([] : List (Str × List Str)) ("unnamed".toList)) =
        some [] := rfl
    rw [h0] at hgl
    injection hgl with h
    exact h.symm
  subst hgl0
  rw [hsave, Option.map_some', happ]
  rfl
